import Mathlib

/-!
# PIGO COO parser: a shallow embedding

This file embeds the COO (coordinate format) text/binary reader of the PIGO
library (`src/include/pigo/impl/coo.impl.hpp` and
`src/include/pigo/impl/pigo.impl.hpp`) in Lean and proves properties of the
embedding.

A byte region is a `List Char`; a `FileReader` is a pair of cursor and end
positions into the region (the region data itself is passed separately so
that distinct readers can share it, as in the source where `d` and `end`
are pointers into one mmap).  Loops are compiled to fuel-based structural
recursion; every wrapper supplies fuel `end - d` (plus a constant), which
always suffices because each loop iteration advances the cursor.

Machine-integer labels (`L`) are modelled as `Nat`: none of the properties
proved here depend on overflow wrap-around, and all concrete inputs use
small values.  Floating-point weights are modelled as exact rationals: the
reader's cursor movement is embedded faithfully, and no claim below depends
on the numeric value of a weight beyond determinism (`std::pow` rounding
is abstracted; a fractional exponent, which the source feeds to
`std::pow` on doubles, is modelled as a zero factor).
-/

namespace Pigo

/-- Reads the byte at position `i`; out-of-range reads (which in the source
are reads beyond the mmap) return a NUL byte. -/
def chAt (data : List Char) (i : Nat) : Char := data.getD i (Char.ofNat 0)

/-- A `FileReader`: current position `d` and end position `e` into a shared
byte region. -/
structure Reader where
  d : Nat
  e : Nat
deriving Repr, DecidableEq

/-- `FileReader::good`, modelled from the spec (§4.1): `good() = pos < end`. -/
def Reader.good (r : Reader) : Bool := r.d < r.e

/-- `FileReader::size`, modelled from the spec (§4.3): remaining bytes. -/
def Reader.size (r : Reader) : Nat := r.e - r.d

/-- `*d >= '0' && *d <= '9'` -/
def isDig (c : Char) : Bool := decide ('0' ≤ c) && decide (c ≤ '9')

/-- the character class accepted by the floating-point scanner -/
def isFpCh (c : Char) : Bool :=
  isDig c || c == 'e' || c == 'E' || c == '-' || c == '+' || c == '.'

/-- is the byte a comment opener (`'%'` or `'#'`)? -/
def isCmt (c : Char) : Bool := c == '%' || c == '#'

/-- fuel-based `while (d < end && p(*d)) ++d` -/
def advWhileF (data : List Char) (p : Char → Bool) : Nat → Reader → Reader
  | 0, r => r
  | fuel+1, r =>
    if r.good && p (chAt data r.d) then advWhileF data p fuel ⟨r.d + 1, r.e⟩ else r

/-- `while (d < end && p(*d)) ++d`, with exactly sufficient fuel -/
def advWhile (data : List Char) (p : Char → Bool) (r : Reader) : Reader :=
  advWhileF data p (r.e - r.d) r

/-- `FileReader::move_to_non_int` -/
def moveToNonInt (data : List Char) (r : Reader) : Reader :=
  advWhile data isDig r

/-- `FileReader::move_to_eol` -/
def moveToEol (data : List Char) (r : Reader) : Reader :=
  advWhile data (fun c => !(c == '\n')) r

/-- inner loop of `skip_comments`: `while (d < end && (*d++ != '\n'))`,
i.e. advance to the next newline and consume it -/
def skipPastEol (data : List Char) (r : Reader) : Reader :=
  let r1 := advWhile data (fun c => !(c == '\n')) r
  if r1.good then ⟨r1.d + 1, r1.e⟩ else r1

/-- fuel-based outer loop of `FileReader::skip_comments` -/
def skipCommentsF (data : List Char) : Nat → Reader → Reader
  | 0, r => r
  | fuel+1, r =>
    if r.good && isCmt (chAt data r.d) then
      skipCommentsF data fuel (skipPastEol data r)
    else r

/-- `FileReader::skip_comments` -/
def skipComments (data : List Char) (r : Reader) : Reader :=
  skipCommentsF data (r.e - r.d) r

/-- fuel-based loop of `move_to_first_int`:
`while (d < end && !digit(*d)) { ++d; if (*d=='%'||*d=='#') skip_comments(); }` -/
def mtfiF (data : List Char) : Nat → Reader → Reader
  | 0, r => r
  | fuel+1, r =>
    if r.good && !(isDig (chAt data r.d)) then
      let r1 : Reader := ⟨r.d + 1, r.e⟩
      let r2 := if isCmt (chAt data r1.d) then skipComments data r1 else r1
      mtfiF data fuel r2
    else r

/-- `FileReader::move_to_first_int` -/
def moveToFirstInt (data : List Char) (r : Reader) : Reader :=
  let r0 := if isCmt (chAt data r.d) then skipComments data r else r
  mtfiF data (r0.e - r0.d) r0

/-- `FileReader::move_to_next_int` -/
def moveToNextInt (data : List Char) (r : Reader) : Reader :=
  moveToFirstInt data (moveToNonInt data r)

/-- fuel-based loop of `move_to_next_signed_int`: like `mtfiF` but also
stopping at `'+'`/`'-'` -/
def mtnsiF (data : List Char) : Nat → Reader → Reader
  | 0, r => r
  | fuel+1, r =>
    if r.good && !(isDig (chAt data r.d)) &&
        !(chAt data r.d == '+') && !(chAt data r.d == '-') then
      let r1 : Reader := ⟨r.d + 1, r.e⟩
      let r2 := if isCmt (chAt data r1.d) then skipComments data r1 else r1
      mtnsiF data fuel r2
    else r

/-- `FileReader::move_to_next_signed_int` -/
def moveToNextSignedInt (data : List Char) (r : Reader) : Reader :=
  let r1 := if chAt data r.d == '+' || chAt data r.d == '-' then
    (⟨r.d + 1, r.e⟩ : Reader) else r
  let r2 := moveToNonInt data r1
  let r3 := if isCmt (chAt data r2.d) then skipComments data r2 else r2
  mtnsiF data (r3.e - r3.d) r3

/-- `FileReader::move_to_non_fp` -/
def moveToNonFp (data : List Char) (r : Reader) : Reader :=
  advWhile data isFpCh r

/-- `FileReader::move_to_fp` -/
def moveToFp (data : List Char) (r : Reader) : Reader :=
  advWhile data (fun c => !(isFpCh c)) r

/-- digit-accumulation loop of `read_int`:
`while (d < end && digit(*d)) { res = res*10 + (*d-'0'); ++d; }` -/
def readDigitsF (data : List Char) : Nat → Nat → Reader → Nat × Reader
  | 0, acc, r => (acc, r)
  | fuel+1, acc, r =>
    if r.good && isDig (chAt data r.d) then
      readDigitsF data fuel (acc * 10 + ((chAt data r.d).toNat - '0'.toNat))
        ⟨r.d + 1, r.e⟩
    else (acc, r)

/-- `FileReader::read_int<T>`: skip to the first digit, then fold decimal
digits (value modelled as an unbounded natural) -/
def readInt (data : List Char) (r : Reader) : Nat × Reader :=
  let r1 := advWhile data (fun c => !(isDig c)) r
  readDigitsF data (r1.e - r1.d) 0 r1

/-- Modelled from the spec (§4.2 `read_signed`): `FileReader::read_sign`
(declared outside `src/`) consumes an optional leading `'+'`/`'-'` and
returns the sign factor. -/
def readSign (data : List Char) (r : Reader) : Int × Reader :=
  if chAt data r.d == '-' then (-1, ⟨r.d + 1, r.e⟩)
  else if chAt data r.d == '+' then (1, ⟨r.d + 1, r.e⟩)
  else (1, r)

/-- `10^q` for the exponent part of the float grammar.  The source computes
`std::pow(10., exp)` on doubles; an integral exponent is modelled exactly,
a fractional one (irrational result) by `0`.  No claim proved below
depends on this choice. -/
def qpow10 (q : ℚ) : ℚ := if q.den = 1 then (10 : ℚ) ^ q.num else 0

/-- the sign handling at the head of `read_fp` (`if (*d == '-') ...`) -/
def readFpSign (data : List Char) (r : Reader) : Bool × Reader :=
  if chAt data r.d == '-' then (false, (⟨r.d + 1, r.e⟩ : Reader))
  else if chAt data r.d == '+' then (true, (⟨r.d + 1, r.e⟩ : Reader))
  else (true, r)

/-- the fraction part of `read_fp` (`if (*d == '.') ...`): read the `B`
digits and add `frac / 10^count` -/
def readFpFrac (data : List Char) (res : ℚ) (r : Reader) : ℚ × Reader :=
  if chAt data r.d == '.' then
    let fpr := readDigitsF data (r.e - (r.d + 1)) 0 ⟨r.d + 1, r.e⟩
    (res + (fpr.1 : ℚ) / (10 : ℚ) ^ (fpr.2.d - (r.d + 1)), fpr.2)
  else (res, r)

/-- `FileReader::read_fp<T>`: the grammar `[+-]?D*('.'D*)?([eE]fp)?` with
nested `read_fp` for the exponent, value modelled as an exact rational. -/
def readFpF (data : List Char) : Nat → Reader → ℚ × Reader
  | 0, r => (0, r)
  | fuel+1, r =>
    let r := advWhile data (fun c => !(isFpCh c)) r
    let pr := readFpSign data r
    let ipr := readDigitsF data (pr.2.e - pr.2.d) 0 pr.2
    let fr := readFpFrac data (ipr.1 : ℚ) ipr.2
    let er :=
      if chAt data fr.2.d == 'e' || chAt data fr.2.d == 'E' then
        let epr := readFpF data fuel ⟨fr.2.d + 1, fr.2.e⟩
        (fr.1 * qpow10 epr.1, epr.2)
      else fr
    (if pr.1 then er.1 else -er.1, er.2)

/-- `FileReader::read_fp<T>` with sufficient fuel for the nested exponent
recursion (each nesting level consumes at least the `'e'` byte) -/
def readFp (data : List Char) (r : Reader) : ℚ × Reader :=
  readFpF data (r.e - r.d + 1) r

/-- `FileReader::at_str`: true only when strictly more than `s.length`
bytes remain and the next bytes match `s` -/
def atStr (data : List Char) (r : Reader) (s : List Char) : Bool :=
  if r.d + s.length ≥ r.e then false
  else (data.drop r.d).take s.length == s

end Pigo

namespace Pigo

/-- the arithmetic class of the weight type `W`, which the source dispatches
on via `std::is_integral` / `std::is_signed` / `std::is_floating_point` -/
inductive WKind
  | iSigned
  | iUnsigned
  | flt
deriving Repr, DecidableEq

/-- the state threaded through a scan: write logs for the `X`/`Y`/`W`
storages (chronological lists of (index, value) stores), the output cursor
`coord_pos`, the reader, and the per-worker maxima -/
structure ScanSt where
  xs : List (Nat × Nat)
  ys : List (Nat × Nat)
  ws : List (Nat × ℚ)
  pos : Nat
  r : Reader
  maxRow : Nat
  maxCol : Nat
deriving Repr, DecidableEq

/-- `detail::get_value_` on a write log: the value of the latest store at
index `i` (or `dflt` when the slot was never stored, modelling the
indeterminate contents of fresh storage) -/
def storeGet {α : Type} (l : List (Nat × α)) (i : Nat) (dflt : α) : α :=
  (l.foldl (fun a p => if p.1 = i then some p.2 else a) none).getD dflt

/-- `detail::read_wgt_<wgt,W,WS,true>` (the counting specializations):
cursor movement only -/
def readWgtCount (data : List Char) (wgt : Bool) (k : WKind) (r : Reader) : Reader :=
  if wgt then
    match k with
    | .iSigned => moveToNextSignedInt data r
    | .iUnsigned => moveToNextInt data r
    | .flt => moveToNonFp data (moveToFp data r)
  else r

/-- `detail::read_wgt_<wgt,W,WS,false>` (the reading specializations):
note that the weight is stored at `coord_pos` unconditionally, before the
caller decides whether the record is kept -/
def readWgtSet (data : List Char) (wgt : Bool) (k : WKind) (pos : Nat)
    (ws : List (Nat × ℚ)) (r : Reader) : List (Nat × ℚ) × Reader :=
  if wgt then
    match k with
    | .iSigned =>
      let r1 := moveToNextSignedInt data r
      let sr := readSign data r1
      let vr := readInt data sr.2
      (ws ++ [(pos, ((sr.1 * (vr.1 : Int) : Int) : ℚ))], vr.2)
    | .iUnsigned =>
      let r1 := moveToNextInt data r
      let vr := readInt data r1
      (ws ++ [(pos, (vr.1 : ℚ))], vr.2)
    | .flt =>
      let r1 := moveToFp data r
      let vr := readFp data r1
      (ws ++ [(pos, vr.1)], moveToNonFp data vr.2)
  else (ws, r)

/-- `detail::read_coord_entry_i_<...,true>::op_` — the general (flagged)
count-only specialization, lines 231-249; the tail recursion on dropped
records is fuel-based -/
def genCountBody (data : List Char) (sym ut sl : Bool) (rec : ScanSt → ScanSt)
    (x y : Nat) (r4 : Reader) (st : ScanSt) : ScanSt :=
  if !r4.good then { st with r := r4 }
  else
    let r6 := moveToNextInt data (moveToEol data r4)
    if sl && x == y then rec { st with r := r6 }
    else if !sym && ut && decide (y < x) then rec { st with r := r6 }
    else
      let p1 := if sym && !ut && !(x == y) then st.pos + 1 else st.pos
      { st with r := r6, pos := p1 + 1 }

def genCountF (data : List Char) (k : WKind) (sym ut sl wgt : Bool) :
    Nat → ScanSt → ScanSt
  | 0, st => st
  | fuel+1, st =>
    let xr := readInt data st.r
    let yr := readInt data (moveToNextInt data xr.2)
    genCountBody data sym ut sl (genCountF data k sym ut sl wgt fuel) xr.1 yr.1
      (readWgtCount data wgt k yr.2) st

/-- the emit step of the general setting specialization (lines 269-284):
swap to `(min,max)` under `sym ∧ ut`, store the entry at `coord_pos`,
store the mirror copy (and copy its weight) under `sym ∧ ¬ut` when
`x ≠ y`, advance the output cursor, and update the running maxima with
the (possibly swapped) `x` and `y` only -/
def emitKept (sym ut wgt : Bool) (x y : Nat) (r6 : Reader)
    (ws1 : List (Nat × ℚ)) (st : ScanSt) : ScanSt :=
  let x1 := if sym && ut && decide (y < x) then y else x
  let y1 := if sym && ut && decide (y < x) then x else y
  let xs1 := st.xs ++ [(st.pos, x1)]
  let ys1 := st.ys ++ [(st.pos, y1)]
  let p1 := st.pos + 1
  let mirror := sym && !ut && !(x1 == y1)
  let ws2 := if mirror && wgt then ws1 ++ [(p1, storeGet ws1 (p1 - 1) 0)] else ws1
  let xs2 := if mirror then xs1 ++ [(p1, y1)] else xs1
  let ys2 := if mirror then ys1 ++ [(p1, x1)] else ys1
  let p2 := if mirror then p1 + 1 else p1
  { xs := xs2, ys := ys2, ws := ws2, pos := p2, r := r6,
    maxRow := if decide (st.maxRow < x1) then x1 else st.maxRow,
    maxCol := if decide (st.maxCol < y1) then y1 else st.maxCol }

/-- `detail::read_coord_entry_i_<...,false>::op_` — the general (flagged)
setting specialization, lines 253-285 -/
def genSetBody (data : List Char) (sym ut sl wgt : Bool) (rec : ScanSt → ScanSt)
    (x y : Nat) (ws1 : List (Nat × ℚ)) (r4 : Reader) (st : ScanSt) : ScanSt :=
  if !r4.good then { st with ws := ws1, r := r4 }
  else
    let r6 := moveToNextInt data (moveToEol data r4)
    if sl && x == y then rec { st with ws := ws1, r := r6 }
    else if !sym && ut && decide (y < x) then rec { st with ws := ws1, r := r6 }
    else emitKept sym ut wgt x y r6 ws1 st

def genSetF (data : List Char) (k : WKind) (sym ut sl wgt : Bool) :
    Nat → ScanSt → ScanSt
  | 0, st => st
  | fuel+1, st =>
    let xr := readInt data st.r
    let yr := readInt data (moveToNextInt data xr.2)
    let wr := readWgtSet data wgt k st.pos st.ws yr.2
    genSetBody data sym ut sl wgt (genSetF data k sym ut sl wgt fuel) xr.1 yr.1
      wr.1 wr.2 st

/-- `detail::read_coord_entry_i_<...,false,false,false,...,true>::op_` —
the count-only specialization without flags, lines 289-298: it never reads
the values and checks `good` right after reaching the second integer -/
def nfCount (data : List Char) (st : ScanSt) : ScanSt :=
  let r1 := moveToNextInt data st.r
  if !r1.good then { st with r := r1 }
  else
    let r3 := moveToNextInt data (moveToEol data r1)
    { st with r := r3, pos := st.pos + 1 }

/-- `detail::read_coord_entry_i_<...,false,false,false,...,false>::op_` —
the setting specialization without flags, lines 301-317 -/
def nfSetBody (data : List Char) (x y : Nat) (ws1 : List (Nat × ℚ))
    (r4 : Reader) (st : ScanSt) : ScanSt :=
  if !r4.good then { st with ws := ws1, r := r4 }
  else
    let r6 := moveToNextInt data (moveToEol data r4)
    { st with
      xs := st.xs ++ [(st.pos, x)],
      ys := st.ys ++ [(st.pos, y)],
      ws := ws1,
      pos := st.pos + 1,
      r := r6,
      maxRow := if decide (st.maxRow < x) then x else st.maxRow,
      maxCol := if decide (st.maxCol < y) then y else st.maxCol }

def nfSet (data : List Char) (k : WKind) (wgt : Bool) (st : ScanSt) : ScanSt :=
  let xr := readInt data st.r
  let yr := readInt data (moveToNextInt data xr.2)
  let wr := readWgtSet data wgt k st.pos st.ws yr.2
  nfSetBody data xr.1 yr.1 wr.1 wr.2 st

/-- `COO::read_coord_entry_<true>`: template specialization resolution
picks the no-flag variant exactly when `sym`, `ut` and `sl` are all false -/
def stepCount (data : List Char) (k : WKind) (sym ut sl wgt : Bool)
    (st : ScanSt) : ScanSt :=
  if sym == false && ut == false && sl == false then nfCount data st
  else genCountF data k sym ut sl wgt (st.r.e - st.r.d + 1) st

/-- `COO::read_coord_entry_<false>` -/
def stepSet (data : List Char) (k : WKind) (sym ut sl wgt : Bool)
    (st : ScanSt) : ScanSt :=
  if sym == false && ut == false && sl == false then nfSet data k wgt st
  else genSetF data k sym ut sl wgt (st.r.e - st.r.d + 1) st

/-- fuel-based `while (rs.good()) read_coord_entry_(...)` -/
def scanLoopF (step : ScanSt → ScanSt) : Nat → ScanSt → ScanSt
  | 0, st => st
  | fuel+1, st => if st.r.good then scanLoopF step fuel (step st) else st

/-- `while (rs.good()) read_coord_entry_(...)`; any record processed while
`good` advances the cursor, so fuel `e - d + 1` suffices -/
def scanLoop (step : ScanSt → ScanSt) (st : ScanSt) : ScanSt :=
  scanLoopF step (st.r.e - st.r.d + 1) st

/-- a fresh scan state over reader `rr` with output cursor `pos` -/
def initSt (rr : Reader) (pos : Nat) : ScanSt :=
  { xs := [], ys := [], ws := [], pos := pos, r := rr, maxRow := 0, maxCol := 0 }

/-- the boundary adjustment of `COO::read_el_` (lines 441-460): worker `t`
of `P` gets the arithmetic split of the remaining region, advances its
start past the next newline to the next integer (worker `0`: to the first
integer), computes its end the same way from the next boundary, and shrinks
its end to that point (`smaller_end`, modelled from the spec §4.1
`set_end_min`) -/
def workerReader (data : List Char) (r : Reader) (P t : Nat) : Reader :=
  let size := r.size
  let rs : Reader := ⟨r.d + (t * size) / P, r.e⟩
  let re : Reader := ⟨r.d + ((t + 1) * size) / P, r.e⟩
  let re1 := moveToNextInt data (moveToEol data re)
  let rs1 := if t != 0 then moveToNextInt data (moveToEol data rs)
    else moveToFirstInt data rs
  { rs1 with e := if re1.d < rs1.e then re1.d else rs1.e }

/-- the result of `COO::read_el_`: the write logs of the three storages,
and the sizes computed from the two passes -/
structure ElResult where
  xs : List (Nat × Nat)
  ys : List (Nat × Nat)
  ws : List (Nat × ℚ)
  m : Nat
  nrows : Nat
  ncols : Nat
  n : Nat
deriving Repr, DecidableEq

/-- `COO::read_el_` (lines 408-506) with `P` workers, modelled as the
sequential composition of the workers' deterministic scans: pass 1 counts
per worker, an exclusive prefix sum sizes the output, pass 2 repopulates
from each worker's starting offset, and the maxima are reduced at the end
(`nrows = max_row+1`, `ncols = max_col+1`, `n = max(nrows, ncols)`). -/
def readEl (data : List Char) (k : WKind) (sym ut sl wgt : Bool) (P : Nat)
    (r : Reader) : ElResult :=
  let workers := (List.range P).map (fun t => workerReader data r P t)
  let counts := workers.map
    (fun rr => (scanLoop (stepCount data k sym ut sl wgt) (initSt rr 0)).pos)
  let m := counts.sum
  let sts := (List.range P).map (fun t =>
    scanLoop (stepSet data k sym ut sl wgt)
      (initSt (workers.getD t ⟨0, 0⟩) ((counts.take t).sum)))
  let maxRow := (sts.map ScanSt.maxRow).foldl max 0
  let maxCol := (sts.map ScanSt.maxCol).foldl max 0
  let nrows := maxRow + 1
  let ncols := maxCol + 1
  { xs := (sts.map ScanSt.xs).flatten,
    ys := (sts.map ScanSt.ys).flatten,
    ws := (sts.map ScanSt.ws).flatten,
    m := m,
    nrows := nrows,
    ncols := ncols,
    n := if ncols < nrows then nrows else ncols }

end Pigo

namespace Pigo

/-- the file types of `FileType` (`AUTO` resolved before use) -/
inductive FileType
  | cooBin
  | csrBin
  | digraphBin
  | tensorBin
  | matrixMarket
  | graph
  | edgeList
deriving Repr, DecidableEq

/-- Modelled from the spec (§4.3): the four fixed ASCII magic strings; the
spec gives the shape `PIGO-COO-v<N>` with a common `PIGO` stem.  Aside
from the common stem and mutual distinctness nothing below depends on the
exact characters. -/
def cooFileHeader : List Char := "PIGO-COO-v2".data

/-- Modelled from the spec (§4.3): the CSR binary magic. -/
def csrFileHeader : List Char := "PIGO-CSR-v2".data

/-- Modelled from the spec (§4.3): the DiGraph binary magic. -/
def digraphFileHeader : List Char := "PIGO-DiGraph-v2".data

/-- Modelled from the spec (§4.3): the Tensor binary magic. -/
def tensorFileHeader : List Char := "PIGO-Tensor-v2".data

/-- `File::File` (read path) followed by the final `seek(0)`
(`pigo.impl.hpp` lines 59-77, 129-133): the constructor memory-maps the
contents and ends with `seek(0)`, and `seek` throws when `pos >= size_`,
so opening an empty file raises an error.  (The mmap syscalls themselves
are elided.) -/
def fileOpenRO (contents : List Char) : Except String Unit :=
  if contents.length ≤ 0 then Except.error "seeking beyond end of file"
  else Except.ok ()

/-- `File::read(const std::string&)` (`pigo.impl.hpp` lines 105-111) at
file position `fp`: succeed and advance only when `at_str` matches -/
def fileReadStr (contents : List Char) (fp : Nat) (s : List Char) :
    Except String Nat :=
  if atStr contents ⟨fp, contents.length⟩ s then Except.ok (fp + s.length)
  else Except.error "Cannot read the given string"

/-- `File::guess_file_type` (`pigo.impl.hpp` lines 135-163) -/
def guessFileType (contents fn : List Char) : Except String FileType :=
  let r : Reader := ⟨0, contents.length⟩
  if atStr contents r cooFileHeader then Except.ok FileType.cooBin
  else if atStr contents r csrFileHeader then Except.ok FileType.csrBin
  else if atStr contents r digraphFileHeader then Except.ok FileType.digraphBin
  else if atStr contents r tensorFileHeader then Except.ok FileType.tensorBin
  else if atStr contents r ("PIGO".data) then
    Except.error "Unsupported PIGO binary format, likely version mismatch"
  else if (".mtx".data).isSuffixOf fn then Except.ok FileType.matrixMarket
  else if (".graph".data).isSuffixOf fn then Except.ok FileType.graph
  else Except.ok FileType.edgeList

/-- outcome of the MatrixMarket post-read sanity check: either the final
`nrows_`, `ncols_`, `n_`, or an error, recording whether `free()` ran
before the throw -/
inductive MMRes
  | ok (nrows ncols n : Nat)
  | err (freed : Bool) (msg : String)
deriving Repr, DecidableEq

/-- is the outcome an error? -/
def MMRes.isErr : MMRes → Bool
  | .ok _ _ _ => false
  | .err _ _ => true

/-- `COO::read_mm_`, the sanity check after `read_el_` (`coo.impl.hpp`
lines 373-405).  `nrows`/`ncols` are the header values already shifted by
`+1`; `nrowsP`/`ncolsP`/`m` are the values `read_el_` produced.  Note the
last branch: its guard repeats `&& !sl` inside the `sl` branch, so it can
never fire. -/
def mmValidate (sym sl : Bool) (nrows ncols nnz : Nat) (nrowsP ncolsP m : Nat) :
    MMRes :=
  if decide (nrowsP ≤ nrows) then
    if decide (ncolsP ≤ ncols) then
      let fin : MMRes :=
        MMRes.ok nrows ncols (if decide (ncols < nrows) then nrows else ncols)
      if sym then
        if decide (2 * m < nnz) then
          MMRes.err true "Header wants more non-zeros than found"
        else fin
      else if !sl then
        if decide (m < nnz) then
          MMRes.err true "Header wants more non-zeros than read"
        else fin
      else
        if !(nnz == m) && !sl then
          MMRes.err true "Header contradicts number of read non-zeros"
        else fin
    else MMRes.err true "Too many col labels in file contradicting header"
  else MMRes.err true "Too many row labels in file contradicting header"

/-- little-endian encoding of `v` into `w` bytes (the raw in-memory
representation written by `File::write<T>` on a little-endian machine) -/
def natLE : Nat → Nat → List Nat
  | 0, _ => []
  | w+1, v => v % 256 :: natLE w (v / 256)

/-- decoding of a little-endian byte list -/
def leToNat : List Nat → Nat
  | [] => 0
  | b :: bs => b + 256 * leToNat bs

/-- `k` raw bytes starting at `pos` (reads beyond the end return 0; the
source's `parallel_read`/`read<T>` do not bounds-check) -/
def readBytesAt (bs : List Nat) (pos k : Nat) : List Nat :=
  (List.range k).map (fun i => bs.getD (pos + i) 0)

/-- `at_str` over a byte file (used by `File::read(coo_file_header)`) -/
def atStrB (bs : List Nat) (pos : Nat) (s : List Char) : Bool :=
  if pos + s.length ≥ bs.length then false
  else (bs.drop pos).take s.length == s.map Char.toNat

/-- the in-memory COO data that `save`/`read_bin_` serialize: sizes plus
the `X`/`Y` contents and the raw weight values -/
structure BinCoo where
  nrows : Nat
  ncols : Nat
  n : Nat
  m : Nat
  xs : List Nat
  ys : List Nat
  ws : List Nat
deriving Repr, DecidableEq

/-- `COO::save` (`coo.impl.hpp` lines 508-554): header, the two width
bytes, `nrows ncols n m`, then the `X`, `Y` and (if `wgt`) weight payloads
as raw bytes -/
def cooSave (Lsz Osz Wsz : Nat) (wgt : Bool) (c : BinCoo) : List Nat :=
  cooFileHeader.map Char.toNat ++ [Lsz % 256, Osz % 256] ++
  natLE Lsz c.nrows ++ natLE Lsz c.ncols ++ natLE Lsz c.n ++ natLE Osz c.m ++
  (c.xs.map (natLE Lsz)).flatten ++ (c.ys.map (natLE Lsz)).flatten ++
  (if wgt then (c.ws.map (natLE Wsz)).flatten else [])

/-- `COO::read_bin_` (`coo.impl.hpp` lines 556-592) together with the
`File` construction (empty-file seek check) and the header check of
`File::read(coo_file_header)` -/
def cooLoad (Lsz Osz Wsz : Nat) (wgt : Bool) (bs : List Nat) :
    Except String BinCoo :=
  if bs.length ≤ 0 then Except.error "seeking beyond end of file"
  else if !(atStrB bs 0 cooFileHeader) then
    Except.error "Cannot read the given string"
  else
    let p0 := cooFileHeader.length
    if !(bs.getD p0 0 == Lsz) then
      Except.error "Invalid COO template parameters to match binary"
    else if !(bs.getD (p0 + 1) 0 == Osz) then
      Except.error "Invalid COO template parameters to match binary"
    else
      let p1 := p0 + 2
      let nrows := leToNat (readBytesAt bs p1 Lsz)
      let ncols := leToNat (readBytesAt bs (p1 + Lsz) Lsz)
      let n := leToNat (readBytesAt bs (p1 + 2 * Lsz) Lsz)
      let m := leToNat (readBytesAt bs (p1 + 3 * Lsz) Osz)
      let pX := p1 + 3 * Lsz + Osz
      let pY := pX + m * Lsz
      let pW := pY + m * Lsz
      Except.ok
        { nrows := nrows, ncols := ncols, n := n, m := m,
          xs := (List.range m).map
            (fun i => leToNat (readBytesAt bs (pX + i * Lsz) Lsz)),
          ys := (List.range m).map
            (fun i => leToNat (readBytesAt bs (pY + i * Lsz) Lsz)),
          ws := if wgt then (List.range m).map
            (fun i => leToNat (readBytesAt bs (pW + i * Wsz) Wsz)) else [] }

/-- Modelled from the spec (§4.5): the CSR container seen by the converter,
`offsets[0..n+1]` and `endpoints[0..off[n])` plus optional weights.  The
conversion code itself is in `src/`. -/
structure CsrIn where
  n : Nat
  m : Nat
  offsets : List Nat
  endpoints : List Nat
  weights : List ℚ
deriving Repr, DecidableEq

/-- result of `COO::convert_csr_`: sizes and write logs (the function does
not touch `nrows_`/`ncols_`) -/
structure ConvOut where
  n : Nat
  m : Nat
  xs : List (Nat × Nat)
  ys : List (Nat × Nat)
  ws : List (Nat × ℚ)
deriving Repr, DecidableEq

/-- the inner loop of `convert_csr_` (lines 106-128) for one vertex `v`:
emit each arc starting at output cursor `c`; under `sym ∧ ¬ut` the mirror
entry `(u,v)` is written first at `c` and the natural entry at `c+1` -/
def emitArcs (sym ut wgt : Bool) (v : Nat) :
    Nat → List (Nat × ℚ) → List (Nat × Nat) × List (Nat × Nat) × List (Nat × ℚ)
  | _, [] => ([], [], [])
  | c, a :: rest =>
    if sym && !ut then
      let t := emitArcs sym ut wgt v (c + 2) rest
      ((c, a.1) :: (c + 1, v) :: t.1,
       (c, v) :: (c + 1, a.1) :: t.2.1,
       if wgt then (c, a.2) :: (c + 1, a.2) :: t.2.2 else t.2.2)
    else
      let nx := if sym && ut && decide (a.1 < v) then a.1 else v
      let ny := if sym && ut && decide (a.1 < v) then v else a.1
      let t := emitArcs sym ut wgt v (c + 1) rest
      ((c, nx) :: t.1, (c, ny) :: t.2.1,
       if wgt then (c, a.2) :: t.2.2 else t.2.2)

/-- the arcs of vertex `v` with their weights (index-based so that an
absent weight array reads as zeros) -/
def csrArcs (csr : CsrIn) (v : Nat) : List (Nat × ℚ) :=
  let s := csr.offsets.getD v 0
  let e := csr.offsets.getD (v + 1) 0
  (List.range (e - s)).map
    (fun j => (csr.endpoints.getD (s + j) 0, csr.weights.getD (s + j) 0))

/-- `COO::convert_csr_` (`coo.impl.hpp` lines 66-130): set `n_ = csr.n`,
`m_ = csr.m` (doubled under `sym ∧ ¬ut`), raise the two
`NotYetImplemented` errors before `allocate_()`, then emit every vertex's
arcs starting at `offsets[v]` (doubled under `sym ∧ ¬ut`). -/
def convertCsr (sym ut sl wgt : Bool) (csr : CsrIn) : Except String ConvOut :=
  let m := if sym && !ut then csr.m * 2 else csr.m
  if !sym && ut then
    Except.error "Keeping triangle only from CSR not yet implemented"
  else if sl then
    Except.error "Removing self loops from CSR not yet implemented"
  else
    let logs := (List.range csr.n).map (fun v =>
      let s := csr.offsets.getD v 0
      let c0 := if sym && !ut then s * 2 else s
      emitArcs sym ut wgt v c0 (csrArcs csr v))
    Except.ok
      { n := csr.n, m := m,
        xs := (logs.map (fun t => t.1)).flatten,
        ys := (logs.map (fun t => t.2.1)).flatten,
        ws := (logs.map (fun t => t.2.2)).flatten }

end Pigo

namespace Pigo

/-- does the region contain no decimal digit at all? -/
def noDigit (data : List Char) : Bool := data.all (fun c => !(isDig c))

/-- the text of one well-formed edge record: the digit strings of `x`, `y`
and (when weighted) `w` -/
structure RecTxt where
  xd : List Char
  yd : List Char
  wd : List Char
deriving Repr, DecidableEq

/-- is `l` a nonempty string of decimal digits? -/
def digStrB (l : List Char) : Bool := !(l.isEmpty) && l.all isDig

/-- well-formedness of a record's text: nonempty digit strings (weights
restricted to plain digit runs, which all three weight classes accept) -/
def recWF (wgt : Bool) (t : RecTxt) : Bool :=
  digStrB t.xd && digStrB t.yd && (!wgt || digStrB t.wd)

/-- the value of a digit string, as folded by `read_int` -/
def digVal (l : List Char) : Nat :=
  l.foldl (fun a c => a * 10 + (c.toNat - '0'.toNat)) 0

/-- one rendered record line: `x SP y [SP w] LF` -/
def renderRec (wgt : Bool) (t : RecTxt) : List Char :=
  t.xd ++ [' '] ++ t.yd ++ (if wgt then ' ' :: t.wd else []) ++ ['\n']

/-- one rendered record with the final newline missing -/
def renderRecNoNl (wgt : Bool) (t : RecTxt) : List Char :=
  t.xd ++ [' '] ++ t.yd ++ (if wgt then ' ' :: t.wd else [])

/-- a rendered well-formed edge-list region -/
def renderInput (wgt : Bool) (l : List RecTxt) : List Char :=
  (l.map (renderRec wgt)).flatten

/-- the §3 filter: is the record dropped? -/
def recDrop (sym ut sl : Bool) (x y : Nat) : Bool :=
  (sl && x == y) || (!sym && ut && decide (y < x))

/-- the §3 filter: is the record mirrored (emitted twice)? -/
def recMirror (sym ut : Bool) (x y : Nat) : Bool := sym && !ut && !(x == y)

/-- the upper-triangle fold: swap to `(min,max)` under `sym ∧ ut` -/
def swapXY (sym ut : Bool) (x y : Nat) : Nat × Nat :=
  if sym && ut && decide (y < x) then (y, x) else (x, y)

/-- how many entries the record contributes -/
def recEmits (sym ut sl : Bool) (x y : Nat) : Nat :=
  if recDrop sym ut sl x y then 0
  else if recMirror sym ut x y then 2 else 1

/-- total number of entries contributed by a record list -/
def emitsSum (sym ut sl : Bool) (l : List RecTxt) : Nat :=
  (l.map (fun t => recEmits sym ut sl (digVal t.xd) (digVal t.yd))).sum

/-- the final output cursor after processing `l` starting at `p` -/
def idealPos (sym ut sl : Bool) (p : Nat) (l : List RecTxt) : Nat :=
  p + emitsSum sym ut sl l

/-- The per-record write logs the setting pass produces on a rendered
well-formed input, starting at output cursor `p`: dropped records still
write their weight at the current cursor (mirroring
`read_wgt_<...,false>` running before the filter), kept records write the
entry (and the mirror copy) and advance the cursor. -/
def idealLogs (sym ut sl wgt : Bool) :
    Nat → List RecTxt →
    List (Nat × Nat) × List (Nat × Nat) × List (Nat × ℚ)
  | _, [] => ([], [], [])
  | p, t :: rest =>
    let x := digVal t.xd
    let y := digVal t.yd
    let w : ℚ := (digVal t.wd : ℚ)
    if recDrop sym ut sl x y then
      let tl := idealLogs sym ut sl wgt p rest
      (tl.1, tl.2.1, (if wgt then [(p, w)] else []) ++ tl.2.2)
    else
      let sw := swapXY sym ut x y
      if recMirror sym ut x y then
        let tl := idealLogs sym ut sl wgt (p + 2) rest
        ((p, sw.1) :: (p + 1, sw.2) :: tl.1,
         (p, sw.2) :: (p + 1, sw.1) :: tl.2.1,
         (if wgt then [(p, w), (p + 1, w)] else []) ++ tl.2.2)
      else
        let tl := idealLogs sym ut sl wgt (p + 1) rest
        ((p, sw.1) :: tl.1, (p, sw.2) :: tl.2.1,
         (if wgt then [(p, w)] else []) ++ tl.2.2)

/-- is the last record of the list dropped by the filter?  (When it is,
the drop recursion of the setting pass runs once more at the region end
and stores one junk weight at the final cursor.) -/
def lastDropped (sym ut sl : Bool) : List RecTxt → Bool
  | [] => false
  | [t] => recDrop sym ut sl (digVal t.xd) (digVal t.yd)
  | _ :: t :: rest => lastDropped sym ut sl (t :: rest)

/-- the junk weight store left behind when the scan's final drop recursion
runs at the region end -/
def idealTrail (sym ut sl wgt : Bool) (l : List RecTxt) (pEnd : Nat) :
    List (Nat × ℚ) :=
  if wgt && lastDropped sym ut sl l then [(pEnd, 0)] else []

/-- the record-boundary walk performed by `read_el_`'s per-worker start
adjustment (`move_to_eol` then `move_to_next_int` from an arbitrary byte
offset `q` of the rendering): a byte inside record `j` (its terminating
newline included) yields the split right after record `j` -/
def splitAfterF (wgt : Bool) : Nat → List RecTxt → List RecTxt × List RecTxt
  | _, [] => ([], [])
  | q, t :: rest =>
    if q < (renderRec wgt t).length then ([t], rest)
    else
      let s := splitAfterF wgt (q - (renderRec wgt t).length) rest
      (t :: s.1, s.2)

/-- the records lying strictly before worker `a`'s adjusted start: none
for worker `0`, otherwise the records whose rendering ends at or before
the boundary walk from the arithmetic split point `a * size / P` -/
def workerPrefix (wgt : Bool) (l : List RecTxt) (P a : Nat) : List RecTxt :=
  if a = 0 then []
  else (splitAfterF wgt ((a * (renderInput wgt l).length) / P) l).1

end Pigo

namespace Pigo

/-- the per-worker bound invariant of pass 2: every value stored into `X`
is bounded by the worker's running `max_row` (or, under `SYM`, possibly
only by `max_col`, since the mirror entry stores `y` into `X`), and
symmetrically for `Y` -/
def Pinv (sym : Bool) (st : ScanSt) : Prop :=
  (∀ pr ∈ st.xs, pr.2 ≤ st.maxRow ∨ (sym = true ∧ pr.2 ≤ st.maxCol)) ∧
  (∀ pr ∈ st.ys, pr.2 ≤ st.maxCol ∨ (sym = true ∧ pr.2 ≤ st.maxRow))

end Pigo

namespace Pigo

/-- the bytes of `data` starting at offset `d` are exactly `u` -/
def BlockAt (data : List Char) (d : Nat) (u : List Char) : Prop :=
  ∀ i, i < u.length → chAt data (d + i) = u.getD i (Char.ofNat 0)

/-- split a record list at its first kept record: the dropped prefix, and
the first kept record together with the remaining records when one exists -/
def splitKept (sym ut sl : Bool) :
    List RecTxt → List RecTxt × Option (RecTxt × List RecTxt)
  | [] => ([], none)
  | t :: rest =>
    if recDrop sym ut sl (digVal t.xd) (digVal t.yd) then
      let s := splitKept sym ut sl rest
      (t :: s.1, s.2)
    else ([], some (t, rest))

/-- the position `read_wgt_<...,true>` leaves the cursor at: the weight start
for the integral kinds, past the weight digits for the floating kind -/
def cntPos (k : WKind) (a4 a5 : Nat) : Nat :=
  match k with
  | .flt => a5
  | _ => a4

/-- the running `max_row` after scanning `l` from `a`: kept records update
it with the possibly swapped `x`; dropped records and mirror copies do not -/
def idealMaxR (sym ut sl : Bool) : Nat → List RecTxt → Nat
  | a, [] => a
  | a, t :: rest =>
    let x := digVal t.xd
    let y := digVal t.yd
    if recDrop sym ut sl x y then idealMaxR sym ut sl a rest
    else idealMaxR sym ut sl
      (if decide (a < (swapXY sym ut x y).1) then (swapXY sym ut x y).1 else a) rest

/-- the running `max_col` after scanning `l` from `a` -/
def idealMaxC (sym ut sl : Bool) : Nat → List RecTxt → Nat
  | a, [] => a
  | a, t :: rest =>
    let x := digVal t.xd
    let y := digVal t.yd
    if recDrop sym ut sl x y then idealMaxC sym ut sl a rest
    else idealMaxC sym ut sl
      (if decide (a < (swapXY sym ut x y).2) then (swapXY sym ut x y).2 else a) rest

end Pigo

namespace Pigo

theorem advWhileF_e (data : List Char) (p : Char → Bool) :
    ∀ fuel r, (advWhileF data p fuel r).e = r.e := by
  intro fuel
  induction fuel with
  | zero => intro r; rfl
  | succ n ih =>
    intro r
    unfold advWhileF
    by_cases h : (r.good && p (chAt data r.d)) = true
    · rw [if_pos h, ih]
    · rw [if_neg h]

theorem advWhileF_d_le (data : List Char) (p : Char → Bool) :
    ∀ fuel r, r.d ≤ (advWhileF data p fuel r).d := by
  intro fuel
  induction fuel with
  | zero => intro r; exact Nat.le_refl _
  | succ n ih =>
    intro r
    unfold advWhileF
    by_cases h : (r.good && p (chAt data r.d)) = true
    · rw [if_pos h]
      exact Nat.le_trans (Nat.le_succ _) (ih ⟨r.d + 1, r.e⟩)
    · rw [if_neg h]

theorem good_iff (r : Reader) : r.good = true ↔ r.d < r.e := by
  unfold Reader.good
  exact decide_eq_true_iff

theorem good_false (r : Reader) : r.good = false ↔ r.e ≤ r.d := by
  rw [← Bool.not_eq_true, good_iff]
  exact ⟨fun h => Nat.le_of_not_lt h, fun h => Nat.not_lt_of_le h⟩

theorem advWhileF_le_e (data : List Char) (p : Char → Bool) :
    ∀ fuel r, r.d ≤ r.e → (advWhileF data p fuel r).d ≤ r.e := by
  intro fuel
  induction fuel with
  | zero => intro r h; exact h
  | succ n ih =>
    intro r h
    unfold advWhileF
    by_cases hc : (r.good && p (chAt data r.d)) = true
    · rw [if_pos hc]
      have hg : r.d < r.e := (good_iff r).mp ((Bool.and_eq_true _ _).mp hc).1
      exact ih ⟨r.d + 1, r.e⟩ hg
    · rw [if_neg hc]; exact h

end Pigo

namespace Pigo

theorem advWhile_e (data : List Char) (p : Char → Bool) (r : Reader) :
    (advWhile data p r).e = r.e := advWhileF_e data p _ r

theorem advWhile_d_le (data : List Char) (p : Char → Bool) (r : Reader) :
    r.d ≤ (advWhile data p r).d := advWhileF_d_le data p _ r

theorem advWhile_le_e (data : List Char) (p : Char → Bool) (r : Reader)
    (h : r.d ≤ r.e) : (advWhile data p r).d ≤ r.e := advWhileF_le_e data p _ r h

theorem skipPastEol_e (data : List Char) (r : Reader) :
    (skipPastEol data r).e = r.e := by
  unfold skipPastEol
  by_cases h : (advWhile data (fun c => !(c == '\n')) r).good = true
  · simp only [h, if_pos]
    exact advWhile_e data _ r
  · simp only [Bool.not_eq_true] at h
    simp only [h, Bool.false_eq_true, if_false]
    exact advWhile_e data _ r

theorem skipPastEol_le_e (data : List Char) (r : Reader) (h : r.d ≤ r.e) :
    (skipPastEol data r).d ≤ r.e := by
  unfold skipPastEol
  by_cases hg : (advWhile data (fun c => !(c == '\n')) r).good = true
  · simp only [hg, if_pos]
    have := (good_iff _).mp hg
    rw [advWhile_e data _ r] at this
    exact this
  · simp only [Bool.not_eq_true] at hg
    simp only [hg, Bool.false_eq_true, if_false]
    exact advWhile_le_e data _ r h

theorem skipCommentsF_e (data : List Char) :
    ∀ fuel r, (skipCommentsF data fuel r).e = r.e := by
  intro fuel
  induction fuel with
  | zero => intro r; rfl
  | succ n ih =>
    intro r
    unfold skipCommentsF
    by_cases h : (r.good && isCmt (chAt data r.d)) = true
    · rw [if_pos h, ih, skipPastEol_e]
    · rw [if_neg h]

theorem skipCommentsF_le_e (data : List Char) :
    ∀ fuel r, r.d ≤ r.e → (skipCommentsF data fuel r).d ≤ r.e := by
  intro fuel
  induction fuel with
  | zero => intro r h; exact h
  | succ n ih =>
    intro r h
    unfold skipCommentsF
    by_cases hc : (r.good && isCmt (chAt data r.d)) = true
    · rw [if_pos hc]
      have h1 : (skipPastEol data r).d ≤ r.e := skipPastEol_le_e data r h
      have h2 : (skipPastEol data r).e = r.e := skipPastEol_e data r
      have := ih (skipPastEol data r) (by rw [h2]; exact h1)
      rw [h2] at this
      exact this
    · rw [if_neg hc]; exact h

theorem skipComments_e (data : List Char) (r : Reader) :
    (skipComments data r).e = r.e := skipCommentsF_e data _ r

theorem skipComments_le_e (data : List Char) (r : Reader) (h : r.d ≤ r.e) :
    (skipComments data r).d ≤ r.e := skipCommentsF_le_e data _ r h

theorem mtfiF_e (data : List Char) :
    ∀ fuel r, (mtfiF data fuel r).e = r.e := by
  intro fuel
  induction fuel with
  | zero => intro r; rfl
  | succ n ih =>
    intro r
    unfold mtfiF
    by_cases h : (r.good && !isDig (chAt data r.d)) = true
    · rw [if_pos h]
      by_cases hc : isCmt (chAt data (r.d + 1)) = true
      · simp only [hc, if_pos, ih, skipComments_e]
      · simp only [hc, Bool.false_eq_true, if_false, ih]
    · rw [if_neg h]

theorem mtfiF_le_e (data : List Char) :
    ∀ fuel r, r.d ≤ r.e → (mtfiF data fuel r).d ≤ r.e := by
  intro fuel
  induction fuel with
  | zero => intro r h; exact h
  | succ n ih =>
    intro r h
    unfold mtfiF
    by_cases hg : (r.good && !isDig (chAt data r.d)) = true
    · rw [if_pos hg]
      have hlt : r.d < r.e := (good_iff r).mp ((Bool.and_eq_true _ _).mp hg).1
      by_cases hc : isCmt (chAt data (r.d + 1)) = true
      · simp only [hc, if_pos]
        have h1 : (skipComments data ⟨r.d + 1, r.e⟩).d ≤ r.e :=
          skipComments_le_e data ⟨r.d + 1, r.e⟩ hlt
        have h2 : (skipComments data ⟨r.d + 1, r.e⟩).e = r.e :=
          skipComments_e data ⟨r.d + 1, r.e⟩
        have := ih (skipComments data ⟨r.d + 1, r.e⟩) (by rw [h2]; exact h1)
        rw [h2] at this
        exact this
      · simp only [hc, Bool.false_eq_true, if_false]
        exact ih ⟨r.d + 1, r.e⟩ hlt
    · rw [if_neg hg]; exact h

theorem moveToFirstInt_e (data : List Char) (r : Reader) :
    (moveToFirstInt data r).e = r.e := by
  unfold moveToFirstInt
  by_cases hc : isCmt (chAt data r.d) = true
  · simp only [hc, if_pos, mtfiF_e, skipComments_e]
  · simp only [hc, Bool.false_eq_true, if_false, mtfiF_e]

theorem moveToFirstInt_le_e (data : List Char) (r : Reader) (h : r.d ≤ r.e) :
    (moveToFirstInt data r).d ≤ r.e := by
  unfold moveToFirstInt
  by_cases hc : isCmt (chAt data r.d) = true
  · simp only [hc, if_pos]
    have h1 := skipComments_le_e data r h
    have h2 := skipComments_e data r
    have h3 : (skipComments data r).d ≤ (skipComments data r).e := by
      rw [h2]; exact h1
    exact Nat.le_trans
      (mtfiF_le_e data ((skipComments data r).e - (skipComments data r).d)
        (skipComments data r) h3) (Nat.le_of_eq h2)
  · simp only [hc, Bool.false_eq_true, if_false]
    exact mtfiF_le_e data (r.e - r.d) r h

theorem moveToNextInt_e (data : List Char) (r : Reader) :
    (moveToNextInt data r).e = r.e := by
  unfold moveToNextInt moveToNonInt
  rw [moveToFirstInt_e, advWhile_e]

theorem moveToNextInt_le_e (data : List Char) (r : Reader) (h : r.d ≤ r.e) :
    (moveToNextInt data r).d ≤ r.e := by
  unfold moveToNextInt moveToNonInt
  have h1 := advWhile_le_e data isDig r h
  have h2 := advWhile_e data isDig r
  have h3 : (advWhile data isDig r).d ≤ (advWhile data isDig r).e := by
    rw [h2]; exact h1
  exact Nat.le_trans (moveToFirstInt_le_e data (advWhile data isDig r) h3)
    (Nat.le_of_eq h2)

theorem moveToEol_e (data : List Char) (r : Reader) :
    (moveToEol data r).e = r.e := advWhile_e data _ r

theorem moveToEol_le_e (data : List Char) (r : Reader) (h : r.d ≤ r.e) :
    (moveToEol data r).d ≤ r.e := advWhile_le_e data _ r h

end Pigo

namespace Pigo

/-- C5: after a MatrixMarket read the header nnz is checked; with `SYM` an
error is raised iff `nnz > 2m`, without `SYM` and without `SL` iff
`nnz > m`; but in the remaining (`SL`) branch the guard repeats `!sl`, so
no error is ever raised there (the claim's `nnz ≠ m` check is dead code);
every error branch frees the arrays before throwing. -/
theorem claim_C5_theorem :
    ∀ (sym sl : Bool) (nrows ncols nnz nrowsP ncolsP m : Nat),
    nrowsP ≤ nrows → ncolsP ≤ ncols →
    (((mmValidate sym sl nrows ncols nnz nrowsP ncolsP m).isErr = true) ↔
      ((sym = true ∧ 2 * m < nnz) ∨ (sym = false ∧ sl = false ∧ m < nnz))) ∧
    (∀ f msg, mmValidate sym sl nrows ncols nnz nrowsP ncolsP m =
      MMRes.err f msg → f = true) := by
  intro sym sl nrows ncols nnz nrowsP ncolsP m h1 h2
  constructor
  · cases sym <;> cases sl <;>
      simp [mmValidate, h1, h2, MMRes.isErr] <;> split_ifs <;> simp_all
  · intro f msg h
    cases sym <;> cases sl <;>
      simp [mmValidate, h1, h2] at h <;>
      first
        | (split_ifs at h <;> simp_all)
        | simp_all

/-- C5 counterexample: with `SL` set (and not `SYM`), `nnz = 99 ≠ m = 0`
raises no error, contradicting the claimed `nnz ≠ m` check. -/
theorem claim_C5_counterexample :
    (mmValidate false true 5 5 99 1 1 0).isErr = false ∧ (99 : Nat) ≠ 0 := by
  decide

/-- C5 witness: concrete instantiation of the amended characterization. -/
theorem claim_C5_witness :
    (mmValidate true false 5 5 3 1 1 1).isErr = true :=
  (claim_C5_theorem true false 5 5 3 1 1 1 (by decide) (by decide)).1.mpr
    (Or.inl ⟨rfl, by decide⟩)

/-- C10: `at_str(s)` returns true only when strictly more than `|s|` bytes
remain before the region end; consequently a file holding exactly the COO
magic is taken down the `"PIGO"` fallback of `guess_file_type` (an
"unsupported binary" error, not a recognized type), and `File::read`
of the header raises an error on it. -/
theorem claim_C10_theorem :
    (∀ (data : List Char) (r : Reader) (s : List Char),
      atStr data r s = true → r.d + s.length < r.e) ∧
    (∀ (fn : List Char),
      guessFileType cooFileHeader fn =
        Except.error "Unsupported PIGO binary format, likely version mismatch") ∧
    fileReadStr cooFileHeader 0 cooFileHeader =
      Except.error "Cannot read the given string" := by
  refine ⟨?_, ?_, ?_⟩
  · intro data r s h
    unfold atStr at h
    by_cases hc : r.d + s.length ≥ r.e
    · rw [if_pos hc] at h
      exact absurd h (by decide)
    · exact Nat.lt_of_not_le hc
  · intro fn
    rfl
  · rfl

/-- C10 witness: `at_str` at a concrete matching position implies the
strict bound. -/
theorem claim_C10_witness :
    (0 : Nat) + ("PIGO".data).length < 12 :=
  claim_C10_theorem.1 (cooFileHeader ++ [' ']) ⟨0, 12⟩ ("PIGO".data) (by decide)

/-- C9: the failing input for the out-of-bounds weight store.  With
`SL ∧ WGT` on `"1 2 9\n3 3 7\n"`, pass 1 counts `m = 1`, yet pass 2
stores weights at index `1 = m` (the dropped record's weight `7`, then a
junk parse), i.e. past the end of the allocated weight array. -/
theorem claim_C9_theorem :
    (readEl ("1 2 9\n3 3 7\n".data) WKind.iUnsigned false false true true 1
      ⟨0, ("1 2 9\n3 3 7\n".data).length⟩).m = 1 ∧
    ((readEl ("1 2 9\n3 3 7\n".data) WKind.iUnsigned false false true true 1
      ⟨0, ("1 2 9\n3 3 7\n".data).length⟩).ws.map Prod.fst) = [0, 1, 1] := by
  constructor
  · rfl
  · rfl

/-- C1 counterexample: on region `"1 2"` (no trailing newline) with all
flags false, pass 1 counts one entry (`m = 1`) but pass 2 writes nothing,
so the counts of the two passes differ and index `0 < m` is never
written. -/
theorem claim_C1_counterexample :
    (readEl ("1 2".data) WKind.iUnsigned false false false false 1
      ⟨0, ("1 2".data).length⟩).m = 1 ∧
    (readEl ("1 2".data) WKind.iUnsigned false false false false 1
      ⟨0, ("1 2".data).length⟩).xs = [] := by
  constructor
  · rfl
  · rfl

/-- C2 counterexample: with `SYM ∧ ¬UT` on `"1 5\n"`, the mirrored entry
stores `5` into `X`, but `max_row` is only updated with the natural
entry's `x`, so `nrows = 2` while `max(X) = 5`: `nrows > max(X)` fails. -/
theorem claim_C2_counterexample :
    (readEl ("1 5\n".data) WKind.iUnsigned true false false false 1
      ⟨0, ("1 5\n".data).length⟩).nrows = 2 ∧
    (readEl ("1 5\n".data) WKind.iUnsigned true false false false 1
      ⟨0, ("1 5\n".data).length⟩).xs.map Prod.snd = [1, 5] := by
  constructor
  · rfl
  · rfl

/-- C3 counterexample: opening an empty file throws (the constructor's
final `seek(0)` fails on `size_ = 0`), and a comments-only file yields
`n = 1` (`max_row + 1` with `max_row = 0`), not the claimed `n = 0`. -/
theorem claim_C3_counterexample :
    fileOpenRO [] = Except.error "seeking beyond end of file" ∧
    (readEl ("%x\n".data) WKind.iUnsigned false false false false 1
      ⟨0, ("%x\n".data).length⟩).n = 1 := by
  constructor
  · rfl
  · rfl

/-- C4 counterexample: on `"1 2\n3 4"` (final line unterminated, no
flags), pass 1 counts both records (`m = 2`) but pass 2 drops the final
one: only index 0 is written, so the final record is not fully parsed. -/
theorem claim_C4_counterexample :
    (readEl ("1 2\n3 4".data) WKind.iUnsigned false false false false 1
      ⟨0, ("1 2\n3 4".data).length⟩).m = 2 ∧
    (readEl ("1 2\n3 4".data) WKind.iUnsigned false false false false 1
      ⟨0, ("1 2\n3 4".data).length⟩).xs.map Prod.fst = [0] := by
  constructor
  · rfl
  · rfl

/-- C6 counterexample: with float weights on `"1 2\nxx\n3 4\n"` (a line
without any float characters), the weight scan runs across the newline;
one worker parses an entry that two workers lose: `P = 1` stores
`X = [(0,1)]` while `P = 2` stores nothing. -/
theorem claim_C6_counterexample :
    (readEl ("1 2\nxx\n3 4\n".data) WKind.flt false false false true 1
      ⟨0, ("1 2\nxx\n3 4\n".data).length⟩).xs = [(0, 1)] ∧
    (readEl ("1 2\nxx\n3 4\n".data) WKind.flt false false false true 2
      ⟨0, ("1 2\nxx\n3 4\n".data).length⟩).xs = [] := by
  constructor
  · rfl
  · rfl

end Pigo

namespace Pigo

theorem natLE_length : ∀ w v, (natLE w v).length = w := by
  intro w
  induction w with
  | zero => intro v; rfl
  | succ n ih => intro v; simp [natLE, ih]

theorem leToNat_natLE : ∀ w v, leToNat (natLE w v) = v % 256 ^ w := by
  intro w
  induction w with
  | zero => intro v; simp [natLE, leToNat, Nat.mod_one]
  | succ n ih =>
    intro v
    show v % 256 + 256 * leToNat (natLE n (v / 256)) = v % 256 ^ (n + 1)
    rw [ih, pow_succ, Nat.mul_comm (256 ^ n) 256, Nat.mod_mul]

theorem leToNat_natLE_lt (w v : Nat) (h : v < 256 ^ w) :
    leToNat (natLE w v) = v := by
  rw [leToNat_natLE, Nat.mod_eq_of_lt h]

theorem getD_skip (a b : List Nat) (i d : Nat) :
    (a ++ b).getD (a.length + i) d = b.getD i d := by
  rw [List.getD_append_right a b d _ (Nat.le_add_right _ _), Nat.add_sub_cancel_left]

theorem readBytesAt_skip (a b : List Nat) (pos k : Nat) :
    readBytesAt (a ++ b) (a.length + pos) k = readBytesAt b pos k := by
  unfold readBytesAt
  apply List.map_congr_left
  intro i _
  rw [Nat.add_assoc]
  exact getD_skip a b (pos + i) 0

theorem readBytesAt_prefix : ∀ (l rest : List Nat),
    readBytesAt (l ++ rest) 0 l.length = l := by
  intro l
  induction l with
  | nil => intro rest; rfl
  | cons b t ih =>
    intro rest
    show readBytesAt (b :: (t ++ rest)) 0 (t.length + 1) = b :: t
    unfold readBytesAt
    rw [List.range_succ_eq_map, List.map_cons, List.map_map]
    have h0 : (b :: (t ++ rest)).getD (0 + 0) 0 = b := rfl
    rw [h0]
    congr 1
    have : ∀ i ∈ List.range t.length,
        ((fun i => (b :: (t ++ rest)).getD (0 + i) 0) ∘ (· + 1)) i =
        (fun i => (t ++ rest).getD (0 + i) 0) i := by
      intro i _
      simp [List.getD_cons_succ]
    rw [List.map_congr_left this]
    exact ih rest

theorem readBytesAt_block (w v : Nat) (rest : List Nat) :
    readBytesAt (natLE w v ++ rest) 0 w = natLE w v := by
  have := readBytesAt_prefix (natLE w v) rest
  rw [natLE_length] at this
  exact this

theorem chunksLen (w : Nat) : ∀ (xs : List Nat),
    ((xs.map (natLE w)).flatten).length = xs.length * w := by
  intro xs
  induction xs with
  | nil => simp
  | cons a l ih =>
    simp only [List.map_cons, List.flatten_cons, List.length_append,
      List.length_cons, natLE_length, ih]
    ring

theorem chunksGet (w : Nat) : ∀ (xs rest : List Nat) (i : Nat), i < xs.length →
    readBytesAt ((xs.map (natLE w)).flatten ++ rest) (i * w) w =
    natLE w (xs.getD i 0) := by
  intro xs
  induction xs with
  | nil => intro rest i h; exact absurd h (Nat.not_lt_zero i)
  | cons a l ih =>
    intro rest i h
    cases i with
    | zero =>
      simp only [List.map_cons, List.flatten_cons, List.getD_cons_zero, Nat.zero_mul]
      rw [List.append_assoc]
      exact readBytesAt_block w a _
    | succ j =>
      simp only [List.map_cons, List.flatten_cons, List.getD_cons_succ]
      rw [List.append_assoc]
      have harith : (j + 1) * w = (natLE w a).length + j * w := by
        rw [natLE_length]; ring
      rw [harith, readBytesAt_skip]
      exact ih rest j (Nat.lt_of_succ_lt_succ h)

theorem decodeChunks (w : Nat) (xs rest : List Nat)
    (hb : ∀ v ∈ xs, v < 256 ^ w) :
    (List.range xs.length).map
      (fun i => leToNat (readBytesAt ((xs.map (natLE w)).flatten ++ rest) (i * w) w)) =
    xs := by
  apply List.ext_getElem
  · simp
  · intro i h1 h2
    simp only [List.getElem_map, List.getElem_range]
    have hi : i < xs.length := by simpa using h2
    rw [chunksGet w xs rest i hi]
    rw [List.getD_eq_getElem xs 0 hi]
    exact leToNat_natLE_lt w _ (hb _ (List.getElem_mem hi))

end Pigo

namespace Pigo

theorem readBytesAt_skip_block (w v : Nat) (b : List Nat) (pos k : Nat) :
    readBytesAt (natLE w v ++ b) (w + pos) k = readBytesAt b pos k := by
  have := readBytesAt_skip (natLE w v) b pos k
  rw [natLE_length] at this
  exact this

end Pigo

namespace Pigo

theorem readAtFront (pre rest : List Nat) (off pos k : Nat)
    (h : off = pre.length + pos) :
    readBytesAt (pre ++ rest) off k = readBytesAt rest pos k := by
  rw [h]
  exact readBytesAt_skip pre rest pos k

theorem decodeChunksM (w m : Nat) (xs rest : List Nat) (hxm : xs.length = m)
    (hb : ∀ v ∈ xs, v < 256 ^ w) :
    (List.range m).map
      (fun i => leToNat (readBytesAt ((xs.map (natLE w)).flatten ++ rest) (i * w) w)) =
    xs := by
  rw [← hxm]
  exact decodeChunks w xs rest hb

/-- C7: saving a COO to the PIGO binary format and loading it back with
the same template widths reproduces it element-wise: `nrows`, `ncols`,
`n`, `m` and the full `X`, `Y` and (when `WGT`) weight payloads. -/
theorem claim_C7_theorem :
    ∀ (Lsz Osz Wsz : Nat) (wgt : Bool) (c : BinCoo),
    Lsz < 256 → Osz < 256 →
    c.nrows < 256 ^ Lsz → c.ncols < 256 ^ Lsz → c.n < 256 ^ Lsz →
    c.m < 256 ^ Osz →
    c.xs.length = c.m → c.ys.length = c.m →
    (∀ v ∈ c.xs, v < 256 ^ Lsz) → (∀ v ∈ c.ys, v < 256 ^ Lsz) →
    (if wgt = true then c.ws.length = c.m ∧ ∀ v ∈ c.ws, v < 256 ^ Wsz
      else c.ws = []) →
    cooLoad Lsz Osz Wsz wgt (cooSave Lsz Osz Wsz wgt c) = Except.ok c := by
  intro Lsz Osz Wsz wgt c hL hO hnr hnc hn hm hxl hyl hxb hyb hwz
  obtain ⟨cnr, cnc, cn, cm, cxs, cys, cws⟩ := c
  simp only at hnr hnc hn hm hxl hyl hxb hyb hwz
  set hdrB := cooFileHeader.map Char.toNat with hhdrB
  set X := (cxs.map (natLE Lsz)).flatten with hXd
  set Y := (cys.map (natLE Lsz)).flatten with hYd
  set W := (if wgt then (cws.map (natLE Wsz)).flatten else []) with hWd
  set T4 := X ++ (Y ++ W) with hT4
  set T3 := natLE Osz cm ++ T4 with hT3
  set T2 := natLE Lsz cn ++ T3 with hT2
  set T1 := natLE Lsz cnc ++ T2 with hT1
  set T0 := natLE Lsz cnr ++ T1 with hT0
  set TA := [Lsz % 256, Osz % 256] ++ T0 with hTA
  have hbs : cooSave Lsz Osz Wsz wgt ⟨cnr, cnc, cn, cm, cxs, cys, cws⟩ =
      hdrB ++ TA := by
    rw [hTA, hT0, hT1, hT2, hT3, hT4, hXd, hYd, hWd]
    simp [cooSave, List.append_assoc, hhdrB]
  set bs := cooSave Lsz Osz Wsz wgt ⟨cnr, cnc, cn, cm, cxs, cys, cws⟩ with hbsd
  have hhl : hdrB.length = cooFileHeader.length := List.length_map _ _
  have hXlen : X.length = cm * Lsz := by rw [hXd, chunksLen, hxl]
  have hYlen : Y.length = cm * Lsz := by rw [hYd, chunksLen, hyl]
  have hlen : cooFileHeader.length + 2 ≤ bs.length := by
    rw [hbs, hTA]
    simp [List.length_append, hhl]
  have g1 : ¬(bs.length ≤ 0) := by omega
  have g2 : atStrB bs 0 cooFileHeader = true := by
    unfold atStrB
    rw [if_neg (by omega)]
    rw [hbs, List.drop_zero, List.take_left' hhl, hhdrB]
    exact beq_self_eq_true _
  have g3 : bs.getD cooFileHeader.length 0 = Lsz := by
    rw [hbs, show cooFileHeader.length = hdrB.length + 0 from by rw [hhl]; omega,
      getD_skip, hTA]
    exact Nat.mod_eq_of_lt hL
  have g4 : bs.getD (cooFileHeader.length + 1) 0 = Osz := by
    rw [hbs, show cooFileHeader.length + 1 = hdrB.length + 1 from by rw [hhl],
      getD_skip, hTA]
    exact Nat.mod_eq_of_lt hO
  have skipA : ∀ pos k, readBytesAt TA (2 + pos) k = readBytesAt T0 pos k := by
    intro pos k
    rw [hTA]
    exact readAtFront _ _ _ pos k rfl
  have pAll : ∀ pos k,
      readBytesAt bs (cooFileHeader.length + 2 + 3 * Lsz + Osz + pos) k =
      readBytesAt T4 pos k := by
    intro pos k
    rw [hbs, readAtFront hdrB TA _ (2 + (Lsz + (Lsz + (Lsz + (Osz + pos))))) k
      (by rw [hhl]; try ring), skipA, readBytesAt_skip_block (b := T1),
      readBytesAt_skip_block (b := T2), readBytesAt_skip_block (b := T3),
      readBytesAt_skip_block (b := T4)]
  have skipX : ∀ pos k, readBytesAt T4 (cm * Lsz + pos) k =
      readBytesAt (Y ++ W) pos k := by
    intro pos k
    rw [hT4, show cm * Lsz + pos = X.length + pos from by rw [hXlen],
      readBytesAt_skip]
  have skipYW : ∀ pos k, readBytesAt (Y ++ W) (cm * Lsz + pos) k =
      readBytesAt W pos k := by
    intro pos k
    rw [show cm * Lsz + pos = Y.length + pos from by rw [hYlen],
      readBytesAt_skip]
  have e1 : leToNat (readBytesAt bs (cooFileHeader.length + 2) Lsz) = cnr := by
    rw [hbs, readAtFront hdrB TA _ (2 + 0) Lsz (by rw [hhl]), skipA, hT0,
      readBytesAt_block]
    exact leToNat_natLE_lt Lsz cnr hnr
  have e2 : leToNat (readBytesAt bs (cooFileHeader.length + 2 + Lsz) Lsz) = cnc := by
    rw [hbs, readAtFront hdrB TA _ (2 + (Lsz + 0)) Lsz (by rw [hhl]; try ring),
      skipA, readBytesAt_skip_block (b := T1), hT1, readBytesAt_block]
    exact leToNat_natLE_lt Lsz cnc hnc
  have e3 : leToNat (readBytesAt bs (cooFileHeader.length + 2 + 2 * Lsz) Lsz) = cn := by
    rw [hbs, readAtFront hdrB TA _ (2 + (Lsz + (Lsz + 0))) Lsz
      (by rw [hhl]; try ring), skipA, readBytesAt_skip_block (b := T1),
      readBytesAt_skip_block (b := T2), hT2, readBytesAt_block]
    exact leToNat_natLE_lt Lsz cn hn
  have e4 : leToNat (readBytesAt bs (cooFileHeader.length + 2 + 3 * Lsz) Osz) = cm := by
    rw [hbs, readAtFront hdrB TA _ (2 + (Lsz + (Lsz + (Lsz + 0)))) Osz
      (by rw [hhl]; try ring), skipA, readBytesAt_skip_block (b := T1),
      readBytesAt_skip_block (b := T2), readBytesAt_skip_block (b := T3), hT3,
      readBytesAt_block]
    exact leToNat_natLE_lt Osz cm hm
  have mapx : (List.range cm).map
      (fun i => leToNat (readBytesAt bs
        (cooFileHeader.length + 2 + 3 * Lsz + Osz + i * Lsz) Lsz)) = cxs := by
    rw [List.map_congr_left
      (fun i _ => congrArg leToNat (pAll (i * Lsz) Lsz)), hT4, hXd]
    exact decodeChunksM Lsz cm cxs (Y ++ W) hxl hxb
  have py : ∀ (i : Nat),
      readBytesAt bs
        (cooFileHeader.length + 2 + 3 * Lsz + Osz + cm * Lsz + i * Lsz) Lsz =
      readBytesAt (Y ++ W) (i * Lsz) Lsz := by
    intro i
    rw [show cooFileHeader.length + 2 + 3 * Lsz + Osz + cm * Lsz + i * Lsz =
      cooFileHeader.length + 2 + 3 * Lsz + Osz + (cm * Lsz + i * Lsz) from by ring,
      pAll, skipX]
  have mapy : (List.range cm).map
      (fun i => leToNat (readBytesAt bs
        (cooFileHeader.length + 2 + 3 * Lsz + Osz + cm * Lsz + i * Lsz) Lsz)) =
      cys := by
    rw [List.map_congr_left (fun i _ => congrArg leToNat (py i)), hYd]
    exact decodeChunksM Lsz cm cys W hyl hyb
  have pw : ∀ (i : Nat),
      readBytesAt bs
        (cooFileHeader.length + 2 + 3 * Lsz + Osz + cm * Lsz + cm * Lsz + i * Wsz)
        Wsz = readBytesAt W (i * Wsz) Wsz := by
    intro i
    rw [show cooFileHeader.length + 2 + 3 * Lsz + Osz + cm * Lsz + cm * Lsz + i * Wsz =
      cooFileHeader.length + 2 + 3 * Lsz + Osz + (cm * Lsz + (cm * Lsz + i * Wsz))
      from by ring, pAll, skipX, skipYW]
  simp only [cooLoad, if_neg g1, g2, g3, g4, beq_self_eq_true, Bool.not_true,
    Bool.false_eq_true, if_false]
  rw [e1, e2, e3, e4, mapx, mapy]
  cases wgt with
  | false =>
    simp only [Bool.false_eq_true, if_false]
    simp only [if_neg (by decide : ¬(false = true))] at hwz
    rw [hwz]
  | true =>
    simp only [if_true]
    simp only [if_pos rfl] at hwz
    have mapw : (List.range cm).map
        (fun i => leToNat (readBytesAt bs
          (cooFileHeader.length + 2 + 3 * Lsz + Osz + cm * Lsz + cm * Lsz + i * Wsz)
          Wsz)) = cws := by
      rw [List.map_congr_left (fun i _ => congrArg leToNat (pw i)),
        show W = (cws.map (natLE Wsz)).flatten ++ [] from by
          rw [hWd]; simp]
      exact decodeChunksM Wsz cm cws [] hwz.1 hwz.2
    rw [mapw]

end Pigo

namespace Pigo

/-- C7 witness: a concrete weighted COO round-trips through the binary
format. -/
theorem claim_C7_witness :
    cooLoad 2 1 1 true (cooSave 2 1 1 true ⟨3, 4, 4, 2, [1, 300], [2, 3], [7, 9]⟩) =
    Except.ok ⟨3, 4, 4, 2, [1, 300], [2, 3], [7, 9]⟩ :=
  claim_C7_theorem 2 1 1 true ⟨3, 4, 4, 2, [1, 300], [2, 3], [7, 9]⟩
    (by decide) (by decide) (by decide) (by decide) (by decide) (by decide)
    (by decide) (by decide) (by decide) (by decide) (by decide)

end Pigo

namespace Pigo

theorem emitArcs_mem (wgt : Bool) (v : Nat) :
    ∀ (arcs : List (Nat × ℚ)) (c j : Nat), j < arcs.length →
    ((c + 2 * j, (arcs.getD j (0, 0)).1) ∈ (emitArcs true false wgt v c arcs).1 ∧
     (c + 2 * j, v) ∈ (emitArcs true false wgt v c arcs).2.1 ∧
     (c + 2 * j + 1, v) ∈ (emitArcs true false wgt v c arcs).1 ∧
     (c + 2 * j + 1, (arcs.getD j (0, 0)).1) ∈ (emitArcs true false wgt v c arcs).2.1 ∧
     (wgt = true →
       (c + 2 * j, (arcs.getD j (0, 0)).2) ∈ (emitArcs true false wgt v c arcs).2.2 ∧
       (c + 2 * j + 1, (arcs.getD j (0, 0)).2) ∈ (emitArcs true false wgt v c arcs).2.2)) := by
  intro arcs
  induction arcs with
  | nil =>
    intro c j hj
    exact absurd hj (Nat.not_lt_zero j)
  | cons a rest ih =>
    intro c j hj
    cases j with
    | zero =>
      simp only [emitArcs, Bool.not_false, Bool.and_self, if_pos, List.getD_cons_zero,
        Nat.mul_zero, Nat.add_zero]
      refine ⟨List.mem_cons_self _ _, List.mem_cons_self _ _,
        List.mem_cons_of_mem _ (List.mem_cons_self _ _),
        List.mem_cons_of_mem _ (List.mem_cons_self _ _), ?_⟩
      intro hw
      subst hw
      simp only [if_pos rfl]
      exact ⟨List.mem_cons_self _ _,
        List.mem_cons_of_mem _ (List.mem_cons_self _ _)⟩
    | succ j0 =>
      have hj0 : j0 < rest.length := Nat.lt_of_succ_lt_succ hj
      have harith : c + 2 * (j0 + 1) = (c + 2) + 2 * j0 := by ring
      have := ih (c + 2) j0 hj0
      simp only [emitArcs, Bool.not_false, Bool.and_self, if_pos,
        List.getD_cons_succ, harith]
      refine ⟨?_, ?_, ?_, ?_, ?_⟩
      · exact List.mem_cons_of_mem _ (List.mem_cons_of_mem _ this.1)
      · exact List.mem_cons_of_mem _ (List.mem_cons_of_mem _ this.2.1)
      · exact List.mem_cons_of_mem _ (List.mem_cons_of_mem _ this.2.2.1)
      · exact List.mem_cons_of_mem _ (List.mem_cons_of_mem _ this.2.2.2.1)
      · intro hw
        have h2 := this.2.2.2.2 hw
        subst hw
        simp only [if_pos rfl]
        exact ⟨List.mem_cons_of_mem _ (List.mem_cons_of_mem _ h2.1),
          List.mem_cons_of_mem _ (List.mem_cons_of_mem _ h2.2)⟩

end Pigo

namespace Pigo

/-- C8: CSR→COO conversion sets `n = csr.n` and `m = csr.m`, doubling `m`
under `SYM ∧ ¬UT` where each CSR arc `(v,u)` is stored both ways with
equal weights (the mirror first); `UT` without `SYM`, and `SL`, raise
`NotYetImplemented` before any output is produced (in the source the
throws run before `allocate_()`). -/
theorem claim_C8_theorem :
    ∀ (sym ut sl wgt : Bool) (csr : CsrIn),
    (sym = false → ut = true →
      convertCsr sym ut sl wgt csr =
        Except.error "Keeping triangle only from CSR not yet implemented") ∧
    (sl = true → (sym = true ∨ ut = false) →
      convertCsr sym ut sl wgt csr =
        Except.error "Removing self loops from CSR not yet implemented") ∧
    (∀ out, convertCsr sym ut sl wgt csr = Except.ok out →
      out.n = csr.n ∧
      out.m = (if sym = true ∧ ut = false then 2 * csr.m else csr.m) ∧
      (sym = true → ut = false → ∀ v j, v < csr.n →
        j < (csrArcs csr v).length →
        ((csr.offsets.getD v 0 * 2 + 2 * j, ((csrArcs csr v).getD j (0, 0)).1) ∈ out.xs ∧
         (csr.offsets.getD v 0 * 2 + 2 * j, v) ∈ out.ys ∧
         (csr.offsets.getD v 0 * 2 + 2 * j + 1, v) ∈ out.xs ∧
         (csr.offsets.getD v 0 * 2 + 2 * j + 1, ((csrArcs csr v).getD j (0, 0)).1) ∈ out.ys ∧
         (wgt = true →
           (csr.offsets.getD v 0 * 2 + 2 * j, ((csrArcs csr v).getD j (0, 0)).2) ∈ out.ws ∧
           (csr.offsets.getD v 0 * 2 + 2 * j + 1, ((csrArcs csr v).getD j (0, 0)).2) ∈ out.ws)))) := by
  intro sym ut sl wgt csr
  refine ⟨?_, ?_, ?_⟩
  · intro hs hu
    subst hs; subst hu
    rfl
  · intro hl hsu
    subst hl
    rcases hsu with hs | hu
    · subst hs; rfl
    · subst hu
      cases sym <;> rfl
  · intro out
    unfold convertCsr
    intro hout
    by_cases hb1 : (!sym && ut) = true
    · rw [if_pos hb1] at hout
      exact absurd hout (by simp)
    · rw [if_neg hb1] at hout
      by_cases hb2 : sl = true
      · rw [if_pos hb2] at hout
        exact absurd hout (by simp)
      · rw [if_neg hb2] at hout
        have hrec := Except.ok.inj hout
        subst hrec
        refine ⟨rfl, ?_, ?_⟩
        · cases sym <;> cases ut <;> simp_all <;> ring
        · intro hs hu v j hv hj
          subst hs; subst hu
          refine ⟨?_, ?_, ?_, ?_, ?_⟩
          · exact List.mem_flatten.mpr
              ⟨(emitArcs true false wgt v (csr.offsets.getD v 0 * 2) (csrArcs csr v)).1,
               List.mem_map.mpr
                 ⟨emitArcs true false wgt v (csr.offsets.getD v 0 * 2) (csrArcs csr v),
                  List.mem_map.mpr ⟨v, List.mem_range.mpr hv, rfl⟩, rfl⟩,
               (emitArcs_mem wgt v (csrArcs csr v) (csr.offsets.getD v 0 * 2) j hj).1⟩
          · exact List.mem_flatten.mpr
              ⟨(emitArcs true false wgt v (csr.offsets.getD v 0 * 2) (csrArcs csr v)).2.1,
               List.mem_map.mpr
                 ⟨emitArcs true false wgt v (csr.offsets.getD v 0 * 2) (csrArcs csr v),
                  List.mem_map.mpr ⟨v, List.mem_range.mpr hv, rfl⟩, rfl⟩,
               (emitArcs_mem wgt v (csrArcs csr v) (csr.offsets.getD v 0 * 2) j hj).2.1⟩
          · exact List.mem_flatten.mpr
              ⟨(emitArcs true false wgt v (csr.offsets.getD v 0 * 2) (csrArcs csr v)).1,
               List.mem_map.mpr
                 ⟨emitArcs true false wgt v (csr.offsets.getD v 0 * 2) (csrArcs csr v),
                  List.mem_map.mpr ⟨v, List.mem_range.mpr hv, rfl⟩, rfl⟩,
               (emitArcs_mem wgt v (csrArcs csr v) (csr.offsets.getD v 0 * 2) j hj).2.2.1⟩
          · exact List.mem_flatten.mpr
              ⟨(emitArcs true false wgt v (csr.offsets.getD v 0 * 2) (csrArcs csr v)).2.1,
               List.mem_map.mpr
                 ⟨emitArcs true false wgt v (csr.offsets.getD v 0 * 2) (csrArcs csr v),
                  List.mem_map.mpr ⟨v, List.mem_range.mpr hv, rfl⟩, rfl⟩,
               (emitArcs_mem wgt v (csrArcs csr v) (csr.offsets.getD v 0 * 2) j hj).2.2.2.1⟩
          · intro hw
            have hm := (emitArcs_mem wgt v (csrArcs csr v)
              (csr.offsets.getD v 0 * 2) j hj).2.2.2.2 hw
            exact ⟨List.mem_flatten.mpr
              ⟨(emitArcs true false wgt v (csr.offsets.getD v 0 * 2) (csrArcs csr v)).2.2,
               List.mem_map.mpr
                 ⟨emitArcs true false wgt v (csr.offsets.getD v 0 * 2) (csrArcs csr v),
                  List.mem_map.mpr ⟨v, List.mem_range.mpr hv, rfl⟩, rfl⟩, hm.1⟩,
              List.mem_flatten.mpr
              ⟨(emitArcs true false wgt v (csr.offsets.getD v 0 * 2) (csrArcs csr v)).2.2,
               List.mem_map.mpr
                 ⟨emitArcs true false wgt v (csr.offsets.getD v 0 * 2) (csrArcs csr v),
                  List.mem_map.mpr ⟨v, List.mem_range.mpr hv, rfl⟩, rfl⟩, hm.2⟩⟩

/-- C8 witness: concrete instantiation of the conversion properties. -/
theorem claim_C8_witness :
    convertCsr false true false false ⟨3, 4, [0, 2, 3, 4], [1, 2, 0, 1], []⟩ =
      Except.error "Keeping triangle only from CSR not yet implemented" :=
  (claim_C8_theorem false true false false ⟨3, 4, [0, 2, 3, 4], [1, 2, 0, 1], []⟩).1
    rfl rfl

end Pigo

namespace Pigo

theorem maxUpd_le_left (a b : Nat) : a ≤ if decide (a < b) then b else a := by
  split_ifs with h
  · simp only [decide_eq_true_eq] at h
    omega
  · omega

theorem maxUpd_le_right (a b : Nat) : b ≤ if decide (a < b) then b else a := by
  split_ifs with h
  · omega
  · simp only [decide_eq_true_eq] at h
    omega

theorem initSt_inv (sym : Bool) (rr : Reader) (pos : Nat) :
    Pinv sym (initSt rr pos) :=
  ⟨fun pr hpr => absurd hpr (List.not_mem_nil pr),
   fun pr hpr => absurd hpr (List.not_mem_nil pr)⟩

theorem emitKept_inv (sym ut wgt : Bool) (x y : Nat) (r6 : Reader)
    (ws1 : List (Nat × ℚ)) (st : ScanSt) (h : Pinv sym st) :
    Pinv sym (emitKept sym ut wgt x y r6 ws1 st) := by
  unfold emitKept Pinv
  dsimp only
  set x1 := if sym && ut && decide (y < x) then y else x with hx1
  set y1 := if sym && ut && decide (y < x) then x else y with hy1
  by_cases hmir : (sym && !ut && !(x1 == y1)) = true
  · have hsym : sym = true :=
      ((Bool.and_eq_true _ _).mp ((Bool.and_eq_true _ _).mp hmir).1).1
    simp only [hmir, if_true]
    constructor
    · intro pr hpr
      rcases List.mem_append.mp hpr with hpr1 | hnew
      · rcases List.mem_append.mp hpr1 with hold | hx
        · rcases h.1 pr hold with hb | ⟨hs, hb⟩
          · exact Or.inl (Nat.le_trans hb (maxUpd_le_left _ _))
          · exact Or.inr ⟨hs, Nat.le_trans hb (maxUpd_le_left _ _)⟩
        · rcases List.mem_singleton.mp hx with rfl
          exact Or.inl (maxUpd_le_right _ _)
      · rcases List.mem_singleton.mp hnew with rfl
        exact Or.inr ⟨hsym, maxUpd_le_right _ _⟩
    · intro pr hpr
      rcases List.mem_append.mp hpr with hpr1 | hnew
      · rcases List.mem_append.mp hpr1 with hold | hy
        · rcases h.2 pr hold with hb | ⟨hs, hb⟩
          · exact Or.inl (Nat.le_trans hb (maxUpd_le_left _ _))
          · exact Or.inr ⟨hs, Nat.le_trans hb (maxUpd_le_left _ _)⟩
        · rcases List.mem_singleton.mp hy with rfl
          exact Or.inl (maxUpd_le_right _ _)
      · rcases List.mem_singleton.mp hnew with rfl
        exact Or.inr ⟨hsym, maxUpd_le_right _ _⟩
  · simp only [hmir, Bool.false_eq_true, if_false]
    constructor
    · intro pr hpr
      rcases List.mem_append.mp hpr with hold | hx
      · rcases h.1 pr hold with hb | ⟨hs, hb⟩
        · exact Or.inl (Nat.le_trans hb (maxUpd_le_left _ _))
        · exact Or.inr ⟨hs, Nat.le_trans hb (maxUpd_le_left _ _)⟩
      · rcases List.mem_singleton.mp hx with rfl
        exact Or.inl (maxUpd_le_right _ _)
    · intro pr hpr
      rcases List.mem_append.mp hpr with hold | hy
      · rcases h.2 pr hold with hb | ⟨hs, hb⟩
        · exact Or.inl (Nat.le_trans hb (maxUpd_le_left _ _))
        · exact Or.inr ⟨hs, Nat.le_trans hb (maxUpd_le_left _ _)⟩
      · rcases List.mem_singleton.mp hy with rfl
        exact Or.inl (maxUpd_le_right _ _)

theorem genSetBody_inv (data : List Char) (sym ut sl wgt : Bool)
    (rec : ScanSt → ScanSt) (x y : Nat) (ws1 : List (Nat × ℚ)) (r4 : Reader)
    (st : ScanSt) (hrec : ∀ st', Pinv sym st' → Pinv sym (rec st'))
    (h : Pinv sym st) :
    Pinv sym (genSetBody data sym ut sl wgt rec x y ws1 r4 st) := by
  unfold genSetBody
  dsimp only
  split
  · exact h
  · split
    · exact hrec _ h
    · split
      · exact hrec _ h
      · exact emitKept_inv _ _ _ _ _ _ _ _ h

theorem genSetF_inv (data : List Char) (k : WKind) (sym ut sl wgt : Bool) :
    ∀ fuel (st : ScanSt), Pinv sym st →
    Pinv sym (genSetF data k sym ut sl wgt fuel st) := by
  intro fuel
  induction fuel with
  | zero => exact fun st h => h
  | succ n ih =>
    intro st h
    exact genSetBody_inv data sym ut sl wgt _ _ _ _ _ st (fun st' h' => ih st' h') h

theorem nfSetBody_inv (data : List Char) (sym : Bool) (x y : Nat)
    (ws1 : List (Nat × ℚ)) (r4 : Reader) (st : ScanSt) (h : Pinv sym st) :
    Pinv sym (nfSetBody data x y ws1 r4 st) := by
  unfold nfSetBody
  dsimp only
  split
  · exact h
  · constructor
    · intro pr hpr
      rcases List.mem_append.mp hpr with hold | hnew
      · rcases h.1 pr hold with hb | ⟨hs, hb⟩
        · exact Or.inl (Nat.le_trans hb (maxUpd_le_left _ _))
        · exact Or.inr ⟨hs, Nat.le_trans hb (maxUpd_le_left _ _)⟩
      · rcases List.mem_singleton.mp hnew with rfl
        exact Or.inl (maxUpd_le_right _ _)
    · intro pr hpr
      rcases List.mem_append.mp hpr with hold | hnew
      · rcases h.2 pr hold with hb | ⟨hs, hb⟩
        · exact Or.inl (Nat.le_trans hb (maxUpd_le_left _ _))
        · exact Or.inr ⟨hs, Nat.le_trans hb (maxUpd_le_left _ _)⟩
      · rcases List.mem_singleton.mp hnew with rfl
        exact Or.inl (maxUpd_le_right _ _)

theorem nfSet_inv (data : List Char) (k : WKind) (wgt : Bool) (sym : Bool)
    (st : ScanSt) (h : Pinv sym st) : Pinv sym (nfSet data k wgt st) :=
  nfSetBody_inv data sym _ _ _ _ st h

theorem stepSet_inv (data : List Char) (k : WKind) (sym ut sl wgt : Bool)
    (st : ScanSt) (h : Pinv sym st) :
    Pinv sym (stepSet data k sym ut sl wgt st) := by
  unfold stepSet
  split
  · exact nfSet_inv data k wgt sym st h
  · exact genSetF_inv data k sym ut sl wgt _ st h

theorem scanLoopF_inv (sym : Bool) (step : ScanSt → ScanSt)
    (hstep : ∀ st, Pinv sym st → Pinv sym (step st)) :
    ∀ fuel (st : ScanSt), Pinv sym st → Pinv sym (scanLoopF step fuel st) := by
  intro fuel
  induction fuel with
  | zero => exact fun st h => h
  | succ n ih =>
    intro st h
    unfold scanLoopF
    split
    · exact ih _ (hstep st h)
    · exact h

theorem scanLoop_inv (sym : Bool) (step : ScanSt → ScanSt)
    (hstep : ∀ st, Pinv sym st → Pinv sym (step st)) (st : ScanSt)
    (h : Pinv sym st) : Pinv sym (scanLoop step st) :=
  scanLoopF_inv sym step hstep _ st h

theorem init_le_foldl_max : ∀ (l : List Nat) (init : Nat),
    init ≤ l.foldl max init := by
  intro l
  induction l with
  | nil => exact fun init => Nat.le_refl init
  | cons b t ih =>
    intro init
    exact Nat.le_trans (Nat.le_max_left init b) (ih (max init b))

theorem mem_le_foldl_max : ∀ (l : List Nat) (a init : Nat), a ∈ l →
    a ≤ l.foldl max init := by
  intro l
  induction l with
  | nil => intro a init h; exact absurd h (List.not_mem_nil a)
  | cons b t ih =>
    intro a init h
    rcases List.mem_cons.mp h with rfl | ht
    · exact Nat.le_trans (Nat.le_max_right init a) (init_le_foldl_max t (max init a))
    · exact ih a (max init b) ht

end Pigo

namespace Pigo

theorem flatten_inv_x (sym : Bool) (sts : List ScanSt)
    (hall : ∀ st ∈ sts, Pinv sym st) (i v : Nat)
    (hx : (i, v) ∈ (sts.map ScanSt.xs).flatten) :
    v ≤ (sts.map ScanSt.maxRow).foldl max 0 ∨
    (sym = true ∧ v ≤ (sts.map ScanSt.maxCol).foldl max 0) := by
  obtain ⟨l, hl, hmem2⟩ := List.mem_flatten.mp hx
  obtain ⟨st, hst, rfl⟩ := List.mem_map.mp hl
  rcases (hall st hst).1 (i, v) hmem2 with hb | ⟨hs, hb⟩
  · exact Or.inl (Nat.le_trans hb
      (mem_le_foldl_max _ _ 0 (List.mem_map_of_mem ScanSt.maxRow hst)))
  · exact Or.inr ⟨hs, Nat.le_trans hb
      (mem_le_foldl_max _ _ 0 (List.mem_map_of_mem ScanSt.maxCol hst))⟩

theorem flatten_inv_y (sym : Bool) (sts : List ScanSt)
    (hall : ∀ st ∈ sts, Pinv sym st) (i v : Nat)
    (hy : (i, v) ∈ (sts.map ScanSt.ys).flatten) :
    v ≤ (sts.map ScanSt.maxCol).foldl max 0 ∨
    (sym = true ∧ v ≤ (sts.map ScanSt.maxRow).foldl max 0) := by
  obtain ⟨l, hl, hmem2⟩ := List.mem_flatten.mp hy
  obtain ⟨st, hst, rfl⟩ := List.mem_map.mp hl
  rcases (hall st hst).2 (i, v) hmem2 with hb | ⟨hs, hb⟩
  · exact Or.inl (Nat.le_trans hb
      (mem_le_foldl_max _ _ 0 (List.mem_map_of_mem ScanSt.maxCol hst)))
  · exact Or.inr ⟨hs, Nat.le_trans hb
      (mem_le_foldl_max _ _ 0 (List.mem_map_of_mem ScanSt.maxRow hst))⟩

/-- C2 (amended): for every entry stored by `read_el_`, the value is
strictly below `n = max(nrows, ncols)`; without `SYM` the stored `X`
values are below `nrows` and the stored `Y` values below `ncols`.  (With
`SYM ∧ ¬UT` the mirror entry can exceed `nrows`/`ncols` individually,
as the counterexample shows.) -/
theorem claim_C2_theorem :
    ∀ (data : List Char) (k : WKind) (sym ut sl wgt : Bool) (P : Nat)
      (r : Reader) (i v : Nat),
    ((i, v) ∈ (readEl data k sym ut sl wgt P r).xs →
      v < (readEl data k sym ut sl wgt P r).n ∧
      (sym = false → v < (readEl data k sym ut sl wgt P r).nrows)) ∧
    ((i, v) ∈ (readEl data k sym ut sl wgt P r).ys →
      v < (readEl data k sym ut sl wgt P r).n ∧
      (sym = false → v < (readEl data k sym ut sl wgt P r).ncols)) ∧
    (readEl data k sym ut sl wgt P r).n =
      max (readEl data k sym ut sl wgt P r).nrows
        (readEl data k sym ut sl wgt P r).ncols := by
  intro data k sym ut sl wgt P r i v
  unfold readEl
  dsimp only
  have hall : ∀ st ∈ List.map (fun t =>
      scanLoop (stepSet data k sym ut sl wgt)
        (initSt ((List.map (fun t => workerReader data r P t)
            (List.range P)).getD t ⟨0, 0⟩)
          (List.take t (List.map
            (fun rr => (scanLoop (stepCount data k sym ut sl wgt)
              (initSt rr 0)).pos)
            (List.map (fun t => workerReader data r P t)
              (List.range P)))).sum)) (List.range P), Pinv sym st := by
    intro st hst
    obtain ⟨t, _, rfl⟩ := List.mem_map.mp hst
    exact scanLoop_inv sym _ (fun s h => stepSet_inv data k sym ut sl wgt s h)
      _ (initSt_inv sym _ _)
  refine ⟨?_, ?_, ?_⟩
  · intro hmem
    rcases flatten_inv_x sym _ hall i v hmem with hb | ⟨hs, hb⟩
    · constructor
      · split_ifs <;> omega
      · intro _; omega
    · constructor
      · split_ifs <;> omega
      · intro hns
        rw [hns] at hs
        exact absurd hs (by decide)
  · intro hmem
    rcases flatten_inv_y sym _ hall i v hmem with hb | ⟨hs, hb⟩
    · constructor
      · split_ifs <;> omega
      · intro _; omega
    · constructor
      · split_ifs <;> omega
      · intro hns
        rw [hns] at hs
        exact absurd hs (by decide)
  · split_ifs <;> omega

/-- C2 witness: the amended bound at a concrete mirrored input. -/
theorem claim_C2_witness :
    (5 : Nat) < (readEl ("1 5\n".data) WKind.iUnsigned true false false false 1
      ⟨0, ("1 5\n".data).length⟩).n :=
  ((claim_C2_theorem ("1 5\n".data) WKind.iUnsigned true false false false 1
    ⟨0, ("1 5\n".data).length⟩ 1 5).1 (by decide)).1

end Pigo

namespace Pigo

theorem skipPastEol_d_le (data : List Char) (r : Reader) :
    r.d ≤ (skipPastEol data r).d := by
  unfold skipPastEol
  dsimp only
  split
  · exact Nat.le_trans (advWhile_d_le data _ r) (Nat.le_succ _)
  · exact advWhile_d_le data _ r

theorem skipCommentsF_d_le (data : List Char) :
    ∀ fuel r, r.d ≤ (skipCommentsF data fuel r).d := by
  intro fuel
  induction fuel with
  | zero => exact fun r => Nat.le_refl _
  | succ n ih =>
    intro r
    unfold skipCommentsF
    split
    · exact Nat.le_trans (skipPastEol_d_le data r) (ih _)
    · exact Nat.le_refl _

theorem skipComments_d_le (data : List Char) (r : Reader) :
    r.d ≤ (skipComments data r).d := skipCommentsF_d_le data _ r

theorem mtfiF_end (data : List Char)
    (hnod : ∀ j, isDig (chAt data j) = false) :
    ∀ fuel r, r.d ≤ r.e → r.e - r.d ≤ fuel →
    (mtfiF data fuel r).d = r.e ∧ (mtfiF data fuel r).e = r.e := by
  intro fuel
  induction fuel with
  | zero =>
    intro r h1 h2
    have hde : r.d = r.e := by omega
    exact ⟨hde, rfl⟩
  | succ n ih =>
    intro r h1 h2
    unfold mtfiF
    by_cases hg : (r.good && !isDig (chAt data r.d)) = true
    · rw [if_pos hg]
      dsimp only
      have hlt : r.d < r.e := (good_iff r).mp ((Bool.and_eq_true _ _).mp hg).1
      by_cases hc : isCmt (chAt data (r.d + 1)) = true
      · rw [if_pos hc]
        have h3 : (skipComments data (⟨r.d + 1, r.e⟩ : Reader)).e = r.e :=
          skipComments_e data ⟨r.d + 1, r.e⟩
        have h4 : r.d + 1 ≤ (skipComments data (⟨r.d + 1, r.e⟩ : Reader)).d :=
          skipComments_d_le data ⟨r.d + 1, r.e⟩
        have h5 : (skipComments data (⟨r.d + 1, r.e⟩ : Reader)).d ≤ r.e :=
          skipComments_le_e data ⟨r.d + 1, r.e⟩ hlt
        have := ih (skipComments data ⟨r.d + 1, r.e⟩)
          (by show _ ≤ _; omega) (by show _ - _ ≤ n; omega)
        exact ⟨this.1.trans h3, this.2.trans h3⟩
      · rw [if_neg hc]
        exact ih ⟨r.d + 1, r.e⟩ hlt (by show r.e - (r.d + 1) ≤ n; omega)
    · rw [if_neg hg]
      have hgf : r.good = false := by
        cases hgb : r.good with
        | false => rfl
        | true => exact absurd (by rw [hgb, hnod r.d]; rfl) hg
      have := (good_false r).mp hgf
      exact ⟨by omega, rfl⟩

theorem moveToFirstInt_end (data : List Char)
    (hnod : ∀ j, isDig (chAt data j) = false) (r : Reader) (h : r.d ≤ r.e) :
    (moveToFirstInt data r).d = r.e ∧ (moveToFirstInt data r).e = r.e := by
  unfold moveToFirstInt
  dsimp only
  by_cases hc : isCmt (chAt data r.d) = true
  · rw [if_pos hc]
    have h1 : (skipComments data r).d ≤ r.e := skipComments_le_e data r h
    have h2 : (skipComments data r).e = r.e := skipComments_e data r
    have := mtfiF_end data hnod ((skipComments data r).e - (skipComments data r).d)
      (skipComments data r) (by omega) (Nat.le_refl _)
    exact ⟨this.1.trans h2, this.2.trans h2⟩
  · rw [if_neg hc]
    exact mtfiF_end data hnod (r.e - r.d) r h (Nat.le_refl _)

theorem moveToNextInt_end (data : List Char)
    (hnod : ∀ j, isDig (chAt data j) = false) (r : Reader) (h : r.d ≤ r.e) :
    (moveToNextInt data r).d = r.e ∧ (moveToNextInt data r).e = r.e := by
  unfold moveToNextInt moveToNonInt
  have h1 : (advWhile data isDig r).d ≤ r.e := advWhile_le_e data isDig r h
  have h2 : (advWhile data isDig r).e = r.e := advWhile_e data isDig r
  have := moveToFirstInt_end data hnod (advWhile data isDig r) (by omega)
  exact ⟨this.1.trans h2, this.2.trans h2⟩

theorem noDigit_chAt (data : List Char) (hnd : noDigit data = true) :
    ∀ j, isDig (chAt data j) = false := by
  intro j
  unfold chAt
  by_cases hj : j < data.length
  · rw [List.getD_eq_getElem data _ hj]
    have := List.all_eq_true.mp hnd data[j] (List.getElem_mem hj)
    simp only [Bool.not_eq_true'] at this
    exact this
  · rw [List.getD_eq_default _ _ (Nat.le_of_not_lt hj)]
    rfl

end Pigo

namespace Pigo

theorem workerReader_dead (data : List Char)
    (hnod : ∀ j, isDig (chAt data j) = false) (P t : Nat) (ht : t < P) :
    (workerReader data ⟨0, data.length⟩ P t).good = false := by
  have hP : 0 < P := Nat.lt_of_le_of_lt (Nat.zero_le t) ht
  have hs : t * (data.length - 0) / P ≤ data.length := by
    have h1 : t * (data.length - 0) ≤ P * data.length :=
      Nat.le_trans (Nat.mul_le_mul (Nat.le_of_lt ht) (Nat.sub_le data.length 0))
        (Nat.le_refl _)
    exact Nat.le_trans (Nat.div_le_div_right h1)
      (Nat.le_of_eq (Nat.mul_div_cancel_left _ hP))
  unfold workerReader
  dsimp only [Reader.size]
  rw [good_false]
  dsimp only
  have hrs : (⟨0 + t * (data.length - 0) / P, data.length⟩ : Reader).d ≤
      (⟨0 + t * (data.length - 0) / P, data.length⟩ : Reader).e := by
    dsimp only
    omega
  by_cases htz : (t != 0) = true
  · rw [if_pos htz]
    have he1 : (moveToEol data ⟨0 + t * (data.length - 0) / P, data.length⟩).e =
        data.length :=
      moveToEol_e data _
    have he2 : (moveToEol data ⟨0 + t * (data.length - 0) / P, data.length⟩).d ≤
        data.length :=
      moveToEol_le_e data _ hrs
    have hA := moveToNextInt_end data hnod
      (moveToEol data ⟨0 + t * (data.length - 0) / P, data.length⟩)
      (by omega)
    have hAd := hA.1.trans he1
    have hAe := hA.2.trans he1
    rw [hAd, hAe]
    split
    · omega
    · omega
  · rw [if_neg htz]
    have hB := moveToFirstInt_end data hnod
      ⟨0 + t * (data.length - 0) / P, data.length⟩ hrs
    rw [hB.1, hB.2]
    split
    · omega
    · omega

end Pigo

namespace Pigo

theorem scanLoop_dead (step : ScanSt → ScanSt) (st : ScanSt)
    (h : st.r.good = false) : scanLoop step st = st := by
  unfold scanLoop
  show scanLoopF step (st.r.e - st.r.d + 1) st = st
  unfold scanLoopF
  rw [h]
  simp

theorem getD_map_range {α : Type} (f : Nat → α) (P t : Nat) (ht : t < P)
    (d : α) : (List.map f (List.range P)).getD t d = f t := by
  rw [List.getD_eq_getElem _ _ (by simp [ht])]
  simp

theorem foldl_max_zero (l : List Nat) (h : ∀ a ∈ l, a = 0) :
    l.foldl max 0 = 0 := by
  induction l with
  | nil => rfl
  | cons b t ih =>
    have hb : b = 0 := h b (List.mem_cons_self b t)
    rw [List.foldl_cons, hb]
    exact ih (fun a ha => h a (List.mem_cons_of_mem b ha))

theorem readEl_dead (data : List Char) (k : WKind) (sym ut sl wgt : Bool)
    (P : Nat) (r : Reader)
    (hdead : ∀ t, t < P → (workerReader data r P t).good = false) :
    readEl data k sym ut sl wgt P r =
      { xs := [], ys := [], ws := [], m := 0, nrows := 1, ncols := 1, n := 1 } := by
  unfold readEl
  dsimp only
  have hsts : ∀ st ∈ List.map (fun t =>
      scanLoop (stepSet data k sym ut sl wgt)
        (initSt ((List.map (fun t => workerReader data r P t)
            (List.range P)).getD t ⟨0, 0⟩)
          (List.take t (List.map
            (fun rr => (scanLoop (stepCount data k sym ut sl wgt)
              (initSt rr 0)).pos)
            (List.map (fun t => workerReader data r P t)
              (List.range P)))).sum)) (List.range P),
      st = initSt (workerReader data r P 0) 0 ∨
        (st.xs = [] ∧ st.ys = [] ∧ st.ws = [] ∧ st.maxRow = 0 ∧ st.maxCol = 0) := by
    intro st hst
    obtain ⟨t, htr, rfl⟩ := List.mem_map.mp hst
    have ht := List.mem_range.mp htr
    rw [getD_map_range _ P t ht, scanLoop_dead _ _ (hdead t ht)]
    exact Or.inr ⟨rfl, rfl, rfl, rfl, rfl⟩
  congr 1
  · rw [List.flatten_eq_nil_iff]
    intro l hl
    obtain ⟨st, hst, rfl⟩ := List.mem_map.mp hl
    rcases hsts st hst with h1 | h1
    · rw [h1]; rfl
    · exact h1.1
  · rw [List.flatten_eq_nil_iff]
    intro l hl
    obtain ⟨st, hst, rfl⟩ := List.mem_map.mp hl
    rcases hsts st hst with h1 | h1
    · rw [h1]; rfl
    · exact h1.2.1
  · rw [List.flatten_eq_nil_iff]
    intro l hl
    obtain ⟨st, hst, rfl⟩ := List.mem_map.mp hl
    rcases hsts st hst with h1 | h1
    · rw [h1]; rfl
    · exact h1.2.2.1
  · apply List.sum_eq_zero
    intro c hc
    obtain ⟨rr, hrr, rfl⟩ := List.mem_map.mp hc
    obtain ⟨t, htr, rfl⟩ := List.mem_map.mp hrr
    have ht := List.mem_range.mp htr
    rw [scanLoop_dead _ _ (hdead t ht)]
    rfl
  · rw [foldl_max_zero]
    intro a ha
    obtain ⟨st, hst, rfl⟩ := List.mem_map.mp ha
    rcases hsts st hst with h1 | h1
    · rw [h1]; rfl
    · first
      | exact h1.2.2.2.1
      | exact h1.2.2.2.2
  · rw [foldl_max_zero]
    intro a ha
    obtain ⟨st, hst, rfl⟩ := List.mem_map.mp ha
    rcases hsts st hst with h1 | h1
    · rw [h1]; rfl
    · first
      | exact h1.2.2.2.1
      | exact h1.2.2.2.2
  · rw [foldl_max_zero, foldl_max_zero]
    all_goals first
      | rfl
      | (intro a ha
         obtain ⟨st, hst, rfl⟩ := List.mem_map.mp ha
         rcases hsts st hst with h1 | h1
         · rw [h1]; rfl
         · first
           | exact h1.2.2.2.1
           | exact h1.2.2.2.2)

/-- C3 (amended): opening an empty file raises "seeking beyond end of
file" (the constructor's `seek(0)` on `size_ = 0`), and reading any
region without digits — in particular a comments-only file — yields
`m = 0` but `n = nrows = ncols = 1`, because `read_el_` always sets
`nrows = max_row + 1` with `max_row` initialized to 0. -/
theorem claim_C3_theorem :
    fileOpenRO [] = Except.error "seeking beyond end of file" ∧
    ∀ (data : List Char) (k : WKind) (sym ut sl wgt : Bool) (P : Nat),
      noDigit data = true →
      readEl data k sym ut sl wgt P ⟨0, data.length⟩ =
        { xs := [], ys := [], ws := [], m := 0, nrows := 1, ncols := 1, n := 1 } := by
  constructor
  · rfl
  · intro data k sym ut sl wgt P hnd
    exact readEl_dead data k sym ut sl wgt P ⟨0, data.length⟩
      (fun t ht => workerReader_dead data (noDigit_chAt data hnd) P t ht)

/-- C3 witness: the amended behavior at the comments-only file. -/
theorem claim_C3_witness :
    readEl ("%x\n".data) WKind.iUnsigned false false false false 4
      ⟨0, ("%x\n".data).length⟩ =
      { xs := [], ys := [], ws := [], m := 0, nrows := 1, ncols := 1, n := 1 } :=
  claim_C3_theorem.2 ("%x\n".data) WKind.iUnsigned false false false false 4
    (by decide)

end Pigo

namespace Pigo

theorem mtfiF_d_le (data : List Char) :
    ∀ fuel r, r.d ≤ (mtfiF data fuel r).d := by
  intro fuel
  induction fuel with
  | zero => exact fun r => Nat.le_refl _
  | succ n ih =>
    intro r
    unfold mtfiF
    split
    · dsimp only
      split
      · exact Nat.le_trans (Nat.le_succ _)
          (Nat.le_trans (skipComments_d_le data ⟨r.d + 1, r.e⟩)
            (ih (skipComments data ⟨r.d + 1, r.e⟩)))
      · exact Nat.le_trans (Nat.le_succ _) (ih ⟨r.d + 1, r.e⟩)
    · exact Nat.le_refl _

theorem moveToFirstInt_d_le (data : List Char) (r : Reader) :
    r.d ≤ (moveToFirstInt data r).d := by
  unfold moveToFirstInt
  dsimp only
  split
  · exact Nat.le_trans (skipComments_d_le data r) (mtfiF_d_le data _ _)
  · exact mtfiF_d_le data _ _

theorem moveToNextInt_d_le (data : List Char) (r : Reader) :
    r.d ≤ (moveToNextInt data r).d := by
  unfold moveToNextInt moveToNonInt
  exact Nat.le_trans (advWhile_d_le data isDig r) (moveToFirstInt_d_le data _)

theorem moveToNonInt_e (data : List Char) (r : Reader) :
    (moveToNonInt data r).e = r.e := advWhile_e data isDig r

theorem moveToNonInt_d_le (data : List Char) (r : Reader) :
    r.d ≤ (moveToNonInt data r).d := advWhile_d_le data isDig r

theorem mtnsiF_e (data : List Char) :
    ∀ fuel r, (mtnsiF data fuel r).e = r.e := by
  intro fuel
  induction fuel with
  | zero => exact fun r => rfl
  | succ n ih =>
    intro r
    unfold mtnsiF
    split
    · dsimp only
      split
      · rw [ih, skipComments_e]
      · rw [ih]
    · rfl

theorem mtnsiF_d_le (data : List Char) :
    ∀ fuel r, r.d ≤ (mtnsiF data fuel r).d := by
  intro fuel
  induction fuel with
  | zero => exact fun r => Nat.le_refl _
  | succ n ih =>
    intro r
    unfold mtnsiF
    split
    · dsimp only
      split
      · exact Nat.le_trans (Nat.le_succ _)
          (Nat.le_trans (skipComments_d_le data ⟨r.d + 1, r.e⟩)
            (ih (skipComments data ⟨r.d + 1, r.e⟩)))
      · exact Nat.le_trans (Nat.le_succ _) (ih ⟨r.d + 1, r.e⟩)
    · exact Nat.le_refl _

theorem moveToNextSignedInt_e (data : List Char) (r : Reader) :
    (moveToNextSignedInt data r).e = r.e := by
  unfold moveToNextSignedInt
  dsimp only
  split <;> split <;>
    simp only [mtnsiF_e, skipComments_e, moveToNonInt_e, advWhile_e]

theorem moveToNextSignedInt_d_le (data : List Char) (r : Reader) :
    r.d ≤ (moveToNextSignedInt data r).d := by
  unfold moveToNextSignedInt
  dsimp only
  split
  · split
    · exact Nat.le_trans (Nat.le_succ _)
        (Nat.le_trans (advWhile_d_le data isDig ⟨r.d + 1, r.e⟩)
          (Nat.le_trans (skipComments_d_le data (advWhile data isDig ⟨r.d + 1, r.e⟩))
            (mtnsiF_d_le data _ (skipComments data (advWhile data isDig ⟨r.d + 1, r.e⟩)))))
    · exact Nat.le_trans (Nat.le_succ _)
        (Nat.le_trans (advWhile_d_le data isDig ⟨r.d + 1, r.e⟩)
          (mtnsiF_d_le data _ (advWhile data isDig ⟨r.d + 1, r.e⟩)))
  · split
    · exact Nat.le_trans (advWhile_d_le data isDig r)
        (Nat.le_trans (skipComments_d_le data (advWhile data isDig r))
          (mtnsiF_d_le data _ (skipComments data (advWhile data isDig r))))
    · exact Nat.le_trans (advWhile_d_le data isDig r)
        (mtnsiF_d_le data _ (advWhile data isDig r))

theorem readDigitsF_e (data : List Char) :
    ∀ fuel acc r, ((readDigitsF data fuel acc r).2).e = r.e := by
  intro fuel
  induction fuel with
  | zero => exact fun acc r => rfl
  | succ n ih =>
    intro acc r
    unfold readDigitsF
    split
    · rw [ih]
    · rfl

theorem readDigitsF_d_le (data : List Char) :
    ∀ fuel acc r, r.d ≤ ((readDigitsF data fuel acc r).2).d := by
  intro fuel
  induction fuel with
  | zero => exact fun acc r => Nat.le_refl _
  | succ n ih =>
    intro acc r
    unfold readDigitsF
    split
    · exact Nat.le_trans (Nat.le_succ _)
        (ih (acc * 10 + ((chAt data r.d).toNat - '0'.toNat)) ⟨r.d + 1, r.e⟩)
    · exact Nat.le_refl _

theorem readInt_e (data : List Char) (r : Reader) :
    ((readInt data r).2).e = r.e := by
  unfold readInt
  dsimp only
  rw [readDigitsF_e, advWhile_e]

theorem readInt_d_le (data : List Char) (r : Reader) :
    r.d ≤ ((readInt data r).2).d := by
  unfold readInt
  dsimp only
  exact Nat.le_trans (advWhile_d_le data _ r) (readDigitsF_d_le data _ _ _)

theorem readSign_e (data : List Char) (r : Reader) :
    ((readSign data r).2).e = r.e := by
  unfold readSign
  split <;> first | rfl | (split <;> rfl)

theorem readSign_d_le (data : List Char) (r : Reader) :
    r.d ≤ ((readSign data r).2).d := by
  unfold readSign
  split
  · exact Nat.le_succ _
  · split
    · exact Nat.le_succ _
    · exact Nat.le_refl _

theorem readFpSign_e (data : List Char) (r : Reader) :
    ((readFpSign data r).2).e = r.e := by
  unfold readFpSign
  split
  · rfl
  · split <;> rfl

theorem readFpSign_d_le (data : List Char) (r : Reader) :
    r.d ≤ ((readFpSign data r).2).d := by
  unfold readFpSign
  split
  · exact Nat.le_succ _
  · split
    · exact Nat.le_succ _
    · exact Nat.le_refl _

theorem readFpFrac_e (data : List Char) (res : ℚ) (r : Reader) :
    ((readFpFrac data res r).2).e = r.e := by
  unfold readFpFrac
  split
  · exact readDigitsF_e data (r.e - (r.d + 1)) 0 ⟨r.d + 1, r.e⟩
  · rfl

theorem readFpFrac_d_le (data : List Char) (res : ℚ) (r : Reader) :
    r.d ≤ ((readFpFrac data res r).2).d := by
  unfold readFpFrac
  split
  · exact Nat.le_trans (Nat.le_succ r.d)
      (readDigitsF_d_le data (r.e - (r.d + 1)) 0 ⟨r.d + 1, r.e⟩)
  · exact Nat.le_refl _

theorem readFpF_e (data : List Char) :
    ∀ fuel r, ((readFpF data fuel r).2).e = r.e := by
  intro fuel
  induction fuel with
  | zero => exact fun r => rfl
  | succ n ih =>
    intro r
    unfold readFpF
    dsimp only
    split <;>
      simp only [ih, readFpFrac_e, readDigitsF_e, readFpSign_e, advWhile_e]

theorem readFpF_d_le (data : List Char) :
    ∀ fuel r, r.d ≤ ((readFpF data fuel r).2).d := by
  intro fuel
  induction fuel with
  | zero => exact fun r => Nat.le_refl _
  | succ n ih =>
    intro r
    unfold readFpF
    dsimp only
    set r1 := advWhile data (fun c => !(isFpCh c)) r with hr1
    set pr := readFpSign data r1 with hpr
    set ipr := readDigitsF data (pr.2.e - pr.2.d) 0 pr.2 with hipr
    set fr := readFpFrac data (ipr.1 : ℚ) ipr.2 with hfr
    have h0 : r.d ≤ fr.2.d := by
      rw [hfr, hipr, hpr, hr1]
      exact Nat.le_trans (advWhile_d_le data _ r)
        (Nat.le_trans (readFpSign_d_le data _)
          (Nat.le_trans (readDigitsF_d_le data _ _ _)
            (readFpFrac_d_le data _ _)))
    split
    · exact Nat.le_trans h0
        (Nat.le_trans (Nat.le_succ fr.2.d) (ih ⟨fr.2.d + 1, fr.2.e⟩))
    · exact h0

end Pigo

namespace Pigo

theorem isDig_ne (c x : Char) (h : isDig c = true) (hx : isDig x = false) :
    (c == x) = false := by
  by_cases hcx : c = x
  · subst hcx; rw [h] at hx; simp at hx
  · exact beq_eq_false_iff_ne.mpr hcx

theorem isDig_not_cmt (c : Char) (h : isDig c = true) : isCmt c = false := by
  unfold isCmt
  rw [isDig_ne c '%' h (by decide), isDig_ne c '#' h (by decide)]
  rfl

theorem isDig_fp (c : Char) (h : isDig c = true) : isFpCh c = true := by
  unfold isFpCh
  rw [h]
  rfl

theorem blockAt_nil (data : List Char) (d : Nat) : BlockAt data d [] :=
  fun _ hi => absurd hi (by simp)

theorem blockAt_cons (data : List Char) (d : Nat) (c : Char) (u : List Char) :
    BlockAt data d (c :: u) ↔ chAt data d = c ∧ BlockAt data (d + 1) u := by
  constructor
  · intro h
    refine ⟨by simpa using h 0 (by simp), fun i hi => ?_⟩
    have h2 := h (i + 1) (by simp only [List.length_cons]; omega)
    rw [show d + (i + 1) = d + 1 + i by omega] at h2
    simpa using h2
  · intro h i hi
    cases i with
    | zero => simpa using h.1
    | succ j =>
      have h2 := h.2 j (by simp only [List.length_cons] at hi; omega)
      rw [show d + (j + 1) = d + 1 + j by omega]
      simpa using h2

theorem blockAt_append (data : List Char) (u1 u2 : List Char) :
    ∀ d, BlockAt data d (u1 ++ u2) ↔
      BlockAt data d u1 ∧ BlockAt data (d + u1.length) u2 := by
  induction u1 with
  | nil =>
    intro d
    constructor
    · intro h
      exact ⟨blockAt_nil data d, by simpa using h⟩
    · intro h
      simpa using h.2
  | cons c u ih =>
    intro d
    rw [List.cons_append, blockAt_cons, blockAt_cons, ih (d + 1),
      show d + (c :: u).length = d + 1 + u.length by
        simp only [List.length_cons]; omega]
    tauto

theorem advWhileF_span (data : List Char) (p : Char → Bool) :
    ∀ (u : List Char) (fuel d e : Nat), BlockAt data d u →
    (∀ c ∈ u, p c = true) → d + u.length ≤ e → u.length ≤ fuel →
    (d + u.length = e ∨ p (chAt data (d + u.length)) = false) →
    advWhileF data p fuel ⟨d, e⟩ = ⟨d + u.length, e⟩ := by
  intro u
  induction u with
  | nil =>
    intro fuel d e _ _ _ _ hstop
    simp only [List.length_nil, Nat.add_zero] at hstop ⊢
    cases fuel with
    | zero => rfl
    | succ f =>
      unfold advWhileF
      have hneg : ¬(((⟨d, e⟩ : Reader).good && p (chAt data (⟨d, e⟩ : Reader).d)) = true) := by
        intro hh
        rcases hstop with h | h
        · have hg := ((Bool.and_eq_true _ _).mp hh).1
          rw [good_iff] at hg
          exact absurd hg (by show ¬(d < e); omega)
        · have hp := ((Bool.and_eq_true _ _).mp hh).2
          rw [show chAt data (⟨d, e⟩ : Reader).d = chAt data d from rfl, h] at hp
          simp at hp
      rw [if_neg hneg]
  | cons c u ih =>
    intro fuel d e hb hall hle hfuel hstop
    cases fuel with
    | zero => simp at hfuel
    | succ f =>
      unfold advWhileF
      have hc0 : chAt data d = c := by simpa using hb 0 (by simp)
      have hcond : (((⟨d, e⟩ : Reader).good && p (chAt data (⟨d, e⟩ : Reader).d)) = true) := by
        have hg : (⟨d, e⟩ : Reader).good = true := by
          rw [good_iff]
          show d < e
          simp only [List.length_cons] at hle
          omega
        rw [hg, Bool.true_and]
        show p (chAt data d) = true
        rw [hc0]
        exact hall c (by simp)
      rw [if_pos hcond]
      have hrec := ih f (d + 1) e ((blockAt_cons data d c u).mp hb).2
        (fun x hx => hall x (by simp [hx]))
        (by simp only [List.length_cons] at hle; omega)
        (by simp only [List.length_cons] at hfuel; omega)
        (by
          simp only [List.length_cons] at hstop
          rcases hstop with h | h
          · left; omega
          · right
            rw [show d + 1 + u.length = d + (u.length + 1) by omega]
            exact h)
      show advWhileF data p f ⟨d + 1, e⟩ = ⟨d + (c :: u).length, e⟩
      rw [hrec]
      congr 1
      simp only [List.length_cons]
      omega

theorem advWhile_span (data : List Char) (p : Char → Bool) (u : List Char)
    (d e : Nat) (hb : BlockAt data d u) (hall : ∀ c ∈ u, p c = true)
    (hle : d + u.length ≤ e)
    (hstop : d + u.length = e ∨ p (chAt data (d + u.length)) = false) :
    advWhile data p ⟨d, e⟩ = ⟨d + u.length, e⟩ := by
  unfold advWhile
  exact advWhileF_span data p u (e - d) d e hb hall hle (by omega) hstop

theorem readDigitsF_span (data : List Char) :
    ∀ (u : List Char) (fuel acc d e : Nat), BlockAt data d u →
    (∀ c ∈ u, isDig c = true) → d + u.length ≤ e → u.length ≤ fuel →
    (d + u.length = e ∨ isDig (chAt data (d + u.length)) = false) →
    readDigitsF data fuel acc ⟨d, e⟩ =
      (u.foldl (fun a c => a * 10 + (c.toNat - '0'.toNat)) acc,
       ⟨d + u.length, e⟩) := by
  intro u
  induction u with
  | nil =>
    intro fuel acc d e _ _ _ _ hstop
    simp only [List.length_nil, Nat.add_zero] at hstop ⊢
    cases fuel with
    | zero => rfl
    | succ f =>
      unfold readDigitsF
      have hneg : ¬(((⟨d, e⟩ : Reader).good && isDig (chAt data (⟨d, e⟩ : Reader).d)) = true) := by
        intro hh
        rcases hstop with h | h
        · have hg := ((Bool.and_eq_true _ _).mp hh).1
          rw [good_iff] at hg
          exact absurd hg (by show ¬(d < e); omega)
        · have hp := ((Bool.and_eq_true _ _).mp hh).2
          rw [show chAt data (⟨d, e⟩ : Reader).d = chAt data d from rfl, h] at hp
          simp at hp
      rw [if_neg hneg]
      rfl
  | cons c u ih =>
    intro fuel acc d e hb hall hle hfuel hstop
    cases fuel with
    | zero => simp at hfuel
    | succ f =>
      unfold readDigitsF
      have hc0 : chAt data d = c := by simpa using hb 0 (by simp)
      have hcond : (((⟨d, e⟩ : Reader).good && isDig (chAt data (⟨d, e⟩ : Reader).d)) = true) := by
        have hg : (⟨d, e⟩ : Reader).good = true := by
          rw [good_iff]
          show d < e
          simp only [List.length_cons] at hle
          omega
        rw [hg, Bool.true_and]
        show isDig (chAt data d) = true
        rw [hc0]
        exact hall c (by simp)
      rw [if_pos hcond]
      have hrec := ih f (acc * 10 + (c.toNat - '0'.toNat)) (d + 1) e
        ((blockAt_cons data d c u).mp hb).2
        (fun x hx => hall x (by simp [hx]))
        (by simp only [List.length_cons] at hle; omega)
        (by simp only [List.length_cons] at hfuel; omega)
        (by
          simp only [List.length_cons] at hstop
          rcases hstop with h | h
          · left; omega
          · right
            rw [show d + 1 + u.length = d + (u.length + 1) by omega]
            exact h)
      show readDigitsF data f (acc * 10 + ((chAt data d).toNat - '0'.toNat))
          ⟨d + 1, e⟩ = ((c :: u).foldl (fun a c => a * 10 + (c.toNat - '0'.toNat)) acc,
          ⟨d + (c :: u).length, e⟩)
      rw [hc0, hrec, List.foldl_cons]
      congr 2
      simp only [List.length_cons]
      omega

theorem skipComments_stuck (data : List Char) (d e : Nat) (h : e ≤ d) :
    skipComments data ⟨d, e⟩ = ⟨d, e⟩ := by
  unfold skipComments
  show skipCommentsF data (e - d) ⟨d, e⟩ = ⟨d, e⟩
  rw [Nat.sub_eq_zero_of_le h]
  rfl

theorem mtfiF_span (data : List Char) :
    ∀ (u : List Char) (fuel d e : Nat), BlockAt data d u →
    (∀ c ∈ u, isDig c = false ∧ isCmt c = false) →
    d + u.length ≤ e → u.length ≤ fuel →
    (d + u.length = e ∨ isDig (chAt data (d + u.length)) = true) →
    mtfiF data fuel ⟨d, e⟩ = ⟨d + u.length, e⟩ := by
  intro u
  induction u with
  | nil =>
    intro fuel d e _ _ _ _ hstop
    simp only [List.length_nil, Nat.add_zero] at hstop ⊢
    cases fuel with
    | zero => rfl
    | succ f =>
      unfold mtfiF
      have hneg : ¬(((⟨d, e⟩ : Reader).good && !(isDig (chAt data (⟨d, e⟩ : Reader).d))) = true) := by
        intro hh
        rcases hstop with h | h
        · have hg := ((Bool.and_eq_true _ _).mp hh).1
          rw [good_iff] at hg
          exact absurd hg (by show ¬(d < e); omega)
        · have hp := ((Bool.and_eq_true _ _).mp hh).2
          rw [show chAt data (⟨d, e⟩ : Reader).d = chAt data d from rfl, h] at hp
          simp at hp
      rw [if_neg hneg]
  | cons c u ih =>
    intro fuel d e hb hall hle hfuel hstop
    cases fuel with
    | zero => simp at hfuel
    | succ f =>
      unfold mtfiF
      have hc0 : chAt data d = c := by simpa using hb 0 (by simp)
      have hcond : (((⟨d, e⟩ : Reader).good && !(isDig (chAt data (⟨d, e⟩ : Reader).d))) = true) := by
        have hg : (⟨d, e⟩ : Reader).good = true := by
          rw [good_iff]
          show d < e
          simp only [List.length_cons] at hle
          omega
        rw [hg, Bool.true_and]
        show (!(isDig (chAt data d))) = true
        rw [hc0, (hall c (by simp)).1]
        rfl
      rw [if_pos hcond]
      have hr2 : (if isCmt (chAt data (d + 1)) then skipComments data ⟨d + 1, e⟩
          else (⟨d + 1, e⟩ : Reader)) = ⟨d + 1, e⟩ := by
        by_cases hc : isCmt (chAt data (d + 1)) = true
        · rw [if_pos hc]
          cases u with
          | nil =>
            simp only [List.length_cons, List.length_nil, Nat.zero_add] at hstop
            rcases hstop with h | h
            · exact skipComments_stuck data (d + 1) e (by omega)
            · exact absurd (isDig_not_cmt _ h) (fun hf => by simp [hc] at hf)
          | cons c2 u2 =>
            have hc2 : chAt data (d + 1) = c2 := by
              have hbb := ((blockAt_cons data d c (c2 :: u2)).mp hb).2
              simpa using ((blockAt_cons data (d + 1) c2 u2).mp hbb).1
            rw [hc2] at hc
            exact absurd hc (fun hf => by
              simp [(hall c2 (by simp)).2] at hf)
        · rw [if_neg hc]
      show mtfiF data f (if isCmt (chAt data (d + 1)) then skipComments data ⟨d + 1, e⟩
          else (⟨d + 1, e⟩ : Reader)) = ⟨d + (c :: u).length, e⟩
      rw [hr2]
      have hrec := ih f (d + 1) e ((blockAt_cons data d c u).mp hb).2
        (fun x hx => hall x (by simp [hx]))
        (by simp only [List.length_cons] at hle; omega)
        (by simp only [List.length_cons] at hfuel; omega)
        (by
          simp only [List.length_cons] at hstop
          rcases hstop with h | h
          · left; omega
          · right
            rw [show d + 1 + u.length = d + (u.length + 1) by omega]
            exact h)
      rw [hrec]
      congr 1
      simp only [List.length_cons]
      omega

theorem moveToFirstInt_span (data : List Char) (u : List Char) (d e : Nat)
    (hb : BlockAt data d u)
    (hall : ∀ c ∈ u, isDig c = false ∧ isCmt c = false)
    (hle : d + u.length ≤ e)
    (hstop : d + u.length = e ∨ isDig (chAt data (d + u.length)) = true) :
    moveToFirstInt data ⟨d, e⟩ = ⟨d + u.length, e⟩ := by
  have hr0 : (if isCmt (chAt data d) then skipComments data ⟨d, e⟩
      else (⟨d, e⟩ : Reader)) = ⟨d, e⟩ := by
    by_cases hc : isCmt (chAt data d) = true
    · rw [if_pos hc]
      cases u with
      | nil =>
        simp only [List.length_nil, Nat.add_zero] at hstop
        rcases hstop with h | h
        · exact skipComments_stuck data d e (by omega)
        · exact absurd (isDig_not_cmt _ h) (fun hf => by simp [hc] at hf)
      | cons c2 u2 =>
        have hc2 : chAt data d = c2 := by
          simpa using ((blockAt_cons data d c2 u2).mp hb).1
        rw [hc2] at hc
        exact absurd hc (fun hf => by
          simp [(hall c2 (by simp)).2] at hf)
    · rw [if_neg hc]
  unfold moveToFirstInt
  show mtfiF data
      ((if isCmt (chAt data d) then skipComments data ⟨d, e⟩ else (⟨d, e⟩ : Reader)).e -
       (if isCmt (chAt data d) then skipComments data ⟨d, e⟩ else (⟨d, e⟩ : Reader)).d)
      (if isCmt (chAt data d) then skipComments data ⟨d, e⟩ else (⟨d, e⟩ : Reader)) =
      ⟨d + u.length, e⟩
  rw [hr0]
  exact mtfiF_span data u (e - d) d e hb hall hle (by omega) hstop

theorem moveToNextInt_span (data : List Char) (u1 u2 : List Char) (d e : Nat)
    (hb : BlockAt data d (u1 ++ u2))
    (h1 : ∀ c ∈ u1, isDig c = true)
    (h2 : ∀ c ∈ u2, isDig c = false ∧ isCmt c = false)
    (hle : d + u1.length + u2.length ≤ e)
    (hstop : d + u1.length + u2.length = e ∨
      isDig (chAt data (d + u1.length + u2.length)) = true)
    (hmid : d + u1.length = e ∨ isDig (chAt data (d + u1.length)) = false) :
    moveToNextInt data ⟨d, e⟩ = ⟨d + u1.length + u2.length, e⟩ := by
  unfold moveToNextInt moveToNonInt
  rw [advWhile_span data isDig u1 d e ((blockAt_append data u1 u2 d).mp hb).1 h1
    (by omega) hmid]
  exact moveToFirstInt_span data u2 (d + u1.length) e
    ((blockAt_append data u1 u2 d).mp hb).2 h2 hle hstop

theorem moveToEol_span (data : List Char) (u : List Char) (d e : Nat)
    (hb : BlockAt data d u) (hall : ∀ c ∈ u, (c == '\n') = false)
    (hle : d + u.length ≤ e)
    (hstop : d + u.length = e ∨ chAt data (d + u.length) = '\n') :
    moveToEol data ⟨d, e⟩ = ⟨d + u.length, e⟩ := by
  unfold moveToEol
  apply advWhile_span data (fun c => !(c == '\n')) u d e hb
  · intro c hcm
    rw [hall c hcm]
    rfl
  · exact hle
  · rcases hstop with h | h
    · exact Or.inl h
    · right
      rw [h]
      decide

end Pigo

namespace Pigo

theorem blockAt_singleton (data : List Char) (d : Nat) (c : Char)
    (h : chAt data d = c) : BlockAt data d [c] := by
  intro i hi
  have hi0 : i = 0 := by simpa using hi
  subst hi0
  simpa using h

theorem stop_ne (data : List Char) (q : Nat)
    (h : chAt data q = '\n' ∨ isDig (chAt data q) = true ∨
      chAt data q = Char.ofNat 0)
    (x : Char) (h1 : isDig x = false) (h2 : ¬(x = '\n'))
    (h3 : ¬(x = Char.ofNat 0)) : (chAt data q == x) = false := by
  rcases h with hh | hh | hh
  · rw [hh]
    exact beq_eq_false_iff_ne.mpr (fun he => h2 he.symm)
  · exact isDig_ne _ x hh h1
  · rw [hh]
    exact beq_eq_false_iff_ne.mpr (fun he => h3 he.symm)

theorem digStrB_all (u : List Char) (h : digStrB u = true) :
    ∀ c ∈ u, isDig c = true := by
  unfold digStrB at h
  simp only [Bool.and_eq_true, List.all_eq_true] at h
  exact h.2

theorem digStrB_ne_nil (u : List Char) (h : digStrB u = true) : u ≠ [] := by
  unfold digStrB at h
  simp only [Bool.and_eq_true] at h
  have := h.1
  intro he
  subst he
  simp at this

theorem mtnsiF_span (data : List Char) :
    ∀ (u : List Char) (fuel d e : Nat), BlockAt data d u →
    (∀ c ∈ u, isDig c = false ∧ isCmt c = false ∧
      (c == '+') = false ∧ (c == '-') = false) →
    d + u.length ≤ e → u.length ≤ fuel →
    (d + u.length = e ∨ isDig (chAt data (d + u.length)) = true) →
    mtnsiF data fuel ⟨d, e⟩ = ⟨d + u.length, e⟩ := by
  intro u
  induction u with
  | nil =>
    intro fuel d e _ _ _ _ hstop
    simp only [List.length_nil, Nat.add_zero] at hstop ⊢
    cases fuel with
    | zero => rfl
    | succ f =>
      unfold mtnsiF
      have hneg : ¬(((((⟨d, e⟩ : Reader).good && !(isDig (chAt data (⟨d, e⟩ : Reader).d))) &&
          !(chAt data (⟨d, e⟩ : Reader).d == '+')) &&
          !(chAt data (⟨d, e⟩ : Reader).d == '-')) = true) := by
        intro hh
        have ha := ((Bool.and_eq_true _ _).mp hh).1
        have hb2 := ((Bool.and_eq_true _ _).mp ha).1
        have hg := ((Bool.and_eq_true _ _).mp hb2).1
        have hd := ((Bool.and_eq_true _ _).mp hb2).2
        rcases hstop with h | h
        · rw [good_iff] at hg
          exact absurd hg (by show ¬(d < e); omega)
        · rw [show chAt data (⟨d, e⟩ : Reader).d = chAt data d from rfl, h] at hd
          simp at hd
      rw [if_neg hneg]
  | cons c u ih =>
    intro fuel d e hb hall hle hfuel hstop
    cases fuel with
    | zero => simp at hfuel
    | succ f =>
      unfold mtnsiF
      have hc0 : chAt data d = c := by simpa using hb 0 (by simp)
      have hmem : c ∈ c :: u := by simp
      have hcond : (((((⟨d, e⟩ : Reader).good && !(isDig (chAt data (⟨d, e⟩ : Reader).d))) &&
          !(chAt data (⟨d, e⟩ : Reader).d == '+')) &&
          !(chAt data (⟨d, e⟩ : Reader).d == '-')) = true) := by
        have hg : (⟨d, e⟩ : Reader).good = true := by
          rw [good_iff]
          show d < e
          simp only [List.length_cons] at hle
          omega
        show (((Reader.good ⟨d, e⟩ && !(isDig (chAt data d))) &&
          !(chAt data d == '+')) && !(chAt data d == '-')) = true
        rw [hg, hc0, (hall c hmem).1, (hall c hmem).2.2.1, (hall c hmem).2.2.2]
        rfl
      rw [if_pos hcond]
      have hr2 : (if isCmt (chAt data (d + 1)) then skipComments data ⟨d + 1, e⟩
          else (⟨d + 1, e⟩ : Reader)) = ⟨d + 1, e⟩ := by
        by_cases hc : isCmt (chAt data (d + 1)) = true
        · rw [if_pos hc]
          cases u with
          | nil =>
            simp only [List.length_cons, List.length_nil, Nat.zero_add] at hstop
            rcases hstop with h | h
            · exact skipComments_stuck data (d + 1) e (by omega)
            · exact absurd (isDig_not_cmt _ h) (fun hf => by simp [hc] at hf)
          | cons c2 u2 =>
            have hc2 : chAt data (d + 1) = c2 := by
              have hbb := ((blockAt_cons data d c (c2 :: u2)).mp hb).2
              simpa using ((blockAt_cons data (d + 1) c2 u2).mp hbb).1
            rw [hc2] at hc
            exact absurd hc (fun hf => by
              simp [(hall c2 (by simp)).2.1] at hf)
        · rw [if_neg hc]
      show mtnsiF data f (if isCmt (chAt data (d + 1)) then skipComments data ⟨d + 1, e⟩
          else (⟨d + 1, e⟩ : Reader)) = ⟨d + (c :: u).length, e⟩
      rw [hr2]
      have hrec := ih f (d + 1) e ((blockAt_cons data d c u).mp hb).2
        (fun x hx => hall x (by simp [hx]))
        (by simp only [List.length_cons] at hle; omega)
        (by simp only [List.length_cons] at hfuel; omega)
        (by
          simp only [List.length_cons] at hstop
          rcases hstop with h | h
          · left; omega
          · right
            rw [show d + 1 + u.length = d + (u.length + 1) by omega]
            exact h)
      rw [hrec]
      congr 1
      simp only [List.length_cons]
      omega

theorem moveToNextSignedInt_span (data : List Char) (u1 u2 : List Char)
    (d e : Nat) (hb : BlockAt data d (u1 ++ u2))
    (h1 : ∀ c ∈ u1, isDig c = true)
    (h2 : ∀ c ∈ u2, isDig c = false ∧ isCmt c = false ∧
      (c == '+') = false ∧ (c == '-') = false)
    (hsd : (chAt data d == '+') = false ∧ (chAt data d == '-') = false)
    (hle : d + u1.length + u2.length ≤ e)
    (hstop : d + u1.length + u2.length = e ∨
      isDig (chAt data (d + u1.length + u2.length)) = true)
    (hmid : d + u1.length = e ∨ isDig (chAt data (d + u1.length)) = false) :
    moveToNextSignedInt data ⟨d, e⟩ = ⟨d + u1.length + u2.length, e⟩ := by
  have e1 : (if chAt data d == '+' || chAt data d == '-' then
      (⟨d + 1, e⟩ : Reader) else (⟨d, e⟩ : Reader)) = ⟨d, e⟩ := by
    rw [hsd.1, hsd.2]
    simp
  have e2 : advWhile data isDig ⟨d, e⟩ = ⟨d + u1.length, e⟩ :=
    advWhile_span data isDig u1 d e ((blockAt_append data u1 u2 d).mp hb).1 h1
      (by omega) hmid
  have e3 : (if isCmt (chAt data (d + u1.length)) then
      skipComments data ⟨d + u1.length, e⟩
      else (⟨d + u1.length, e⟩ : Reader)) = ⟨d + u1.length, e⟩ := by
    by_cases hc : isCmt (chAt data (d + u1.length)) = true
    · rw [if_pos hc]
      cases u2 with
      | nil =>
        simp only [List.length_nil, Nat.add_zero] at hstop
        rcases hstop with h | h
        · exact skipComments_stuck data (d + u1.length) e (by omega)
        · exact absurd (isDig_not_cmt _ h) (fun hf => by simp [hc] at hf)
      | cons c2 u3 =>
        have hc2 : chAt data (d + u1.length) = c2 := by
          have hbb := ((blockAt_append data u1 (c2 :: u3) d).mp hb).2
          simpa using ((blockAt_cons data (d + u1.length) c2 u3).mp hbb).1
        rw [hc2] at hc
        exact absurd hc (fun hf => by
          simp [(h2 c2 (by simp)).2.1] at hf)
    · rw [if_neg hc]
  have e4 := mtnsiF_span data u2 (e - (d + u1.length)) (d + u1.length) e
    ((blockAt_append data u1 u2 d).mp hb).2 h2 hle (by omega) hstop
  unfold moveToNextSignedInt moveToNonInt
  simp only [e1, e2, e3]
  exact e4

theorem readInt_span (data : List Char) (u : List Char) (d e : Nat)
    (hb : BlockAt data d u) (hall : ∀ c ∈ u, isDig c = true)
    (hfe : u = [] → d = e)
    (hle : d + u.length ≤ e)
    (hstop : d + u.length = e ∨ isDig (chAt data (d + u.length)) = false) :
    readInt data ⟨d, e⟩ = (digVal u, ⟨d + u.length, e⟩) := by
  have hskip : advWhile data (fun c => !(isDig c)) ⟨d, e⟩ = ⟨d, e⟩ := by
    have hsp := advWhile_span data (fun c => !(isDig c)) [] d e
      (blockAt_nil data d) (by simp) (by simp; omega)
      (by
        simp only [List.length_nil, Nat.add_zero]
        cases u with
        | nil => exact Or.inl (hfe rfl)
        | cons c u2 =>
          right
          have hc0 : chAt data d = c := by simpa using hb 0 (by simp)
          show (!(isDig (chAt data d))) = false
          rw [hc0, hall c (by simp)]
          rfl)
    simpa using hsp
  unfold readInt
  show readDigitsF data
      ((advWhile data (fun c => !(isDig c)) ⟨d, e⟩).e -
       (advWhile data (fun c => !(isDig c)) ⟨d, e⟩).d) 0
      (advWhile data (fun c => !(isDig c)) ⟨d, e⟩) = (digVal u, ⟨d + u.length, e⟩)
  rw [hskip]
  exact readDigitsF_span data u (e - d) 0 d e hb hall hle (by omega) hstop

theorem readFp_digits (data : List Char) (wd : List Char) (a4 e : Nat)
    (hb : BlockAt data a4 wd) (hwd : ∀ c ∈ wd, isDig c = true)
    (hne : wd ≠ [])
    (hle : a4 + wd.length ≤ e)
    (hstop : chAt data (a4 + wd.length) = '\n' ∨
      isDig (chAt data (a4 + wd.length)) = true ∨
      chAt data (a4 + wd.length) = Char.ofNat 0)
    (hstopD : a4 + wd.length = e ∨ isDig (chAt data (a4 + wd.length)) = false) :
    readFp data ⟨a4, e⟩ = ((digVal wd : ℚ), ⟨a4 + wd.length, e⟩) := by
  have hd1 : isDig (chAt data a4) = true := by
    cases wd with
    | nil => exact absurd rfl hne
    | cons c u2 =>
      have hc0 : chAt data a4 = c := by simpa using hb 0 (by simp)
      rw [hc0]
      exact hwd c (by simp)
  have eskip : advWhile data (fun c => !(isFpCh c)) ⟨a4, e⟩ = ⟨a4, e⟩ := by
    have hsp := advWhile_span data (fun c => !(isFpCh c)) [] a4 e
      (blockAt_nil data a4) (by simp)
      (by simp; cases wd; · exact absurd rfl hne;
          · simp only [List.length_cons] at hle; omega)
      (by
        simp only [List.length_nil, Nat.add_zero]
        right
        show (!(isFpCh (chAt data a4))) = false
        rw [isDig_fp _ hd1]
        rfl)
    simpa using hsp
  have esign : readFpSign data ⟨a4, e⟩ = (true, ⟨a4, e⟩) := by
    unfold readFpSign
    rw [isDig_ne _ '-' hd1 (by decide), isDig_ne _ '+' hd1 (by decide)]
    simp
  have edig := readDigitsF_span data wd (e - a4) 0 a4 e hb hwd hle (by omega)
    hstopD
  have efrac : readFpFrac data ((digVal wd : Nat) : ℚ) ⟨a4 + wd.length, e⟩ =
      (((digVal wd : Nat) : ℚ), ⟨a4 + wd.length, e⟩) := by
    unfold readFpFrac
    rw [stop_ne data (a4 + wd.length) hstop '.' (by decide) (by decide) (by decide)]
    simp
  have eexp : (chAt data (a4 + wd.length) == 'e') = false :=
    stop_ne data (a4 + wd.length) hstop 'e' (by decide) (by decide) (by decide)
  have eexp2 : (chAt data (a4 + wd.length) == 'E') = false :=
    stop_ne data (a4 + wd.length) hstop 'E' (by decide) (by decide) (by decide)
  have hfold : List.foldl (fun a c => a * 10 + (c.toNat - '0'.toNat)) 0 wd =
      digVal wd := rfl
  unfold readFp
  show readFpF data (e - a4 + 1) ⟨a4, e⟩ = ((digVal wd : ℚ), ⟨a4 + wd.length, e⟩)
  unfold readFpF
  simp only [eskip, esign, edig]
  rw [hfold]
  simp only [efrac, eexp, eexp2, Bool.or_self, Bool.false_eq_true, if_false]
  simp

theorem readFp_end (data : List Char) (e : Nat)
    (hb : isDig (chAt data e) = true ∨ chAt data e = Char.ofNat 0) :
    readFp data ⟨e, e⟩ = (0, ⟨e, e⟩) := by
  have hstop : chAt data e = '\n' ∨ isDig (chAt data e) = true ∨
      chAt data e = Char.ofNat 0 := Or.inr hb
  have eskip : advWhile data (fun c => !(isFpCh c)) ⟨e, e⟩ = ⟨e, e⟩ := by
    have hsp := advWhile_span data (fun c => !(isFpCh c)) [] e e
      (blockAt_nil data e) (by simp) (by simp) (by simp)
    simpa using hsp
  have esign : readFpSign data ⟨e, e⟩ = (true, ⟨e, e⟩) := by
    unfold readFpSign
    rw [stop_ne data e hstop '-' (by decide) (by decide) (by decide),
      stop_ne data e hstop '+' (by decide) (by decide) (by decide)]
    simp
  have efrac : readFpFrac data ((0 : Nat) : ℚ) ⟨e, e⟩ = (((0 : Nat) : ℚ), ⟨e, e⟩) := by
    unfold readFpFrac
    rw [stop_ne data e hstop '.' (by decide) (by decide) (by decide)]
    simp
  have eexp : (chAt data e == 'e') = false :=
    stop_ne data e hstop 'e' (by decide) (by decide) (by decide)
  have eexp2 : (chAt data e == 'E') = false :=
    stop_ne data e hstop 'E' (by decide) (by decide) (by decide)
  unfold readFp
  show readFpF data (e - e + 1) ⟨e, e⟩ = (0, ⟨e, e⟩)
  unfold readFpF
  have edig : readDigitsF data ((⟨e, e⟩ : Reader).e - (⟨e, e⟩ : Reader).d) 0 ⟨e, e⟩ =
      ((0 : Nat), ⟨e, e⟩) := by
    show readDigitsF data (e - e) 0 ⟨e, e⟩ = ((0 : Nat), ⟨e, e⟩)
    rw [Nat.sub_self]
    rfl
  simp only [eskip, esign, edig, efrac, eexp, eexp2, Bool.or_self, Bool.false_eq_true,
    if_false, if_true]
  simp

end Pigo

namespace Pigo

theorem readWgtSet_false (data : List Char) (k : WKind) (pos : Nat)
    (ws : List (Nat × ℚ)) (r : Reader) :
    readWgtSet data false k pos ws r = (ws, r) := rfl

theorem readWgtCount_false (data : List Char) (k : WKind) (r : Reader) :
    readWgtCount data false k r = r := rfl

theorem readWgtSet_span (data : List Char) (k : WKind) (pos : Nat)
    (ws : List (Nat × ℚ)) (wd : List Char) (a3 e : Nat)
    (hb : BlockAt data a3 (' ' :: wd))
    (hwd : ∀ c ∈ wd, isDig c = true) (hne : wd ≠ [])
    (hle : a3 + 1 + wd.length ≤ e)
    (hstop : (a3 + 1 + wd.length = e ∧
        (isDig (chAt data e) = true ∨ chAt data e = Char.ofNat 0)) ∨
      (a3 + 1 + wd.length < e ∧ chAt data (a3 + 1 + wd.length) = '\n')) :
    readWgtSet data true k pos ws ⟨a3, e⟩ =
      (ws ++ [(pos, (digVal wd : ℚ))], ⟨a3 + 1 + wd.length, e⟩) := by
  have hbs : chAt data a3 = ' ' := ((blockAt_cons data a3 ' ' wd).mp hb).1
  have hbw : BlockAt data (a3 + 1) wd := ((blockAt_cons data a3 ' ' wd).mp hb).2
  have hwpos : 0 < wd.length := List.length_pos.mpr hne
  have hd1 : isDig (chAt data (a3 + 1)) = true := by
    cases wd with
    | nil => exact absurd rfl hne
    | cons c u =>
      rw [((blockAt_cons data (a3 + 1) c u).mp hbw).1]
      exact hwd c (by simp)
  have hstop3 : chAt data (a3 + 1 + wd.length) = '\n' ∨
      isDig (chAt data (a3 + 1 + wd.length)) = true ∨
      chAt data (a3 + 1 + wd.length) = Char.ofNat 0 := by
    rcases hstop with ⟨he, hd⟩ | ⟨_, hnl⟩
    · rw [he]
      rcases hd with hd | hd
      · exact Or.inr (Or.inl hd)
      · exact Or.inr (Or.inr hd)
    · exact Or.inl hnl
  have hstopD : a3 + 1 + wd.length = e ∨
      isDig (chAt data (a3 + 1 + wd.length)) = false := by
    rcases hstop with ⟨he, _⟩ | ⟨_, hnl⟩
    · exact Or.inl he
    · right
      rw [hnl]
      decide
  have hri : readInt data ⟨a3 + 1, e⟩ =
      (digVal wd, ⟨a3 + 1 + wd.length, e⟩) :=
    readInt_span data wd (a3 + 1) e hbw hwd (fun hh => absurd hh hne)
      (by omega) hstopD
  cases k with
  | iSigned =>
    have hmv : moveToNextSignedInt data ⟨a3, e⟩ = ⟨a3 + 1, e⟩ := by
      have h := moveToNextSignedInt_span data [] [' '] a3 e
        (blockAt_singleton data a3 ' ' hbs)
        (by simp)
        (by
          intro c hc
          rw [List.mem_singleton] at hc
          subst hc
          exact ⟨by decide, by decide, by decide, by decide⟩)
        ⟨by rw [hbs]; decide, by rw [hbs]; decide⟩
        (by simp only [List.length_nil, List.length_singleton, Nat.add_zero]; omega)
        (by
          simp only [List.length_nil, List.length_singleton, Nat.add_zero]
          right
          exact hd1)
        (by
          simp only [List.length_nil, Nat.add_zero]
          right
          rw [hbs]
          decide)
      simpa using h
    have hsg : readSign data ⟨a3 + 1, e⟩ = (1, ⟨a3 + 1, e⟩) := by
      unfold readSign
      simp only [isDig_ne (chAt data (a3 + 1)) '-' hd1 (by decide),
        isDig_ne (chAt data (a3 + 1)) '+' hd1 (by decide)]
      simp
    show (ws ++ [(pos, (((readSign data (moveToNextSignedInt data ⟨a3, e⟩)).1 *
        ((readInt data (readSign data (moveToNextSignedInt data ⟨a3, e⟩)).2).1 : Int) :
        Int) : ℚ))],
        (readInt data (readSign data (moveToNextSignedInt data ⟨a3, e⟩)).2).2) =
      (ws ++ [(pos, (digVal wd : ℚ))], ⟨a3 + 1 + wd.length, e⟩)
    simp only [hmv, hsg, hri]
    simp
  | iUnsigned =>
    have hmv : moveToNextInt data ⟨a3, e⟩ = ⟨a3 + 1, e⟩ := by
      have h := moveToNextInt_span data [] [' '] a3 e
        (blockAt_singleton data a3 ' ' hbs)
        (by simp)
        (by
          intro c hc
          rw [List.mem_singleton] at hc
          subst hc
          exact ⟨by decide, by decide⟩)
        (by simp only [List.length_nil, List.length_singleton, Nat.add_zero]; omega)
        (by
          simp only [List.length_nil, List.length_singleton, Nat.add_zero]
          right
          exact hd1)
        (by
          simp only [List.length_nil, Nat.add_zero]
          right
          rw [hbs]
          decide)
      simpa using h
    show (ws ++ [(pos, ((readInt data (moveToNextInt data ⟨a3, e⟩)).1 : ℚ))],
        (readInt data (moveToNextInt data ⟨a3, e⟩)).2) =
      (ws ++ [(pos, (digVal wd : ℚ))], ⟨a3 + 1 + wd.length, e⟩)
    simp only [hmv, hri]
  | flt =>
    have hmf : moveToFp data ⟨a3, e⟩ = ⟨a3 + 1, e⟩ := by
      unfold moveToFp
      have h := advWhile_span data (fun c => !(isFpCh c)) [' '] a3 e
        (blockAt_singleton data a3 ' ' hbs)
        (by
          intro c hc
          rw [List.mem_singleton] at hc
          subst hc
          decide)
        (by simp only [List.length_singleton]; omega)
        (by
          simp only [List.length_singleton]
          right
          show (!(isFpCh (chAt data (a3 + 1)))) = false
          rw [isDig_fp _ hd1]
          rfl)
      simpa using h
    have hfp : readFp data ⟨a3 + 1, e⟩ =
        ((digVal wd : ℚ), ⟨a3 + 1 + wd.length, e⟩) :=
      readFp_digits data wd (a3 + 1) e hbw hwd hne (by omega) hstop3 hstopD
    have hmnf : moveToNonFp data ⟨a3 + 1 + wd.length, e⟩ =
        ⟨a3 + 1 + wd.length, e⟩ := by
      unfold moveToNonFp
      have h := advWhile_span data isFpCh [] (a3 + 1 + wd.length) e
        (blockAt_nil data _) (by simp)
        (by simp only [List.length_nil, Nat.add_zero]; omega)
        (by
          simp only [List.length_nil, Nat.add_zero]
          rcases hstop with ⟨he, _⟩ | ⟨_, hnl⟩
          · exact Or.inl he
          · right
            rw [hnl]
            decide)
      simpa using h
    show (ws ++ [(pos, (readFp data (moveToFp data ⟨a3, e⟩)).1)],
        moveToNonFp data (readFp data (moveToFp data ⟨a3, e⟩)).2) =
      (ws ++ [(pos, (digVal wd : ℚ))], ⟨a3 + 1 + wd.length, e⟩)
    simp only [hmf, hfp, hmnf]

theorem readWgtCount_span (data : List Char) (k : WKind) (wd : List Char)
    (a3 e : Nat)
    (hb : BlockAt data a3 (' ' :: wd))
    (hwd : ∀ c ∈ wd, isDig c = true) (hne : wd ≠ [])
    (hle : a3 + 1 + wd.length ≤ e)
    (hstop : (a3 + 1 + wd.length = e ∧
        (isDig (chAt data e) = true ∨ chAt data e = Char.ofNat 0)) ∨
      (a3 + 1 + wd.length < e ∧ chAt data (a3 + 1 + wd.length) = '\n')) :
    readWgtCount data true k ⟨a3, e⟩ =
      ⟨cntPos k (a3 + 1) (a3 + 1 + wd.length), e⟩ := by
  have hbs : chAt data a3 = ' ' := ((blockAt_cons data a3 ' ' wd).mp hb).1
  have hbw : BlockAt data (a3 + 1) wd := ((blockAt_cons data a3 ' ' wd).mp hb).2
  have hwpos : 0 < wd.length := List.length_pos.mpr hne
  have hd1 : isDig (chAt data (a3 + 1)) = true := by
    cases wd with
    | nil => exact absurd rfl hne
    | cons c u =>
      rw [((blockAt_cons data (a3 + 1) c u).mp hbw).1]
      exact hwd c (by simp)
  cases k with
  | iSigned =>
    show moveToNextSignedInt data ⟨a3, e⟩ = ⟨a3 + 1, e⟩
    have h := moveToNextSignedInt_span data [] [' '] a3 e
      (blockAt_singleton data a3 ' ' hbs)
      (by simp)
      (by
        intro c hc
        rw [List.mem_singleton] at hc
        subst hc
        exact ⟨by decide, by decide, by decide, by decide⟩)
      ⟨by rw [hbs]; decide, by rw [hbs]; decide⟩
      (by simp only [List.length_nil, List.length_singleton, Nat.add_zero]; omega)
      (by
        simp only [List.length_nil, List.length_singleton, Nat.add_zero]
        right
        exact hd1)
      (by
        simp only [List.length_nil, Nat.add_zero]
        right
        rw [hbs]
        decide)
    simpa using h
  | iUnsigned =>
    show moveToNextInt data ⟨a3, e⟩ = ⟨a3 + 1, e⟩
    have h := moveToNextInt_span data [] [' '] a3 e
      (blockAt_singleton data a3 ' ' hbs)
      (by simp)
      (by
        intro c hc
        rw [List.mem_singleton] at hc
        subst hc
        exact ⟨by decide, by decide⟩)
      (by simp only [List.length_nil, List.length_singleton, Nat.add_zero]; omega)
      (by
        simp only [List.length_nil, List.length_singleton, Nat.add_zero]
        right
        exact hd1)
      (by
        simp only [List.length_nil, Nat.add_zero]
        right
        rw [hbs]
        decide)
    simpa using h
  | flt =>
    have hmf : moveToFp data ⟨a3, e⟩ = ⟨a3 + 1, e⟩ := by
      unfold moveToFp
      have h := advWhile_span data (fun c => !(isFpCh c)) [' '] a3 e
        (blockAt_singleton data a3 ' ' hbs)
        (by
          intro c hc
          rw [List.mem_singleton] at hc
          subst hc
          decide)
        (by simp only [List.length_singleton]; omega)
        (by
          simp only [List.length_singleton]
          right
          show (!(isFpCh (chAt data (a3 + 1)))) = false
          rw [isDig_fp _ hd1]
          rfl)
      simpa using h
    have hmnf : moveToNonFp data ⟨a3 + 1, e⟩ = ⟨a3 + 1 + wd.length, e⟩ := by
      unfold moveToNonFp
      have h := advWhile_span data isFpCh wd (a3 + 1) e hbw
        (fun c hc => isDig_fp c (hwd c hc))
        (by omega)
        (by
          rcases hstop with ⟨he, _⟩ | ⟨_, hnl⟩
          · exact Or.inl he
          · right
            rw [hnl]
            decide)
      exact h
    show moveToNonFp data (moveToFp data ⟨a3, e⟩) = ⟨a3 + 1 + wd.length, e⟩
    rw [hmf, hmnf]

theorem readWgtSet_end (data : List Char) (k : WKind) (pos : Nat)
    (ws : List (Nat × ℚ)) (e : Nat)
    (hb : isDig (chAt data e) = true ∨ chAt data e = Char.ofNat 0) :
    readWgtSet data true k pos ws ⟨e, e⟩ = (ws ++ [(pos, 0)], ⟨e, e⟩) := by
  have h3 : chAt data e = '\n' ∨ isDig (chAt data e) = true ∨
      chAt data e = Char.ofNat 0 := Or.inr hb
  have hri : readInt data ⟨e, e⟩ = (0, ⟨e, e⟩) := by
    have h := readInt_span data [] e e (blockAt_nil data e) (by simp)
      (fun _ => rfl) (by simp) (by simp)
    simpa using h
  cases k with
  | iSigned =>
    have hmv : moveToNextSignedInt data ⟨e, e⟩ = ⟨e, e⟩ := by
      have h := moveToNextSignedInt_span data [] [] e e (blockAt_nil data e)
        (by simp) (by simp)
        ⟨stop_ne data e h3 '+' (by decide) (by decide) (by decide),
         stop_ne data e h3 '-' (by decide) (by decide) (by decide)⟩
        (by simp) (by simp) (by simp)
      simpa using h
    have hsg : readSign data ⟨e, e⟩ = (1, ⟨e, e⟩) := by
      unfold readSign
      simp only [stop_ne data e h3 '-' (by decide) (by decide) (by decide),
        stop_ne data e h3 '+' (by decide) (by decide) (by decide)]
      simp
    show (ws ++ [(pos, (((readSign data (moveToNextSignedInt data ⟨e, e⟩)).1 *
        ((readInt data (readSign data (moveToNextSignedInt data ⟨e, e⟩)).2).1 : Int) :
        Int) : ℚ))],
        (readInt data (readSign data (moveToNextSignedInt data ⟨e, e⟩)).2).2) =
      (ws ++ [(pos, 0)], ⟨e, e⟩)
    simp only [hmv, hsg, hri]
    simp
  | iUnsigned =>
    have hmv : moveToNextInt data ⟨e, e⟩ = ⟨e, e⟩ := by
      have h := moveToNextInt_span data [] [] e e (blockAt_nil data e)
        (by simp) (by simp) (by simp) (by simp) (by simp)
      simpa using h
    show (ws ++ [(pos, ((readInt data (moveToNextInt data ⟨e, e⟩)).1 : ℚ))],
        (readInt data (moveToNextInt data ⟨e, e⟩)).2) =
      (ws ++ [(pos, 0)], ⟨e, e⟩)
    simp only [hmv, hri]
    simp
  | flt =>
    have hmf : moveToFp data ⟨e, e⟩ = ⟨e, e⟩ := by
      unfold moveToFp
      have h := advWhile_span data (fun c => !(isFpCh c)) [] e e
        (blockAt_nil data e) (by simp) (by simp) (by simp)
      simpa using h
    have hfp := readFp_end data e hb
    have hmnf : moveToNonFp data ⟨e, e⟩ = ⟨e, e⟩ := by
      unfold moveToNonFp
      have h := advWhile_span data isFpCh [] e e
        (blockAt_nil data e) (by simp) (by simp) (by simp)
      simpa using h
    show (ws ++ [(pos, (readFp data (moveToFp data ⟨e, e⟩)).1)],
        moveToNonFp data (readFp data (moveToFp data ⟨e, e⟩)).2) =
      (ws ++ [(pos, 0)], ⟨e, e⟩)
    simp only [hmf, hfp, hmnf]

theorem readWgtCount_end (data : List Char) (k : WKind) (e : Nat)
    (hb : isDig (chAt data e) = true ∨ chAt data e = Char.ofNat 0) :
    readWgtCount data true k ⟨e, e⟩ = ⟨e, e⟩ := by
  have h3 : chAt data e = '\n' ∨ isDig (chAt data e) = true ∨
      chAt data e = Char.ofNat 0 := Or.inr hb
  cases k with
  | iSigned =>
    show moveToNextSignedInt data ⟨e, e⟩ = ⟨e, e⟩
    have h := moveToNextSignedInt_span data [] [] e e (blockAt_nil data e)
      (by simp) (by simp)
      ⟨stop_ne data e h3 '+' (by decide) (by decide) (by decide),
       stop_ne data e h3 '-' (by decide) (by decide) (by decide)⟩
      (by simp) (by simp) (by simp)
    simpa using h
  | iUnsigned =>
    show moveToNextInt data ⟨e, e⟩ = ⟨e, e⟩
    have h := moveToNextInt_span data [] [] e e (blockAt_nil data e)
      (by simp) (by simp) (by simp) (by simp) (by simp)
    simpa using h
  | flt =>
    have hmf : moveToFp data ⟨e, e⟩ = ⟨e, e⟩ := by
      unfold moveToFp
      have h := advWhile_span data (fun c => !(isFpCh c)) [] e e
        (blockAt_nil data e) (by simp) (by simp) (by simp)
      simpa using h
    have hmnf : moveToNonFp data ⟨e, e⟩ = ⟨e, e⟩ := by
      unfold moveToNonFp
      have h := advWhile_span data isFpCh [] e e
        (blockAt_nil data e) (by simp) (by simp) (by simp)
      simpa using h
    show moveToNonFp data (moveToFp data ⟨e, e⟩) = ⟨e, e⟩
    rw [hmf, hmnf]

end Pigo

namespace Pigo

theorem recWF_parts (wgt : Bool) (t : RecTxt) (h : recWF wgt t = true) :
    digStrB t.xd = true ∧ digStrB t.yd = true ∧
    (wgt = true → digStrB t.wd = true) := by
  unfold recWF at h
  simp only [Bool.and_eq_true] at h
  refine ⟨h.1.1, h.1.2, fun hw => ?_⟩
  have h2 := h.2
  rw [hw] at h2
  simpa using h2

theorem renderRec_eq_true (t : RecTxt) :
    renderRec true t = t.xd ++ [' '] ++ t.yd ++ [' '] ++ t.wd ++ ['\n'] := by
  simp [renderRec]

theorem renderRec_eq_false (t : RecTxt) :
    renderRec false t = t.xd ++ [' '] ++ t.yd ++ ['\n'] := by
  simp [renderRec]

theorem renderRec_length (wgt : Bool) (t : RecTxt) :
    (renderRec wgt t).length =
      t.xd.length + 1 + t.yd.length + (if wgt then 1 + t.wd.length else 0) + 1 := by
  cases wgt with
  | true =>
    rw [renderRec_eq_true]
    simp only [List.length_append, List.length_singleton, if_true]
    try omega
  | false =>
    rw [renderRec_eq_false]
    simp only [List.length_append, List.length_singleton, Bool.false_eq_true,
      if_false]
    try omega

theorem renderRec_len_pos (wgt : Bool) (t : RecTxt) :
    0 < (renderRec wgt t).length := by
  rw [renderRec_length]
  omega

theorem renderInput_first_digit (data : List Char) (wgt : Bool)
    (l : List RecTxt) (q : Nat) (hl : l ≠ [])
    (hwf : ∀ t ∈ l, recWF wgt t = true)
    (hb : BlockAt data q (renderInput wgt l)) :
    isDig (chAt data q) = true := by
  cases l with
  | nil => exact absurd rfl hl
  | cons t rest =>
    have hx := (recWF_parts wgt t (hwf t (by simp))).1
    have hbr : BlockAt data q (renderRec wgt t) := by
      have hsp := (blockAt_append data (renderRec wgt t)
        (renderInput wgt rest) q).mp (by
          have : renderInput wgt (t :: rest) =
              renderRec wgt t ++ renderInput wgt rest := by
            simp [renderInput]
          rw [this] at hb
          exact hb)
      exact hsp.1
    cases wgt with
    | true =>
      rw [renderRec_eq_true] at hbr
      have h1 := ((blockAt_append data t.xd ([' '] ++ t.yd ++ [' '] ++ t.wd ++ ['\n'])
        q).mp (by simpa [List.append_assoc] using hbr)).1
      cases hx2 : t.xd with
      | nil => exact absurd hx2 (digStrB_ne_nil _ hx)
      | cons c u =>
        rw [hx2] at h1
        rw [((blockAt_cons data q c u).mp h1).1]
        exact digStrB_all (c :: u) (by rw [← hx2]; exact hx) c (by simp)
    | false =>
      rw [renderRec_eq_false] at hbr
      have h1 := ((blockAt_append data t.xd ([' '] ++ t.yd ++ ['\n'])
        q).mp (by simpa [List.append_assoc] using hbr)).1
      cases hx2 : t.xd with
      | nil => exact absurd hx2 (digStrB_ne_nil _ hx)
      | cons c u =>
        rw [hx2] at h1
        rw [((blockAt_cons data q c u).mp h1).1]
        exact digStrB_all (c :: u) (by rw [← hx2]; exact hx) c (by simp)

theorem storeGet_last {α : Type} (l : List (Nat × α)) (p : Nat) (v : α)
    (dflt : α) : storeGet (l ++ [(p, v)]) p dflt = v := by
  unfold storeGet
  rw [List.foldl_append]
  simp

theorem afterRec_move (data : List Char) (nl e : Nat)
    (hnl : chAt data nl = '\n') (hlt : nl < e)
    (hnext : nl + 1 = e ∨ isDig (chAt data (nl + 1)) = true) :
    moveToNextInt data (moveToEol data ⟨nl, e⟩) = ⟨nl + 1, e⟩ := by
  have heol : moveToEol data ⟨nl, e⟩ = ⟨nl, e⟩ := by
    have h := moveToEol_span data [] nl e (blockAt_nil data nl) (by simp)
      (by simp; omega) (by simp only [List.length_nil, Nat.add_zero]; exact Or.inr hnl)
    simpa using h
  rw [heol]
  have h := moveToNextInt_span data [] ['\n'] nl e
    (blockAt_singleton data nl '\n' hnl)
    (by simp)
    (by
      intro c hc
      rw [List.mem_singleton] at hc
      subst hc
      exact ⟨by decide, by decide⟩)
    (by simp only [List.length_nil, List.length_singleton, Nat.add_zero]; omega)
    (by
      simp only [List.length_nil, List.length_singleton, Nat.add_zero]
      exact hnext)
    (by
      simp only [List.length_nil, Nat.add_zero]
      right
      rw [hnl]
      decide)
  simpa using h

theorem genSetF_step (data : List Char) (k : WKind) (sym ut sl wgt : Bool)
    (fuel : Nat) (t : RecTxt) (st : ScanSt) (d0 e : Nat)
    (hr : st.r = ⟨d0, e⟩)
    (hwx : digStrB t.xd = true) (hwy : digStrB t.yd = true)
    (hww : wgt = true → digStrB t.wd = true)
    (hb : BlockAt data d0 (renderRec wgt t))
    (hle : d0 + (renderRec wgt t).length ≤ e) :
    genSetF data k sym ut sl wgt (fuel + 1) st =
      genSetBody data sym ut sl wgt (genSetF data k sym ut sl wgt fuel)
        (digVal t.xd) (digVal t.yd)
        (st.ws ++ (if wgt then [(st.pos, ((digVal t.wd : Nat) : ℚ))] else []))
        ⟨(if wgt then d0 + t.xd.length + 1 + t.yd.length + 1 + t.wd.length
          else d0 + t.xd.length + 1 + t.yd.length), e⟩ st := by
  have hax := digStrB_all t.xd hwx
  have hay := digStrB_all t.yd hwy
  show genSetBody data sym ut sl wgt (genSetF data k sym ut sl wgt fuel)
      (readInt data st.r).1
      (readInt data (moveToNextInt data (readInt data st.r).2)).1
      (readWgtSet data wgt k st.pos st.ws
        (readInt data (moveToNextInt data (readInt data st.r).2)).2).1
      (readWgtSet data wgt k st.pos st.ws
        (readInt data (moveToNextInt data (readInt data st.r).2)).2).2
      st = _
  rw [hr]
  cases wgt with
  | true =>
    have hwd := digStrB_all t.wd (hww rfl)
    have hwdn := digStrB_ne_nil t.wd (hww rfl)
    rw [renderRec_eq_true] at hb
    have hlen : d0 + (renderRec true t).length =
        d0 + t.xd.length + 1 + t.yd.length + 1 + t.wd.length + 1 := by
      rw [renderRec_length]
      simp only [if_true]
      omega
    rw [hlen] at hle
    have s1 := (blockAt_append data (t.xd ++ [' '] ++ t.yd ++ [' '] ++ t.wd)
      ['\n'] d0).mp hb
    have s2 := (blockAt_append data (t.xd ++ [' '] ++ t.yd ++ [' ']) t.wd d0).mp s1.1
    have s3 := (blockAt_append data (t.xd ++ [' '] ++ t.yd) [' '] d0).mp s2.1
    have s4 := (blockAt_append data (t.xd ++ [' ']) t.yd d0).mp s3.1
    have s5 := (blockAt_append data t.xd [' '] d0).mp s4.1
    have hbx : BlockAt data d0 t.xd := s5.1
    have hsp1 : chAt data (d0 + t.xd.length) = ' ' := by
      simpa using s5.2 0 (by simp)
    have hby : BlockAt data (d0 + t.xd.length + 1) t.yd := by
      have h := s4.2
      have hq : d0 + (t.xd ++ [' ']).length = d0 + t.xd.length + 1 := by
        simp only [List.length_append, List.length_singleton]
        omega
      rw [hq] at h
      exact h
    have hsp2 : chAt data (d0 + t.xd.length + 1 + t.yd.length) = ' ' := by
      have hq : d0 + (t.xd ++ [' '] ++ t.yd).length =
          d0 + t.xd.length + 1 + t.yd.length := by
        simp only [List.length_append, List.length_singleton]
        omega
      have h0 := s3.2 0 (by simp)
      rw [hq] at h0
      simpa using h0
    have hbwd : BlockAt data (d0 + t.xd.length + 1 + t.yd.length + 1) t.wd := by
      have h := s2.2
      have hq : d0 + (t.xd ++ [' '] ++ t.yd ++ [' ']).length =
          d0 + t.xd.length + 1 + t.yd.length + 1 := by
        simp only [List.length_append, List.length_singleton]
        omega
      rw [hq] at h
      exact h
    have hnl : chAt data (d0 + t.xd.length + 1 + t.yd.length + 1 + t.wd.length) =
        '\n' := by
      have hq : d0 + (t.xd ++ [' '] ++ t.yd ++ [' '] ++ t.wd).length =
          d0 + t.xd.length + 1 + t.yd.length + 1 + t.wd.length := by
        simp only [List.length_append, List.length_singleton]
        omega
      have h0 := s1.2 0 (by simp)
      rw [hq] at h0
      simpa using h0
    have hyd1 : isDig (chAt data (d0 + t.xd.length + 1)) = true := by
      cases hy2 : t.yd with
      | nil => exact absurd hy2 (digStrB_ne_nil _ hwy)
      | cons c u =>
        rw [hy2] at hby
        rw [((blockAt_cons data (d0 + t.xd.length + 1) c u).mp hby).1]
        exact hay c (by rw [hy2]; simp)
    have exr : readInt data ⟨d0, e⟩ = (digVal t.xd, ⟨d0 + t.xd.length, e⟩) :=
      readInt_span data t.xd d0 e hbx hax
        (fun h => absurd h (digStrB_ne_nil _ hwx)) (by omega)
        (Or.inr (by rw [hsp1]; decide))
    have emv : moveToNextInt data ⟨d0 + t.xd.length, e⟩ =
        ⟨d0 + t.xd.length + 1, e⟩ := by
      have h := moveToNextInt_span data [] [' '] (d0 + t.xd.length) e
        (blockAt_singleton data _ ' ' hsp1)
        (by simp)
        (by
          intro c hc
          rw [List.mem_singleton] at hc
          subst hc
          exact ⟨by decide, by decide⟩)
        (by simp only [List.length_nil, List.length_singleton, Nat.add_zero]; omega)
        (by
          simp only [List.length_nil, List.length_singleton, Nat.add_zero]
          right
          exact hyd1)
        (by
          simp only [List.length_nil, Nat.add_zero]
          right
          rw [hsp1]
          decide)
      simpa using h
    have eyr : readInt data ⟨d0 + t.xd.length + 1, e⟩ =
        (digVal t.yd, ⟨d0 + t.xd.length + 1 + t.yd.length, e⟩) :=
      readInt_span data t.yd (d0 + t.xd.length + 1) e hby hay
        (fun h => absurd h (digStrB_ne_nil _ hwy)) (by omega)
        (Or.inr (by rw [hsp2]; decide))
    have hbw3 : BlockAt data (d0 + t.xd.length + 1 + t.yd.length)
        (' ' :: t.wd) :=
      (blockAt_cons data _ ' ' t.wd).mpr ⟨hsp2, hbwd⟩
    have ewr : readWgtSet data true k st.pos st.ws
        ⟨d0 + t.xd.length + 1 + t.yd.length, e⟩ =
        (st.ws ++ [(st.pos, (digVal t.wd : ℚ))],
         ⟨d0 + t.xd.length + 1 + t.yd.length + 1 + t.wd.length, e⟩) := by
      exact readWgtSet_span data k st.pos st.ws t.wd
        (d0 + t.xd.length + 1 + t.yd.length) e hbw3 hwd hwdn
        (by omega)
        (Or.inr ⟨by omega, hnl⟩)
    simp only [exr, emv, eyr, ewr]
    rfl
  | false =>
    rw [renderRec_eq_false] at hb
    have hlen : d0 + (renderRec false t).length =
        d0 + t.xd.length + 1 + t.yd.length + 1 := by
      rw [renderRec_length]
      simp only [Bool.false_eq_true, if_false]
      omega
    rw [hlen] at hle
    have s1 := (blockAt_append data (t.xd ++ [' '] ++ t.yd) ['\n'] d0).mp hb
    have s4 := (blockAt_append data (t.xd ++ [' ']) t.yd d0).mp s1.1
    have s5 := (blockAt_append data t.xd [' '] d0).mp s4.1
    have hbx : BlockAt data d0 t.xd := s5.1
    have hsp1 : chAt data (d0 + t.xd.length) = ' ' := by
      simpa using s5.2 0 (by simp)
    have hby : BlockAt data (d0 + t.xd.length + 1) t.yd := by
      have h := s4.2
      have hq : d0 + (t.xd ++ [' ']).length = d0 + t.xd.length + 1 := by
        simp only [List.length_append, List.length_singleton]
        omega
      rw [hq] at h
      exact h
    have hnl : chAt data (d0 + t.xd.length + 1 + t.yd.length) = '\n' := by
      have hq : d0 + (t.xd ++ [' '] ++ t.yd).length =
          d0 + t.xd.length + 1 + t.yd.length := by
        simp only [List.length_append, List.length_singleton]
        omega
      have h0 := s1.2 0 (by simp)
      rw [hq] at h0
      simpa using h0
    have hyd1 : isDig (chAt data (d0 + t.xd.length + 1)) = true := by
      cases hy2 : t.yd with
      | nil => exact absurd hy2 (digStrB_ne_nil _ hwy)
      | cons c u =>
        rw [hy2] at hby
        rw [((blockAt_cons data (d0 + t.xd.length + 1) c u).mp hby).1]
        exact hay c (by rw [hy2]; simp)
    have exr : readInt data ⟨d0, e⟩ = (digVal t.xd, ⟨d0 + t.xd.length, e⟩) :=
      readInt_span data t.xd d0 e hbx hax
        (fun h => absurd h (digStrB_ne_nil _ hwx)) (by omega)
        (Or.inr (by rw [hsp1]; decide))
    have emv : moveToNextInt data ⟨d0 + t.xd.length, e⟩ =
        ⟨d0 + t.xd.length + 1, e⟩ := by
      have h := moveToNextInt_span data [] [' '] (d0 + t.xd.length) e
        (blockAt_singleton data _ ' ' hsp1)
        (by simp)
        (by
          intro c hc
          rw [List.mem_singleton] at hc
          subst hc
          exact ⟨by decide, by decide⟩)
        (by simp only [List.length_nil, List.length_singleton, Nat.add_zero]; omega)
        (by
          simp only [List.length_nil, List.length_singleton, Nat.add_zero]
          right
          exact hyd1)
        (by
          simp only [List.length_nil, Nat.add_zero]
          right
          rw [hsp1]
          decide)
      simpa using h
    have eyr : readInt data ⟨d0 + t.xd.length + 1, e⟩ =
        (digVal t.yd, ⟨d0 + t.xd.length + 1 + t.yd.length, e⟩) :=
      readInt_span data t.yd (d0 + t.xd.length + 1) e hby hay
        (fun h => absurd h (digStrB_ne_nil _ hwy)) (by omega)
        (Or.inr (by rw [hnl]; decide))
    simp only [exr, emv, eyr, readWgtSet_false]
    simp

end Pigo

namespace Pigo

theorem parse_triple (data : List Char) (k : WKind) (wgt : Bool) (pos : Nat)
    (ws : List (Nat × ℚ)) (t : RecTxt) (d0 e : Nat)
    (hwx : digStrB t.xd = true) (hwy : digStrB t.yd = true)
    (hww : wgt = true → digStrB t.wd = true)
    (hb : BlockAt data d0 (renderRec wgt t))
    (hle : d0 + (renderRec wgt t).length ≤ e) :
    readInt data ⟨d0, e⟩ = (digVal t.xd, ⟨d0 + t.xd.length, e⟩) ∧
    moveToNextInt data ⟨d0 + t.xd.length, e⟩ = ⟨d0 + t.xd.length + 1, e⟩ ∧
    readInt data ⟨d0 + t.xd.length + 1, e⟩ =
      (digVal t.yd, ⟨d0 + t.xd.length + 1 + t.yd.length, e⟩) ∧
    readWgtSet data wgt k pos ws ⟨d0 + t.xd.length + 1 + t.yd.length, e⟩ =
      (ws ++ (if wgt then [(pos, ((digVal t.wd : Nat) : ℚ))] else []),
       ⟨(if wgt then d0 + t.xd.length + 1 + t.yd.length + 1 + t.wd.length
         else d0 + t.xd.length + 1 + t.yd.length), e⟩) ∧
    readWgtCount data wgt k ⟨d0 + t.xd.length + 1 + t.yd.length, e⟩ =
      ⟨(if wgt then
          cntPos k (d0 + t.xd.length + 1 + t.yd.length + 1)
            (d0 + t.xd.length + 1 + t.yd.length + 1 + t.wd.length)
        else d0 + t.xd.length + 1 + t.yd.length), e⟩ ∧
    chAt data ((if wgt then d0 + t.xd.length + 1 + t.yd.length + 1 + t.wd.length
      else d0 + t.xd.length + 1 + t.yd.length)) = '\n' ∧
    (if wgt then d0 + t.xd.length + 1 + t.yd.length + 1 + t.wd.length
      else d0 + t.xd.length + 1 + t.yd.length) + 1 =
      d0 + (renderRec wgt t).length := by
  have hax := digStrB_all t.xd hwx
  have hay := digStrB_all t.yd hwy
  cases wgt with
  | true =>
    have hwd := digStrB_all t.wd (hww rfl)
    have hwdn := digStrB_ne_nil t.wd (hww rfl)
    rw [renderRec_eq_true] at hb
    have hlen : d0 + (renderRec true t).length =
        d0 + t.xd.length + 1 + t.yd.length + 1 + t.wd.length + 1 := by
      rw [renderRec_length]
      simp only [if_true]
      omega
    rw [hlen] at hle
    have s1 := (blockAt_append data (t.xd ++ [' '] ++ t.yd ++ [' '] ++ t.wd)
      ['\n'] d0).mp hb
    have s2 := (blockAt_append data (t.xd ++ [' '] ++ t.yd ++ [' ']) t.wd d0).mp s1.1
    have s3 := (blockAt_append data (t.xd ++ [' '] ++ t.yd) [' '] d0).mp s2.1
    have s4 := (blockAt_append data (t.xd ++ [' ']) t.yd d0).mp s3.1
    have s5 := (blockAt_append data t.xd [' '] d0).mp s4.1
    have hbx : BlockAt data d0 t.xd := s5.1
    have hsp1 : chAt data (d0 + t.xd.length) = ' ' := by
      simpa using s5.2 0 (by simp)
    have hby : BlockAt data (d0 + t.xd.length + 1) t.yd := by
      have h := s4.2
      have hq : d0 + (t.xd ++ [' ']).length = d0 + t.xd.length + 1 := by
        simp only [List.length_append, List.length_singleton]
        omega
      rw [hq] at h
      exact h
    have hsp2 : chAt data (d0 + t.xd.length + 1 + t.yd.length) = ' ' := by
      have hq : d0 + (t.xd ++ [' '] ++ t.yd).length =
          d0 + t.xd.length + 1 + t.yd.length := by
        simp only [List.length_append, List.length_singleton]
        omega
      have h0 := s3.2 0 (by simp)
      rw [hq] at h0
      simpa using h0
    have hbwd : BlockAt data (d0 + t.xd.length + 1 + t.yd.length + 1) t.wd := by
      have h := s2.2
      have hq : d0 + (t.xd ++ [' '] ++ t.yd ++ [' ']).length =
          d0 + t.xd.length + 1 + t.yd.length + 1 := by
        simp only [List.length_append, List.length_singleton]
        omega
      rw [hq] at h
      exact h
    have hnl : chAt data (d0 + t.xd.length + 1 + t.yd.length + 1 + t.wd.length) =
        '\n' := by
      have hq : d0 + (t.xd ++ [' '] ++ t.yd ++ [' '] ++ t.wd).length =
          d0 + t.xd.length + 1 + t.yd.length + 1 + t.wd.length := by
        simp only [List.length_append, List.length_singleton]
        omega
      have h0 := s1.2 0 (by simp)
      rw [hq] at h0
      simpa using h0
    have hyd1 : isDig (chAt data (d0 + t.xd.length + 1)) = true := by
      cases hy2 : t.yd with
      | nil => exact absurd hy2 (digStrB_ne_nil _ hwy)
      | cons c u =>
        rw [hy2] at hby
        rw [((blockAt_cons data (d0 + t.xd.length + 1) c u).mp hby).1]
        exact hay c (by rw [hy2]; simp)
    have hbw3 : BlockAt data (d0 + t.xd.length + 1 + t.yd.length)
        (' ' :: t.wd) :=
      (blockAt_cons data _ ' ' t.wd).mpr ⟨hsp2, hbwd⟩
    refine ⟨?_, ?_, ?_, ?_, ?_, ?_, ?_⟩
    · exact readInt_span data t.xd d0 e hbx hax
        (fun h => absurd h (digStrB_ne_nil _ hwx)) (by omega)
        (Or.inr (by rw [hsp1]; decide))
    · have h := moveToNextInt_span data [] [' '] (d0 + t.xd.length) e
        (blockAt_singleton data _ ' ' hsp1)
        (by simp)
        (by
          intro c hc
          rw [List.mem_singleton] at hc
          subst hc
          exact ⟨by decide, by decide⟩)
        (by simp only [List.length_nil, List.length_singleton, Nat.add_zero]; omega)
        (by
          simp only [List.length_nil, List.length_singleton, Nat.add_zero]
          right
          exact hyd1)
        (by
          simp only [List.length_nil, Nat.add_zero]
          right
          rw [hsp1]
          decide)
      simpa using h
    · exact readInt_span data t.yd (d0 + t.xd.length + 1) e hby hay
        (fun h => absurd h (digStrB_ne_nil _ hwy)) (by omega)
        (Or.inr (by rw [hsp2]; decide))
    · exact readWgtSet_span data k pos ws t.wd
        (d0 + t.xd.length + 1 + t.yd.length) e hbw3 hwd hwdn
        (by omega)
        (Or.inr ⟨by omega, hnl⟩)
    · exact readWgtCount_span data k t.wd
        (d0 + t.xd.length + 1 + t.yd.length) e hbw3 hwd hwdn
        (by omega)
        (Or.inr ⟨by omega, hnl⟩)
    · exact hnl
    · rw [hlen]
      simp
  | false =>
    rw [renderRec_eq_false] at hb
    have hlen : d0 + (renderRec false t).length =
        d0 + t.xd.length + 1 + t.yd.length + 1 := by
      rw [renderRec_length]
      simp only [Bool.false_eq_true, if_false]
      omega
    rw [hlen] at hle
    have s1 := (blockAt_append data (t.xd ++ [' '] ++ t.yd) ['\n'] d0).mp hb
    have s4 := (blockAt_append data (t.xd ++ [' ']) t.yd d0).mp s1.1
    have s5 := (blockAt_append data t.xd [' '] d0).mp s4.1
    have hbx : BlockAt data d0 t.xd := s5.1
    have hsp1 : chAt data (d0 + t.xd.length) = ' ' := by
      simpa using s5.2 0 (by simp)
    have hby : BlockAt data (d0 + t.xd.length + 1) t.yd := by
      have h := s4.2
      have hq : d0 + (t.xd ++ [' ']).length = d0 + t.xd.length + 1 := by
        simp only [List.length_append, List.length_singleton]
        omega
      rw [hq] at h
      exact h
    have hnl : chAt data (d0 + t.xd.length + 1 + t.yd.length) = '\n' := by
      have hq : d0 + (t.xd ++ [' '] ++ t.yd).length =
          d0 + t.xd.length + 1 + t.yd.length := by
        simp only [List.length_append, List.length_singleton]
        omega
      have h0 := s1.2 0 (by simp)
      rw [hq] at h0
      simpa using h0
    have hyd1 : isDig (chAt data (d0 + t.xd.length + 1)) = true := by
      cases hy2 : t.yd with
      | nil => exact absurd hy2 (digStrB_ne_nil _ hwy)
      | cons c u =>
        rw [hy2] at hby
        rw [((blockAt_cons data (d0 + t.xd.length + 1) c u).mp hby).1]
        exact hay c (by rw [hy2]; simp)
    refine ⟨?_, ?_, ?_, ?_, ?_, ?_, ?_⟩
    · exact readInt_span data t.xd d0 e hbx hax
        (fun h => absurd h (digStrB_ne_nil _ hwx)) (by omega)
        (Or.inr (by rw [hsp1]; decide))
    · have h := moveToNextInt_span data [] [' '] (d0 + t.xd.length) e
        (blockAt_singleton data _ ' ' hsp1)
        (by simp)
        (by
          intro c hc
          rw [List.mem_singleton] at hc
          subst hc
          exact ⟨by decide, by decide⟩)
        (by simp only [List.length_nil, List.length_singleton, Nat.add_zero]; omega)
        (by
          simp only [List.length_nil, List.length_singleton, Nat.add_zero]
          right
          exact hyd1)
        (by
          simp only [List.length_nil, Nat.add_zero]
          right
          rw [hsp1]
          decide)
      simpa using h
    · exact readInt_span data t.yd (d0 + t.xd.length + 1) e hby hay
        (fun h => absurd h (digStrB_ne_nil _ hwy)) (by omega)
        (Or.inr (by rw [hnl]; decide))
    · rw [readWgtSet_false]
      simp
    · exact readWgtCount_false data k _
    · exact hnl
    · rw [hlen]
      simp

theorem genCountF_step (data : List Char) (k : WKind) (sym ut sl wgt : Bool)
    (fuel : Nat) (t : RecTxt) (st : ScanSt) (d0 e : Nat)
    (hr : st.r = ⟨d0, e⟩)
    (hwx : digStrB t.xd = true) (hwy : digStrB t.yd = true)
    (hww : wgt = true → digStrB t.wd = true)
    (hb : BlockAt data d0 (renderRec wgt t))
    (hle : d0 + (renderRec wgt t).length ≤ e) :
    genCountF data k sym ut sl wgt (fuel + 1) st =
      genCountBody data sym ut sl (genCountF data k sym ut sl wgt fuel)
        (digVal t.xd) (digVal t.yd)
        ⟨(if wgt then
            cntPos k (d0 + t.xd.length + 1 + t.yd.length + 1)
              (d0 + t.xd.length + 1 + t.yd.length + 1 + t.wd.length)
          else d0 + t.xd.length + 1 + t.yd.length), e⟩ st := by
  obtain ⟨e1, e2, e3, _, e5, _, _⟩ :=
    parse_triple data k wgt st.pos st.ws t d0 e hwx hwy hww hb hle
  show genCountBody data sym ut sl (genCountF data k sym ut sl wgt fuel)
      (readInt data st.r).1
      (readInt data (moveToNextInt data (readInt data st.r).2)).1
      (readWgtCount data wgt k
        (readInt data (moveToNextInt data (readInt data st.r).2)).2) st = _
  rw [hr]
  simp only [e1, e2, e3, e5]

theorem nfSet_step (data : List Char) (k : WKind) (wgt : Bool)
    (t : RecTxt) (st : ScanSt) (d0 e : Nat)
    (hr : st.r = ⟨d0, e⟩)
    (hwx : digStrB t.xd = true) (hwy : digStrB t.yd = true)
    (hww : wgt = true → digStrB t.wd = true)
    (hb : BlockAt data d0 (renderRec wgt t))
    (hle : d0 + (renderRec wgt t).length ≤ e) :
    nfSet data k wgt st =
      nfSetBody data (digVal t.xd) (digVal t.yd)
        (st.ws ++ (if wgt then [(st.pos, ((digVal t.wd : Nat) : ℚ))] else []))
        ⟨(if wgt then d0 + t.xd.length + 1 + t.yd.length + 1 + t.wd.length
          else d0 + t.xd.length + 1 + t.yd.length), e⟩ st := by
  obtain ⟨e1, e2, e3, e4, _, _, _⟩ :=
    parse_triple data k wgt st.pos st.ws t d0 e hwx hwy hww hb hle
  show nfSetBody data
      (readInt data st.r).1
      (readInt data (moveToNextInt data (readInt data st.r).2)).1
      (readWgtSet data wgt k st.pos st.ws
        (readInt data (moveToNextInt data (readInt data st.r).2)).2).1
      (readWgtSet data wgt k st.pos st.ws
        (readInt data (moveToNextInt data (readInt data st.r).2)).2).2
      st = _
  rw [hr]
  simp only [e1, e2, e3, e4]

theorem afterNl_move (data : List Char) (nl e : Nat)
    (hnl : chAt data nl = '\n') (hlt : nl < e)
    (hnext : nl + 1 = e ∨ isDig (chAt data (nl + 1)) = true) :
    moveToNextInt data ⟨nl, e⟩ = ⟨nl + 1, e⟩ := by
  have h := afterRec_move data nl e hnl hlt hnext
  have heol : moveToEol data ⟨nl, e⟩ = ⟨nl, e⟩ := by
    have h2 := moveToEol_span data [] nl e (blockAt_nil data nl) (by simp)
      (by simp; omega) (by simp only [List.length_nil, Nat.add_zero]; exact Or.inr hnl)
    simpa using h2
  rw [heol] at h
  exact h

theorem nfCount_step (data : List Char) (wgt : Bool)
    (t : RecTxt) (st : ScanSt) (d0 e : Nat)
    (hr : st.r = ⟨d0, e⟩)
    (hwx : digStrB t.xd = true) (hwy : digStrB t.yd = true)
    (hww : wgt = true → digStrB t.wd = true)
    (hb : BlockAt data d0 (renderRec wgt t))
    (hle : d0 + (renderRec wgt t).length ≤ e)
    (hnext : d0 + (renderRec wgt t).length = e ∨
      isDig (chAt data (d0 + (renderRec wgt t).length)) = true) :
    nfCount data st =
      { st with r := ⟨d0 + (renderRec wgt t).length, e⟩, pos := st.pos + 1 } := by
  have hax := digStrB_all t.xd hwx
  have hay := digStrB_all t.yd hwy
  obtain ⟨_, _, _, _, _, hnl, hlen⟩ :=
    parse_triple data WKind.iUnsigned wgt st.pos st.ws t d0 e hwx hwy hww hb hle
  have hxb : BlockAt data d0 (t.xd ++ [' ']) := by
    cases wgt with
    | true =>
      rw [renderRec_eq_true] at hb
      exact ((blockAt_append data (t.xd ++ [' '])
        (t.yd ++ [' '] ++ t.wd ++ ['\n']) d0).mp
          (by simpa [List.append_assoc] using hb)).1
    | false =>
      rw [renderRec_eq_false] at hb
      exact ((blockAt_append data (t.xd ++ [' '])
        (t.yd ++ ['\n']) d0).mp (by simpa [List.append_assoc] using hb)).1
  have hsp1 : chAt data (d0 + t.xd.length) = ' ' := by
    have h := ((blockAt_append data t.xd [' '] d0).mp hxb).2
    simpa using h 0 (by simp)
  have hby : BlockAt data (d0 + t.xd.length + 1) t.yd := by
    cases wgt with
    | true =>
      rw [renderRec_eq_true] at hb
      have s4 := (blockAt_append data (t.xd ++ [' ']) t.yd d0).mp
        ((blockAt_append data (t.xd ++ [' '] ++ t.yd) ([' '] ++ t.wd ++ ['\n'])
          d0).mp (by simpa [List.append_assoc] using hb)).1
      have h := s4.2
      have hq : d0 + (t.xd ++ [' ']).length = d0 + t.xd.length + 1 := by
        simp only [List.length_append, List.length_singleton]
        omega
      rw [hq] at h
      exact h
    | false =>
      rw [renderRec_eq_false] at hb
      have s4 := (blockAt_append data (t.xd ++ [' ']) t.yd d0).mp
        ((blockAt_append data (t.xd ++ [' '] ++ t.yd) ['\n'] d0).mp hb).1
      have h := s4.2
      have hq : d0 + (t.xd ++ [' ']).length = d0 + t.xd.length + 1 := by
        simp only [List.length_append, List.length_singleton]
        omega
      rw [hq] at h
      exact h
  have hyd1 : isDig (chAt data (d0 + t.xd.length + 1)) = true := by
    cases hy2 : t.yd with
    | nil => exact absurd hy2 (digStrB_ne_nil _ hwy)
    | cons c u =>
      rw [hy2] at hby
      rw [((blockAt_cons data (d0 + t.xd.length + 1) c u).mp hby).1]
      exact hay c (by rw [hy2]; simp)
  have hrlen : 0 < (renderRec wgt t).length := renderRec_len_pos wgt t
  have e2 : moveToNextInt data ⟨d0, e⟩ = ⟨d0 + t.xd.length + 1, e⟩ := by
    have h := moveToNextInt_span data t.xd [' '] d0 e hxb hax
      (by
        intro c hc
        rw [List.mem_singleton] at hc
        subst hc
        exact ⟨by decide, by decide⟩)
      (by simp only [List.length_singleton]
          have hh := renderRec_length wgt t
          cases wgt <;> simp at hh <;> omega)
      (by
        simp only [List.length_singleton]
        right
        exact hyd1)
      (by
        right
        rw [hsp1]
        decide)
    simpa using h
  have hgood : (⟨d0 + t.xd.length + 1, e⟩ : Reader).good = true := by
    rw [good_iff]
    show d0 + t.xd.length + 1 < e
    have hh := renderRec_length wgt t
    have hyp : 0 < t.yd.length := List.length_pos.mpr (digStrB_ne_nil _ hwy)
    cases wgt <;> simp at hh <;> omega
  have heol : moveToEol data ⟨d0 + t.xd.length + 1, e⟩ =
      ⟨(if wgt then d0 + t.xd.length + 1 + t.yd.length + 1 + t.wd.length
        else d0 + t.xd.length + 1 + t.yd.length), e⟩ := by
    cases wgt with
    | true =>
      have hwd := digStrB_all t.wd (hww rfl)
      rw [renderRec_eq_true] at hb
      have s2 := (blockAt_append data (t.xd ++ [' '] ++ t.yd ++ [' ']) t.wd d0).mp
        ((blockAt_append data (t.xd ++ [' '] ++ t.yd ++ [' '] ++ t.wd) ['\n']
          d0).mp hb).1
      have s3 := (blockAt_append data (t.xd ++ [' '] ++ t.yd) [' '] d0).mp s2.1
      have hsp2 : chAt data (d0 + t.xd.length + 1 + t.yd.length) = ' ' := by
        have hq : d0 + (t.xd ++ [' '] ++ t.yd).length =
            d0 + t.xd.length + 1 + t.yd.length := by
          simp only [List.length_append, List.length_singleton]
          omega
        have h0 := s3.2 0 (by simp)
        rw [hq] at h0
        simpa using h0
      have hbwd : BlockAt data (d0 + t.xd.length + 1 + t.yd.length + 1) t.wd := by
        have h := s2.2
        have hq : d0 + (t.xd ++ [' '] ++ t.yd ++ [' ']).length =
            d0 + t.xd.length + 1 + t.yd.length + 1 := by
          simp only [List.length_append, List.length_singleton]
          omega
        rw [hq] at h
        exact h
      have hbfull : BlockAt data (d0 + t.xd.length + 1)
          (t.yd ++ ' ' :: t.wd) := by
        rw [blockAt_append]
        refine ⟨hby, ?_⟩
        rw [blockAt_cons]
        exact ⟨hsp2, by
          have hq : d0 + t.xd.length + 1 + t.yd.length + 1 =
              d0 + t.xd.length + 1 + t.yd.length + 1 := rfl
          exact hbwd⟩
      have h := moveToEol_span data (t.yd ++ ' ' :: t.wd)
        (d0 + t.xd.length + 1) e hbfull
        (by
          intro c hc
          rw [List.mem_append] at hc
          rcases hc with hc | hc
          · exact isDig_ne c '\n' (hay c hc) (by decide)
          · rw [List.mem_cons] at hc
            rcases hc with hc | hc
            · subst hc; decide
            · exact isDig_ne c '\n' (hwd c hc) (by decide))
        (by
          simp only [List.length_append, List.length_cons]
          have hh := renderRec_length true t
          simp at hh
          omega)
        (by
          right
          have hq : d0 + t.xd.length + 1 + (t.yd ++ ' ' :: t.wd).length =
              d0 + t.xd.length + 1 + t.yd.length + 1 + t.wd.length := by
            simp only [List.length_append, List.length_cons]
            omega
          rw [hq]
          exact hnl)
      have hq : d0 + t.xd.length + 1 + (t.yd ++ ' ' :: t.wd).length =
          d0 + t.xd.length + 1 + t.yd.length + 1 + t.wd.length := by
        simp only [List.length_append, List.length_cons]
        omega
      rw [hq] at h
      simpa using h
    | false =>
      have h := moveToEol_span data t.yd (d0 + t.xd.length + 1) e hby
        (fun c hc => isDig_ne c '\n' (hay c hc) (by decide))
        (by
          have hh := renderRec_length false t
          simp at hh
          omega)
        (Or.inr hnl)
      simpa using h
  have hmv : moveToNextInt data
      ⟨(if wgt then d0 + t.xd.length + 1 + t.yd.length + 1 + t.wd.length
        else d0 + t.xd.length + 1 + t.yd.length), e⟩ =
      ⟨d0 + (renderRec wgt t).length, e⟩ := by
    have h := afterNl_move data
      (if wgt then d0 + t.xd.length + 1 + t.yd.length + 1 + t.wd.length
        else d0 + t.xd.length + 1 + t.yd.length) e hnl
      (by omega)
      (by rw [hlen]; exact hnext)
    rw [hlen] at h
    exact h
  unfold nfCount
  rw [hr]
  simp only [e2, hgood, heol, hmv, Bool.not_true, Bool.false_eq_true, if_false]

end Pigo

namespace Pigo

theorem renderInput_nil (wgt : Bool) : renderInput wgt [] = [] := rfl

theorem renderInput_cons (wgt : Bool) (t : RecTxt) (l : List RecTxt) :
    renderInput wgt (t :: l) = renderRec wgt t ++ renderInput wgt l := by
  simp [renderInput]

theorem renderInput_append (wgt : Bool) (l1 l2 : List RecTxt) :
    renderInput wgt (l1 ++ l2) = renderInput wgt l1 ++ renderInput wgt l2 := by
  simp [renderInput]

theorem emitsSum_nil (sym ut sl : Bool) : emitsSum sym ut sl [] = 0 := rfl

theorem emitsSum_cons (sym ut sl : Bool) (t : RecTxt) (l : List RecTxt) :
    emitsSum sym ut sl (t :: l) =
      recEmits sym ut sl (digVal t.xd) (digVal t.yd) + emitsSum sym ut sl l := by
  simp [emitsSum]

theorem emitsSum_append (sym ut sl : Bool) (l1 l2 : List RecTxt) :
    emitsSum sym ut sl (l1 ++ l2) =
      emitsSum sym ut sl l1 + emitsSum sym ut sl l2 := by
  simp [emitsSum]

theorem recEmits_drop (sym ut sl : Bool) (x y : Nat)
    (hd : recDrop sym ut sl x y = true) : recEmits sym ut sl x y = 0 := by
  simp [recEmits, hd]

theorem recEmits_mirror (sym ut sl : Bool) (x y : Nat)
    (hd : recDrop sym ut sl x y = false) (hm : recMirror sym ut x y = true) :
    recEmits sym ut sl x y = 2 := by
  simp [recEmits, hd, hm]

theorem recEmits_plain (sym ut sl : Bool) (x y : Nat)
    (hd : recDrop sym ut sl x y = false) (hm : recMirror sym ut x y = false) :
    recEmits sym ut sl x y = 1 := by
  simp [recEmits, hd, hm]

theorem splitKept_nil (sym ut sl : Bool) : splitKept sym ut sl [] = ([], none) := rfl

theorem splitKept_drop (sym ut sl : Bool) (t : RecTxt) (l : List RecTxt)
    (hd : recDrop sym ut sl (digVal t.xd) (digVal t.yd) = true) :
    splitKept sym ut sl (t :: l) =
      (t :: (splitKept sym ut sl l).1, (splitKept sym ut sl l).2) := by
  simp only [splitKept]
  rw [if_pos hd]

theorem splitKept_keep (sym ut sl : Bool) (t : RecTxt) (l : List RecTxt)
    (hd : recDrop sym ut sl (digVal t.xd) (digVal t.yd) = false) :
    splitKept sym ut sl (t :: l) = ([], some (t, l)) := by
  simp only [splitKept]
  rw [if_neg (by simp [hd])]

theorem idealLogs_nil (sym ut sl wgt : Bool) (p : Nat) :
    idealLogs sym ut sl wgt p [] = ([], [], []) := rfl

theorem idealLogs_drop (sym ut sl wgt : Bool) (p : Nat) (t : RecTxt)
    (l : List RecTxt)
    (hd : recDrop sym ut sl (digVal t.xd) (digVal t.yd) = true) :
    idealLogs sym ut sl wgt p (t :: l) =
      ((idealLogs sym ut sl wgt p l).1,
       (idealLogs sym ut sl wgt p l).2.1,
       (if wgt then [(p, (digVal t.wd : ℚ))] else []) ++
         (idealLogs sym ut sl wgt p l).2.2) := by
  simp only [idealLogs]
  rw [if_pos hd]

theorem idealLogs_mirror (sym ut sl wgt : Bool) (p : Nat) (t : RecTxt)
    (l : List RecTxt)
    (hd : recDrop sym ut sl (digVal t.xd) (digVal t.yd) = false)
    (hm : recMirror sym ut (digVal t.xd) (digVal t.yd) = true) :
    idealLogs sym ut sl wgt p (t :: l) =
      ((p, (swapXY sym ut (digVal t.xd) (digVal t.yd)).1) ::
         (p + 1, (swapXY sym ut (digVal t.xd) (digVal t.yd)).2) ::
         (idealLogs sym ut sl wgt (p + 2) l).1,
       (p, (swapXY sym ut (digVal t.xd) (digVal t.yd)).2) ::
         (p + 1, (swapXY sym ut (digVal t.xd) (digVal t.yd)).1) ::
         (idealLogs sym ut sl wgt (p + 2) l).2.1,
       (if wgt then [(p, (digVal t.wd : ℚ)), (p + 1, (digVal t.wd : ℚ))] else []) ++
         (idealLogs sym ut sl wgt (p + 2) l).2.2) := by
  simp only [idealLogs]
  rw [if_neg (by simp [hd]), if_pos hm]

theorem idealLogs_plain (sym ut sl wgt : Bool) (p : Nat) (t : RecTxt)
    (l : List RecTxt)
    (hd : recDrop sym ut sl (digVal t.xd) (digVal t.yd) = false)
    (hm : recMirror sym ut (digVal t.xd) (digVal t.yd) = false) :
    idealLogs sym ut sl wgt p (t :: l) =
      ((p, (swapXY sym ut (digVal t.xd) (digVal t.yd)).1) ::
         (idealLogs sym ut sl wgt (p + 1) l).1,
       (p, (swapXY sym ut (digVal t.xd) (digVal t.yd)).2) ::
         (idealLogs sym ut sl wgt (p + 1) l).2.1,
       (if wgt then [(p, (digVal t.wd : ℚ))] else []) ++
         (idealLogs sym ut sl wgt (p + 1) l).2.2) := by
  simp only [idealLogs]
  rw [if_neg (by simp [hd]), if_neg (by simp [hm])]

theorem idealMaxR_nil (sym ut sl : Bool) (a : Nat) :
    idealMaxR sym ut sl a [] = a := rfl

theorem idealMaxR_drop (sym ut sl : Bool) (a : Nat) (t : RecTxt)
    (l : List RecTxt)
    (hd : recDrop sym ut sl (digVal t.xd) (digVal t.yd) = true) :
    idealMaxR sym ut sl a (t :: l) = idealMaxR sym ut sl a l := by
  simp only [idealMaxR]
  rw [if_pos hd]

theorem idealMaxR_keep (sym ut sl : Bool) (a : Nat) (t : RecTxt)
    (l : List RecTxt)
    (hd : recDrop sym ut sl (digVal t.xd) (digVal t.yd) = false) :
    idealMaxR sym ut sl a (t :: l) =
      idealMaxR sym ut sl
        (if decide (a < (swapXY sym ut (digVal t.xd) (digVal t.yd)).1) then
          (swapXY sym ut (digVal t.xd) (digVal t.yd)).1 else a) l := by
  simp only [idealMaxR]
  rw [if_neg (by simp [hd])]

theorem idealMaxC_nil (sym ut sl : Bool) (a : Nat) :
    idealMaxC sym ut sl a [] = a := rfl

theorem idealMaxC_drop (sym ut sl : Bool) (a : Nat) (t : RecTxt)
    (l : List RecTxt)
    (hd : recDrop sym ut sl (digVal t.xd) (digVal t.yd) = true) :
    idealMaxC sym ut sl a (t :: l) = idealMaxC sym ut sl a l := by
  simp only [idealMaxC]
  rw [if_pos hd]

theorem idealMaxC_keep (sym ut sl : Bool) (a : Nat) (t : RecTxt)
    (l : List RecTxt)
    (hd : recDrop sym ut sl (digVal t.xd) (digVal t.yd) = false) :
    idealMaxC sym ut sl a (t :: l) =
      idealMaxC sym ut sl
        (if decide (a < (swapXY sym ut (digVal t.xd) (digVal t.yd)).2) then
          (swapXY sym ut (digVal t.xd) (digVal t.yd)).2 else a) l := by
  simp only [idealMaxC]
  rw [if_neg (by simp [hd])]

theorem lastDropped_nil (sym ut sl : Bool) : lastDropped sym ut sl [] = false := rfl

theorem lastDropped_single (sym ut sl : Bool) (t : RecTxt) :
    lastDropped sym ut sl [t] =
      recDrop sym ut sl (digVal t.xd) (digVal t.yd) := rfl

theorem lastDropped_cons2 (sym ut sl : Bool) (t t2 : RecTxt) (l : List RecTxt) :
    lastDropped sym ut sl (t :: t2 :: l) = lastDropped sym ut sl (t2 :: l) := rfl

theorem lastDropped_append_cons (sym ut sl : Bool) (t : RecTxt) :
    ∀ (l1 l2 : List RecTxt),
    lastDropped sym ut sl (l1 ++ t :: l2) = lastDropped sym ut sl (t :: l2) := by
  intro l1
  induction l1 with
  | nil => intro l2; rfl
  | cons a l1 ih =>
    intro l2
    cases l1 with
    | nil => rfl
    | cons b l1b =>
      show lastDropped sym ut sl (a :: b :: (l1b ++ t :: l2)) = _
      rw [lastDropped_cons2]
      exact ih l2

theorem idealLogs_append (sym ut sl wgt : Bool) :
    ∀ (l1 l2 : List RecTxt) (p : Nat),
    idealLogs sym ut sl wgt p (l1 ++ l2) =
      ((idealLogs sym ut sl wgt p l1).1 ++
         (idealLogs sym ut sl wgt (p + emitsSum sym ut sl l1) l2).1,
       (idealLogs sym ut sl wgt p l1).2.1 ++
         (idealLogs sym ut sl wgt (p + emitsSum sym ut sl l1) l2).2.1,
       (idealLogs sym ut sl wgt p l1).2.2 ++
         (idealLogs sym ut sl wgt (p + emitsSum sym ut sl l1) l2).2.2) := by
  intro l1
  induction l1 with
  | nil =>
    intro l2 p
    simp [idealLogs_nil, emitsSum_nil]
  | cons t l1 ih =>
    intro l2 p
    by_cases hd : recDrop sym ut sl (digVal t.xd) (digVal t.yd) = true
    · rw [List.cons_append, idealLogs_drop sym ut sl wgt p t (l1 ++ l2) hd,
        idealLogs_drop sym ut sl wgt p t l1 hd, ih l2 p,
        emitsSum_cons, recEmits_drop sym ut sl _ _ hd]
      simp [List.append_assoc]
    · simp only [Bool.not_eq_true] at hd
      by_cases hm : recMirror sym ut (digVal t.xd) (digVal t.yd) = true
      · rw [List.cons_append, idealLogs_mirror sym ut sl wgt p t (l1 ++ l2) hd hm,
          idealLogs_mirror sym ut sl wgt p t l1 hd hm, ih l2 (p + 2),
          emitsSum_cons, recEmits_mirror sym ut sl _ _ hd hm]
        simp [List.append_assoc, Nat.add_assoc]
      · simp only [Bool.not_eq_true] at hm
        rw [List.cons_append, idealLogs_plain sym ut sl wgt p t (l1 ++ l2) hd hm,
          idealLogs_plain sym ut sl wgt p t l1 hd hm, ih l2 (p + 1),
          emitsSum_cons, recEmits_plain sym ut sl _ _ hd hm]
        simp [List.append_assoc, Nat.add_assoc]

end Pigo

namespace Pigo

theorem swapXY_fst (sym ut : Bool) (x y : Nat) :
    (swapXY sym ut x y).1 = if sym && ut && decide (y < x) then y else x := by
  unfold swapXY
  by_cases hc : (sym && ut && decide (y < x)) = true
  · rw [if_pos hc, if_pos hc]
  · rw [if_neg hc, if_neg hc]

theorem swapXY_snd (sym ut : Bool) (x y : Nat) :
    (swapXY sym ut x y).2 = if sym && ut && decide (y < x) then x else y := by
  unfold swapXY
  by_cases hc : (sym && ut && decide (y < x)) = true
  · rw [if_pos hc, if_pos hc]
  · rw [if_neg hc, if_neg hc]

theorem mirror_swap (sym ut : Bool) (x y : Nat) :
    (sym && !ut && !((if sym && ut && decide (y < x) then y else x) ==
      (if sym && ut && decide (y < x) then x else y))) =
      recMirror sym ut x y := by
  unfold recMirror
  by_cases hc : (sym && ut && decide (y < x)) = true
  · rw [if_pos hc, if_pos hc]
    have hut : ut = true := by
      have h1 := ((Bool.and_eq_true _ _).mp hc).1
      exact ((Bool.and_eq_true _ _).mp h1).2
    rw [hut]
    simp
  · rw [if_neg hc, if_neg hc]

theorem genSetBody_drop (data : List Char) (sym ut sl wgt : Bool)
    (rec : ScanSt → ScanSt) (x y : Nat) (ws1 : List (Nat × ℚ)) (r4 : Reader)
    (st : ScanSt) (hd : recDrop sym ut sl x y = true) (hg : r4.good = true) :
    genSetBody data sym ut sl wgt rec x y ws1 r4 st =
      rec { st with
            ws := ws1
            r := moveToNextInt data (moveToEol data r4) } := by
  unfold genSetBody
  rw [if_neg (by rw [hg]; simp)]
  simp only [recDrop, Bool.or_eq_true] at hd
  rcases hd with h | h
  · rw [if_pos h]
  · by_cases h2 : (sl && x == y) = true
    · rw [if_pos h2]
    · rw [if_neg h2, if_pos h]

theorem genSetBody_keep (data : List Char) (sym ut sl wgt : Bool)
    (rec : ScanSt → ScanSt) (x y : Nat) (ws1 : List (Nat × ℚ)) (r4 : Reader)
    (st : ScanSt) (hd : recDrop sym ut sl x y = false) (hg : r4.good = true) :
    genSetBody data sym ut sl wgt rec x y ws1 r4 st =
      emitKept sym ut wgt x y (moveToNextInt data (moveToEol data r4)) ws1 st := by
  unfold genSetBody
  rw [if_neg (by rw [hg]; simp)]
  simp only [recDrop, Bool.or_eq_false_iff] at hd
  rw [if_neg (by rw [hd.1]; simp), if_neg (by rw [hd.2]; simp)]

theorem genCountBody_drop (data : List Char) (sym ut sl : Bool)
    (rec : ScanSt → ScanSt) (x y : Nat) (r4 : Reader)
    (st : ScanSt) (hd : recDrop sym ut sl x y = true) (hg : r4.good = true) :
    genCountBody data sym ut sl rec x y r4 st =
      rec { st with r := moveToNextInt data (moveToEol data r4) } := by
  unfold genCountBody
  rw [if_neg (by rw [hg]; simp)]
  simp only [recDrop, Bool.or_eq_true] at hd
  rcases hd with h | h
  · rw [if_pos h]
  · by_cases h2 : (sl && x == y) = true
    · rw [if_pos h2]
    · rw [if_neg h2, if_pos h]

theorem genCountBody_keep (data : List Char) (sym ut sl : Bool)
    (rec : ScanSt → ScanSt) (x y : Nat) (r4 : Reader)
    (st : ScanSt) (hd : recDrop sym ut sl x y = false) (hg : r4.good = true) :
    genCountBody data sym ut sl rec x y r4 st =
      { st with
        r := moveToNextInt data (moveToEol data r4)
        pos := st.pos + recEmits sym ut sl x y } := by
  unfold genCountBody
  rw [if_neg (by rw [hg]; simp)]
  simp only [recDrop, Bool.or_eq_false_iff] at hd
  rw [if_neg (by rw [hd.1]; simp), if_neg (by rw [hd.2]; simp)]
  by_cases hm : (sym && !ut && !(x == y)) = true
  · rw [if_pos hm]
    have hm2 : recMirror sym ut x y = true := hm
    rw [recEmits_mirror sym ut sl x y (by
      simp only [recDrop, Bool.or_eq_false_iff]
      exact ⟨hd.1, hd.2⟩) hm2]
  · rw [if_neg hm]
    have hm2 : recMirror sym ut x y = false := by
      simp only [Bool.not_eq_true] at hm
      exact hm
    rw [recEmits_plain sym ut sl x y (by
      simp only [recDrop, Bool.or_eq_false_iff]
      exact ⟨hd.1, hd.2⟩) hm2]

theorem emitKept_eq (sym ut sl wgt : Bool) (t : RecTxt) (r6 : Reader)
    (st : ScanSt)
    (hd : recDrop sym ut sl (digVal t.xd) (digVal t.yd) = false) :
    emitKept sym ut wgt (digVal t.xd) (digVal t.yd) r6
      (st.ws ++ (if wgt then [(st.pos, ((digVal t.wd : Nat) : ℚ))] else [])) st =
      { xs := st.xs ++ (idealLogs sym ut sl wgt st.pos [t]).1,
        ys := st.ys ++ (idealLogs sym ut sl wgt st.pos [t]).2.1,
        ws := st.ws ++ (idealLogs sym ut sl wgt st.pos [t]).2.2,
        pos := st.pos + recEmits sym ut sl (digVal t.xd) (digVal t.yd),
        r := r6,
        maxRow := idealMaxR sym ut sl st.maxRow [t],
        maxCol := idealMaxC sym ut sl st.maxCol [t] } := by
  by_cases hm : recMirror sym ut (digVal t.xd) (digVal t.yd) = true
  · rw [idealLogs_mirror sym ut sl wgt st.pos t [] hd hm,
      idealMaxR_keep sym ut sl st.maxRow t [] hd,
      idealMaxC_keep sym ut sl st.maxCol t [] hd,
      recEmits_mirror sym ut sl _ _ hd hm]
    unfold emitKept
    dsimp only
    rw [mirror_swap sym ut (digVal t.xd) (digVal t.yd), hm]
    simp only [if_true, idealLogs_nil, idealMaxR_nil, idealMaxC_nil,
      swapXY_fst, swapXY_snd]
    cases wgt with
    | true =>
      simp [Nat.add_sub_cancel, storeGet_last, List.append_assoc]
    | false =>
      simp [List.append_assoc]
  · have hm2 : recMirror sym ut (digVal t.xd) (digVal t.yd) = false := by
      simp only [Bool.not_eq_true] at hm
      exact hm
    rw [idealLogs_plain sym ut sl wgt st.pos t [] hd hm2,
      idealMaxR_keep sym ut sl st.maxRow t [] hd,
      idealMaxC_keep sym ut sl st.maxCol t [] hd,
      recEmits_plain sym ut sl _ _ hd hm2]
    unfold emitKept
    dsimp only
    rw [mirror_swap sym ut (digVal t.xd) (digVal t.yd), hm2]
    simp only [Bool.false_eq_true, if_false, idealLogs_nil, idealMaxR_nil,
      idealMaxC_nil, swapXY_fst, swapXY_snd]
    cases wgt with
    | true => simp [List.append_assoc]
    | false => simp [List.append_assoc]

end Pigo

namespace Pigo

theorem countEol (data : List Char) (k : WKind) (wgt : Bool) (t : RecTxt)
    (d0 e : Nat)
    (hwy : digStrB t.yd = true)
    (hww : wgt = true → digStrB t.wd = true)
    (hb : BlockAt data d0 (renderRec wgt t))
    (hle : d0 + (renderRec wgt t).length ≤ e) :
    moveToEol data ⟨(if wgt then
        cntPos k (d0 + t.xd.length + 1 + t.yd.length + 1)
          (d0 + t.xd.length + 1 + t.yd.length + 1 + t.wd.length)
      else d0 + t.xd.length + 1 + t.yd.length), e⟩ =
      ⟨(if wgt then d0 + t.xd.length + 1 + t.yd.length + 1 + t.wd.length
        else d0 + t.xd.length + 1 + t.yd.length), e⟩ := by
  cases wgt with
  | true =>
    have hwd := digStrB_all t.wd (hww rfl)
    rw [renderRec_eq_true] at hb
    have hlen : d0 + (renderRec true t).length =
        d0 + t.xd.length + 1 + t.yd.length + 1 + t.wd.length + 1 := by
      rw [renderRec_length]
      simp only [if_true]
      omega
    rw [hlen] at hle
    have s1 := (blockAt_append data (t.xd ++ [' '] ++ t.yd ++ [' '] ++ t.wd)
      ['\n'] d0).mp hb
    have s2 := (blockAt_append data (t.xd ++ [' '] ++ t.yd ++ [' ']) t.wd d0).mp s1.1
    have hbwd : BlockAt data (d0 + t.xd.length + 1 + t.yd.length + 1) t.wd := by
      have h := s2.2
      have hq : d0 + (t.xd ++ [' '] ++ t.yd ++ [' ']).length =
          d0 + t.xd.length + 1 + t.yd.length + 1 := by
        simp only [List.length_append, List.length_singleton]
        omega
      rw [hq] at h
      exact h
    have hnl : chAt data (d0 + t.xd.length + 1 + t.yd.length + 1 + t.wd.length) =
        '\n' := by
      have hq : d0 + (t.xd ++ [' '] ++ t.yd ++ [' '] ++ t.wd).length =
          d0 + t.xd.length + 1 + t.yd.length + 1 + t.wd.length := by
        simp only [List.length_append, List.length_singleton]
        omega
      have h0 := s1.2 0 (by simp)
      rw [hq] at h0
      simpa using h0
    cases k with
    | iSigned =>
      have h := moveToEol_span data t.wd (d0 + t.xd.length + 1 + t.yd.length + 1)
        e hbwd (fun c hc => isDig_ne c '\n' (hwd c hc) (by decide))
        (by omega) (Or.inr hnl)
      exact h
    | iUnsigned =>
      have h := moveToEol_span data t.wd (d0 + t.xd.length + 1 + t.yd.length + 1)
        e hbwd (fun c hc => isDig_ne c '\n' (hwd c hc) (by decide))
        (by omega) (Or.inr hnl)
      exact h
    | flt =>
      have h := moveToEol_span data []
        (d0 + t.xd.length + 1 + t.yd.length + 1 + t.wd.length) e
        (blockAt_nil data _) (by simp) (by simp; omega)
        (by simp only [List.length_nil, Nat.add_zero]; exact Or.inr hnl)
      simpa using h
  | false =>
    rw [renderRec_eq_false] at hb
    have hlen : d0 + (renderRec false t).length =
        d0 + t.xd.length + 1 + t.yd.length + 1 := by
      rw [renderRec_length]
      simp only [Bool.false_eq_true, if_false]
      omega
    rw [hlen] at hle
    have s1 := (blockAt_append data (t.xd ++ [' '] ++ t.yd) ['\n'] d0).mp hb
    have hnl : chAt data (d0 + t.xd.length + 1 + t.yd.length) = '\n' := by
      have hq : d0 + (t.xd ++ [' '] ++ t.yd).length =
          d0 + t.xd.length + 1 + t.yd.length := by
        simp only [List.length_append, List.length_singleton]
        omega
      have h0 := s1.2 0 (by simp)
      rw [hq] at h0
      simpa using h0
    have h := moveToEol_span data [] (d0 + t.xd.length + 1 + t.yd.length) e
      (blockAt_nil data _) (by simp) (by simp; omega)
      (by simp only [List.length_nil, Nat.add_zero]; exact Or.inr hnl)
    simpa using h

theorem genSetF_render (data : List Char) (k : WKind) (sym ut sl wgt : Bool)
    (e : Nat) (hbE : isDig (chAt data e) = true ∨ chAt data e = Char.ofNat 0) :
    ∀ (l : List RecTxt) (st : ScanSt) (d0 fuel : Nat),
    st.r = ⟨d0, e⟩ →
    (∀ t ∈ l, recWF wgt t = true) →
    BlockAt data d0 (renderInput wgt l) →
    d0 + (renderInput wgt l).length = e →
    e - d0 < fuel →
    genSetF data k sym ut sl wgt fuel st =
      (match splitKept sym ut sl l with
       | (ds, none) =>
         { st with
           ws := st.ws ++ (idealLogs sym ut sl wgt st.pos ds).2.2 ++
             (if wgt then [(st.pos, 0)] else [])
           r := ⟨e, e⟩ }
       | (ds, some (t, rest)) =>
         { xs := st.xs ++ (idealLogs sym ut sl wgt st.pos (ds ++ [t])).1,
           ys := st.ys ++ (idealLogs sym ut sl wgt st.pos (ds ++ [t])).2.1,
           ws := st.ws ++ (idealLogs sym ut sl wgt st.pos (ds ++ [t])).2.2,
           pos := st.pos + recEmits sym ut sl (digVal t.xd) (digVal t.yd),
           r := ⟨d0 + (renderInput wgt (ds ++ [t])).length, e⟩,
           maxRow := idealMaxR sym ut sl st.maxRow (ds ++ [t]),
           maxCol := idealMaxC sym ut sl st.maxCol (ds ++ [t]) }) := by
  intro l
  induction l with
  | nil =>
    intro st d0 fuel hr hwf hb hlen hfuel
    have hd0 : d0 = e := by
      rw [renderInput_nil] at hlen
      simpa using hlen
    subst hd0
    cases fuel with
    | zero => exact absurd hfuel (by omega)
    | succ f =>
      show genSetBody data sym ut sl wgt (genSetF data k sym ut sl wgt f)
          (readInt data st.r).1
          (readInt data (moveToNextInt data (readInt data st.r).2)).1
          (readWgtSet data wgt k st.pos st.ws
            (readInt data (moveToNextInt data (readInt data st.r).2)).2).1
          (readWgtSet data wgt k st.pos st.ws
            (readInt data (moveToNextInt data (readInt data st.r).2)).2).2
          st =
        { st with
          ws := st.ws ++ (idealLogs sym ut sl wgt st.pos []).2.2 ++
            (if wgt then [(st.pos, 0)] else [])
          r := ⟨d0, d0⟩ }
      rw [hr]
      have ee1 : readInt data ⟨d0, d0⟩ = (0, ⟨d0, d0⟩) := by
        have h := readInt_span data [] d0 d0 (blockAt_nil data d0) (by simp)
          (fun _ => rfl) (by simp) (by simp)
        simpa using h
      have ee2 : moveToNextInt data ⟨d0, d0⟩ = ⟨d0, d0⟩ := by
        have h := moveToNextInt_span data [] [] d0 d0 (blockAt_nil data d0)
          (by simp) (by simp) (by simp) (by simp) (by simp)
        simpa using h
      have ewr : readWgtSet data wgt k st.pos st.ws ⟨d0, d0⟩ =
          (st.ws ++ (if wgt then [(st.pos, 0)] else []), ⟨d0, d0⟩) := by
        cases wgt with
        | true => simpa using readWgtSet_end data k st.pos st.ws d0 hbE
        | false => simp [readWgtSet_false]
      simp only [ee1, ee2, ewr]
      unfold genSetBody
      rw [if_pos (by
        rw [(good_false (⟨d0, d0⟩ : Reader)).mpr (le_refl d0)]
        rfl)]
      simp [idealLogs_nil]
  | cons t rest ih =>
    intro st d0 fuel hr hwf hb hlen hfuel
    obtain ⟨hwx, hwy, hww⟩ := recWF_parts wgt t (hwf t (by simp))
    rw [renderInput_cons] at hb hlen
    have hsp := (blockAt_append data (renderRec wgt t) (renderInput wgt rest)
      d0).mp hb
    have hbr := hsp.1
    have hbrest := hsp.2
    rw [List.length_append] at hlen
    have hrp := renderRec_len_pos wgt t
    cases fuel with
    | zero => exact absurd hfuel (by omega)
    | succ f =>
      rw [genSetF_step data k sym ut sl wgt f t st d0 e hr hwx hwy hww hbr
        (by omega)]
      obtain ⟨_, _, _, _, _, hnl, hNL1⟩ :=
        parse_triple data k wgt st.pos st.ws t d0 e hwx hwy hww hbr (by omega)
      set NL := (if wgt then d0 + t.xd.length + 1 + t.yd.length + 1 + t.wd.length
        else d0 + t.xd.length + 1 + t.yd.length) with hNLdef
      have hNLlt : NL < e := by omega
      have hgood : (⟨NL, e⟩ : Reader).good = true := by
        rw [good_iff]
        exact hNLlt
      have hnext : NL + 1 = e ∨ isDig (chAt data (NL + 1)) = true := by
        cases hre : rest with
        | nil =>
          left
          rw [hre] at hlen
          rw [renderInput_nil] at hlen
          simp at hlen
          omega
        | cons t2 r2 =>
          right
          rw [hNL1]
          exact renderInput_first_digit data wgt rest
            (d0 + (renderRec wgt t).length)
            (by rw [hre]; simp) (fun u hu => hwf u (by simp [hu])) hbrest
      have hr6 : moveToNextInt data (moveToEol data ⟨NL, e⟩) = ⟨NL + 1, e⟩ :=
        afterRec_move data NL e hnl hNLlt hnext
      by_cases hdp : recDrop sym ut sl (digVal t.xd) (digVal t.yd) = true
      · rw [genSetBody_drop data sym ut sl wgt (genSetF data k sym ut sl wgt f)
          (digVal t.xd) (digVal t.yd)
          (st.ws ++ (if wgt then [(st.pos, ((digVal t.wd : Nat) : ℚ))] else []))
          ⟨NL, e⟩ st hdp hgood, hr6, hNL1]
        rw [ih { st with
              ws := st.ws ++
                (if wgt then [(st.pos, ((digVal t.wd : Nat) : ℚ))] else [])
              r := ⟨d0 + (renderRec wgt t).length, e⟩ }
          (d0 + (renderRec wgt t).length) f rfl
          (fun u hu => hwf u (by simp [hu])) hbrest (by omega) (by omega)]
        rw [splitKept_drop sym ut sl t rest hdp]
        rcases hsk : splitKept sym ut sl rest with ⟨ds, o⟩
        cases o with
        | none =>
          show { st with
              ws := (st.ws ++
                (if wgt then [(st.pos, ((digVal t.wd : Nat) : ℚ))] else [])) ++
                (idealLogs sym ut sl wgt st.pos ds).2.2 ++
                (if wgt then [(st.pos, 0)] else [])
              r := ⟨e, e⟩ } =
            { st with
              ws := st.ws ++ (idealLogs sym ut sl wgt st.pos (t :: ds)).2.2 ++
                (if wgt then [(st.pos, 0)] else [])
              r := ⟨e, e⟩ }
          rw [idealLogs_drop sym ut sl wgt st.pos t ds hdp]
          simp [List.append_assoc]
        | some tp =>
          rcases tp with ⟨t2, rest2⟩
          show ScanSt.mk
              (st.xs ++ (idealLogs sym ut sl wgt st.pos (ds ++ [t2])).1)
              (st.ys ++ (idealLogs sym ut sl wgt st.pos (ds ++ [t2])).2.1)
              ((st.ws ++
                (if wgt then [(st.pos, ((digVal t.wd : Nat) : ℚ))] else [])) ++
                (idealLogs sym ut sl wgt st.pos (ds ++ [t2])).2.2)
              (st.pos + recEmits sym ut sl (digVal t2.xd) (digVal t2.yd))
              ⟨d0 + (renderRec wgt t).length +
                (renderInput wgt (ds ++ [t2])).length, e⟩
              (idealMaxR sym ut sl st.maxRow (ds ++ [t2]))
              (idealMaxC sym ut sl st.maxCol (ds ++ [t2])) =
            ScanSt.mk
              (st.xs ++ (idealLogs sym ut sl wgt st.pos (t :: ds ++ [t2])).1)
              (st.ys ++ (idealLogs sym ut sl wgt st.pos (t :: ds ++ [t2])).2.1)
              (st.ws ++ (idealLogs sym ut sl wgt st.pos (t :: ds ++ [t2])).2.2)
              (st.pos + recEmits sym ut sl (digVal t2.xd) (digVal t2.yd))
              ⟨d0 + (renderInput wgt (t :: ds ++ [t2])).length, e⟩
              (idealMaxR sym ut sl st.maxRow (t :: ds ++ [t2]))
              (idealMaxC sym ut sl st.maxCol (t :: ds ++ [t2]))
          rw [show (t :: ds ++ [t2]) = t :: (ds ++ [t2]) from rfl,
            idealLogs_drop sym ut sl wgt st.pos t (ds ++ [t2]) hdp,
            idealMaxR_drop sym ut sl st.maxRow t (ds ++ [t2]) hdp,
            idealMaxC_drop sym ut sl st.maxCol t (ds ++ [t2]) hdp,
            renderInput_cons wgt t (ds ++ [t2])]
          simp [List.append_assoc, List.length_append, Nat.add_assoc]
      · simp only [Bool.not_eq_true] at hdp
        rw [genSetBody_keep data sym ut sl wgt (genSetF data k sym ut sl wgt f)
          (digVal t.xd) (digVal t.yd)
          (st.ws ++ (if wgt then [(st.pos, ((digVal t.wd : Nat) : ℚ))] else []))
          ⟨NL, e⟩ st hdp hgood, hr6,
          emitKept_eq sym ut sl wgt t ⟨NL + 1, e⟩ st hdp,
          splitKept_keep sym ut sl t rest hdp, hNL1]
        show ScanSt.mk
            (st.xs ++ (idealLogs sym ut sl wgt st.pos [t]).1)
            (st.ys ++ (idealLogs sym ut sl wgt st.pos [t]).2.1)
            (st.ws ++ (idealLogs sym ut sl wgt st.pos [t]).2.2)
            (st.pos + recEmits sym ut sl (digVal t.xd) (digVal t.yd))
            ⟨d0 + (renderRec wgt t).length, e⟩
            (idealMaxR sym ut sl st.maxRow [t])
            (idealMaxC sym ut sl st.maxCol [t]) =
          ScanSt.mk
            (st.xs ++ (idealLogs sym ut sl wgt st.pos ([] ++ [t])).1)
            (st.ys ++ (idealLogs sym ut sl wgt st.pos ([] ++ [t])).2.1)
            (st.ws ++ (idealLogs sym ut sl wgt st.pos ([] ++ [t])).2.2)
            (st.pos + recEmits sym ut sl (digVal t.xd) (digVal t.yd))
            ⟨d0 + (renderInput wgt ([] ++ [t])).length, e⟩
            (idealMaxR sym ut sl st.maxRow ([] ++ [t]))
            (idealMaxC sym ut sl st.maxCol ([] ++ [t]))
        simp [renderInput_cons, renderInput_nil]

theorem genCountF_render (data : List Char) (k : WKind) (sym ut sl wgt : Bool)
    (e : Nat) (hbE : isDig (chAt data e) = true ∨ chAt data e = Char.ofNat 0) :
    ∀ (l : List RecTxt) (st : ScanSt) (d0 fuel : Nat),
    st.r = ⟨d0, e⟩ →
    (∀ t ∈ l, recWF wgt t = true) →
    BlockAt data d0 (renderInput wgt l) →
    d0 + (renderInput wgt l).length = e →
    e - d0 < fuel →
    genCountF data k sym ut sl wgt fuel st =
      (match splitKept sym ut sl l with
       | (ds, none) => { st with r := ⟨e, e⟩ }
       | (ds, some (t, rest)) =>
         { st with
           pos := st.pos + recEmits sym ut sl (digVal t.xd) (digVal t.yd)
           r := ⟨d0 + (renderInput wgt (ds ++ [t])).length, e⟩ }) := by
  intro l
  induction l with
  | nil =>
    intro st d0 fuel hr hwf hb hlen hfuel
    have hd0 : d0 = e := by
      rw [renderInput_nil] at hlen
      simpa using hlen
    subst hd0
    cases fuel with
    | zero => exact absurd hfuel (by omega)
    | succ f =>
      show genCountBody data sym ut sl (genCountF data k sym ut sl wgt f)
          (readInt data st.r).1
          (readInt data (moveToNextInt data (readInt data st.r).2)).1
          (readWgtCount data wgt k
            (readInt data (moveToNextInt data (readInt data st.r).2)).2) st =
        { st with r := ⟨d0, d0⟩ }
      rw [hr]
      have ee1 : readInt data ⟨d0, d0⟩ = (0, ⟨d0, d0⟩) := by
        have h := readInt_span data [] d0 d0 (blockAt_nil data d0) (by simp)
          (fun _ => rfl) (by simp) (by simp)
        simpa using h
      have ee2 : moveToNextInt data ⟨d0, d0⟩ = ⟨d0, d0⟩ := by
        have h := moveToNextInt_span data [] [] d0 d0 (blockAt_nil data d0)
          (by simp) (by simp) (by simp) (by simp) (by simp)
        simpa using h
      have ewc : readWgtCount data wgt k ⟨d0, d0⟩ = ⟨d0, d0⟩ := by
        cases wgt with
        | true => exact readWgtCount_end data k d0 hbE
        | false => rfl
      simp only [ee1, ee2, ewc]
      unfold genCountBody
      rw [if_pos (by
        rw [(good_false (⟨d0, d0⟩ : Reader)).mpr (le_refl d0)]
        rfl)]
  | cons t rest ih =>
    intro st d0 fuel hr hwf hb hlen hfuel
    obtain ⟨hwx, hwy, hww⟩ := recWF_parts wgt t (hwf t (by simp))
    rw [renderInput_cons] at hb hlen
    have hsp := (blockAt_append data (renderRec wgt t) (renderInput wgt rest)
      d0).mp hb
    have hbr := hsp.1
    have hbrest := hsp.2
    rw [List.length_append] at hlen
    have hrp := renderRec_len_pos wgt t
    cases fuel with
    | zero => exact absurd hfuel (by omega)
    | succ f =>
      rw [genCountF_step data k sym ut sl wgt f t st d0 e hr hwx hwy hww hbr
        (by omega)]
      obtain ⟨_, _, _, _, _, hnl, hNL1⟩ :=
        parse_triple data k wgt st.pos st.ws t d0 e hwx hwy hww hbr (by omega)
      have hEol := countEol data k wgt t d0 e hwy hww hbr (by omega)
      have hCPle : (if wgt then
          cntPos k (d0 + t.xd.length + 1 + t.yd.length + 1)
            (d0 + t.xd.length + 1 + t.yd.length + 1 + t.wd.length)
        else d0 + t.xd.length + 1 + t.yd.length) ≤
        (if wgt then d0 + t.xd.length + 1 + t.yd.length + 1 + t.wd.length
          else d0 + t.xd.length + 1 + t.yd.length) := by
        cases wgt with
        | true =>
          cases k with
          | iSigned => simp [cntPos]
          | iUnsigned => simp [cntPos]
          | flt => simp [cntPos]
        | false => simp
      set NL := (if wgt then d0 + t.xd.length + 1 + t.yd.length + 1 + t.wd.length
        else d0 + t.xd.length + 1 + t.yd.length) with hNLdef
      set CP := (if wgt then
          cntPos k (d0 + t.xd.length + 1 + t.yd.length + 1)
            (d0 + t.xd.length + 1 + t.yd.length + 1 + t.wd.length)
        else d0 + t.xd.length + 1 + t.yd.length) with hCPdef
      have hNLlt : NL < e := by omega
      have hgood : (⟨CP, e⟩ : Reader).good = true := by
        rw [good_iff]
        show CP < e
        omega
      have hnext : NL + 1 = e ∨ isDig (chAt data (NL + 1)) = true := by
        cases hre : rest with
        | nil =>
          left
          rw [hre] at hlen
          rw [renderInput_nil] at hlen
          simp at hlen
          omega
        | cons t2 r2 =>
          right
          rw [hNL1]
          exact renderInput_first_digit data wgt rest
            (d0 + (renderRec wgt t).length)
            (by rw [hre]; simp) (fun u hu => hwf u (by simp [hu])) hbrest
      have hmv : moveToNextInt data ⟨NL, e⟩ = ⟨NL + 1, e⟩ :=
        afterNl_move data NL e hnl hNLlt hnext
      by_cases hdp : recDrop sym ut sl (digVal t.xd) (digVal t.yd) = true
      · rw [genCountBody_drop data sym ut sl (genCountF data k sym ut sl wgt f)
          (digVal t.xd) (digVal t.yd) ⟨CP, e⟩ st hdp hgood, hEol, hmv, hNL1]
        rw [ih { st with r := ⟨d0 + (renderRec wgt t).length, e⟩ }
          (d0 + (renderRec wgt t).length) f rfl
          (fun u hu => hwf u (by simp [hu])) hbrest (by omega) (by omega)]
        rw [splitKept_drop sym ut sl t rest hdp]
        rcases hsk : splitKept sym ut sl rest with ⟨ds, o⟩
        cases o with
        | none => rfl
        | some tp =>
          rcases tp with ⟨t2, rest2⟩
          show { st with
              pos := st.pos + recEmits sym ut sl (digVal t2.xd) (digVal t2.yd)
              r := ⟨d0 + (renderRec wgt t).length +
                (renderInput wgt (ds ++ [t2])).length, e⟩ } =
            { st with
              pos := st.pos + recEmits sym ut sl (digVal t2.xd) (digVal t2.yd)
              r := ⟨d0 + (renderInput wgt (t :: ds ++ [t2])).length, e⟩ }
          rw [show (t :: ds ++ [t2]) = t :: (ds ++ [t2]) from rfl,
            renderInput_cons wgt t (ds ++ [t2])]
          simp [List.length_append, Nat.add_assoc]
      · simp only [Bool.not_eq_true] at hdp
        rw [genCountBody_keep data sym ut sl (genCountF data k sym ut sl wgt f)
          (digVal t.xd) (digVal t.yd) ⟨CP, e⟩ st hdp hgood, hEol, hmv, hNL1,
          splitKept_keep sym ut sl t rest hdp]
        show { st with
            r := ⟨d0 + (renderRec wgt t).length, e⟩
            pos := st.pos + recEmits sym ut sl (digVal t.xd) (digVal t.yd) } =
          { st with
            pos := st.pos + recEmits sym ut sl (digVal t.xd) (digVal t.yd)
            r := ⟨d0 + (renderInput wgt ([] ++ [t])).length, e⟩ }
        simp [renderInput_cons, renderInput_nil]

end Pigo

namespace Pigo

theorem scanLoopF_stuck (step : ScanSt → ScanSt) :
    ∀ (fuel : Nat) (st : ScanSt), st.r.good = false →
    scanLoopF step fuel st = st := by
  intro fuel st h
  cases fuel with
  | zero => rfl
  | succ f =>
    unfold scanLoopF
    rw [h]
    simp

theorem splitKept_some (sym ut sl : Bool) :
    ∀ (l ds : List RecTxt) (t2 : RecTxt) (r2 : List RecTxt),
    splitKept sym ut sl l = (ds, some (t2, r2)) →
    l = ds ++ t2 :: r2 ∧
    (∀ u ∈ ds, recDrop sym ut sl (digVal u.xd) (digVal u.yd) = true) ∧
    recDrop sym ut sl (digVal t2.xd) (digVal t2.yd) = false := by
  intro l
  induction l with
  | nil =>
    intro ds t2 r2 h
    rw [splitKept_nil] at h
    simp at h
  | cons t rest ih =>
    intro ds t2 r2 h
    by_cases hd : recDrop sym ut sl (digVal t.xd) (digVal t.yd) = true
    · rw [splitKept_drop sym ut sl t rest hd] at h
      rcases hs : splitKept sym ut sl rest with ⟨ds2, o2⟩
      rw [hs] at h
      simp only [Prod.mk.injEq] at h
      obtain ⟨ih1, ih2, ih3⟩ := ih ds2 t2 r2 (by rw [hs, h.2])
      refine ⟨?_, ?_, ih3⟩
      · rw [← h.1, ih1]
        rfl
      · intro u hu
        rw [← h.1] at hu
        rcases List.mem_cons.mp hu with hu | hu
        · rw [hu]
          exact hd
        · exact ih2 u hu
    · simp only [Bool.not_eq_true] at hd
      rw [splitKept_keep sym ut sl t rest hd] at h
      simp only [Prod.mk.injEq, Option.some.injEq] at h
      obtain ⟨h1, h2, h3⟩ := h
      refine ⟨?_, ?_, ?_⟩
      · rw [← h1, ← h2, ← h3]
        rfl
      · intro u hu
        rw [← h1] at hu
        simp at hu
      · rw [← h2]
        exact hd

theorem splitKept_none_eq (sym ut sl : Bool) :
    ∀ (l ds : List RecTxt),
    splitKept sym ut sl l = (ds, none) →
    ds = l ∧ (∀ u ∈ l, recDrop sym ut sl (digVal u.xd) (digVal u.yd) = true) := by
  intro l
  induction l with
  | nil =>
    intro ds h
    rw [splitKept_nil] at h
    simp only [Prod.mk.injEq] at h
    exact ⟨h.1.symm, by simp⟩
  | cons t rest ih =>
    intro ds h
    by_cases hd : recDrop sym ut sl (digVal t.xd) (digVal t.yd) = true
    · rw [splitKept_drop sym ut sl t rest hd] at h
      rcases hs : splitKept sym ut sl rest with ⟨ds2, o2⟩
      rw [hs] at h
      simp only [Prod.mk.injEq] at h
      obtain ⟨ih1, ih2⟩ := ih ds2 (by rw [hs, h.2])
      constructor
      · rw [← h.1, ih1]
      · intro u hu
        rcases List.mem_cons.mp hu with hu | hu
        · rw [hu]
          exact hd
        · exact ih2 u hu
    · simp only [Bool.not_eq_true] at hd
      rw [splitKept_keep sym ut sl t rest hd] at h
      simp at h

theorem dropped_emits (sym ut sl : Bool) :
    ∀ (ds : List RecTxt),
    (∀ u ∈ ds, recDrop sym ut sl (digVal u.xd) (digVal u.yd) = true) →
    emitsSum sym ut sl ds = 0 := by
  intro ds
  induction ds with
  | nil => intro _; rfl
  | cons t rest ih =>
    intro h
    rw [emitsSum_cons, recEmits_drop sym ut sl _ _ (h t (by simp)),
      ih (fun u hu => h u (by simp [hu]))]

theorem dropped_logs (sym ut sl wgt : Bool) :
    ∀ (ds : List RecTxt) (p : Nat),
    (∀ u ∈ ds, recDrop sym ut sl (digVal u.xd) (digVal u.yd) = true) →
    (idealLogs sym ut sl wgt p ds).1 = [] ∧
    (idealLogs sym ut sl wgt p ds).2.1 = [] := by
  intro ds
  induction ds with
  | nil => intro p _; exact ⟨rfl, rfl⟩
  | cons t rest ih =>
    intro p h
    rw [idealLogs_drop sym ut sl wgt p t rest (h t (by simp))]
    exact ih p (fun u hu => h u (by simp [hu]))

theorem dropped_maxR (sym ut sl : Bool) :
    ∀ (ds : List RecTxt) (a : Nat),
    (∀ u ∈ ds, recDrop sym ut sl (digVal u.xd) (digVal u.yd) = true) →
    idealMaxR sym ut sl a ds = a := by
  intro ds
  induction ds with
  | nil => intro a _; rfl
  | cons t rest ih =>
    intro a h
    rw [idealMaxR_drop sym ut sl a t rest (h t (by simp)),
      ih a (fun u hu => h u (by simp [hu]))]

theorem dropped_maxC (sym ut sl : Bool) :
    ∀ (ds : List RecTxt) (a : Nat),
    (∀ u ∈ ds, recDrop sym ut sl (digVal u.xd) (digVal u.yd) = true) →
    idealMaxC sym ut sl a ds = a := by
  intro ds
  induction ds with
  | nil => intro a _; rfl
  | cons t rest ih =>
    intro a h
    rw [idealMaxC_drop sym ut sl a t rest (h t (by simp)),
      ih a (fun u hu => h u (by simp [hu]))]

theorem lastDropped_of_dropped (sym ut sl : Bool) :
    ∀ (l : List RecTxt), l ≠ [] →
    (∀ u ∈ l, recDrop sym ut sl (digVal u.xd) (digVal u.yd) = true) →
    lastDropped sym ut sl l = true := by
  intro l
  induction l with
  | nil => intro h _; exact absurd rfl h
  | cons t rest ih =>
    intro _ h
    cases rest with
    | nil =>
      rw [lastDropped_single]
      exact h t (by simp)
    | cons t2 r2 =>
      rw [lastDropped_cons2]
      exact ih (by simp) (fun u hu => h u (by simp [hu]))

theorem nfSetBody_keep (data : List Char) (x y : Nat)
    (ws1 : List (Nat × ℚ)) (r4 : Reader) (st : ScanSt)
    (hg : r4.good = true) :
    nfSetBody data x y ws1 r4 st =
      { st with
        xs := st.xs ++ [(st.pos, x)]
        ys := st.ys ++ [(st.pos, y)]
        ws := ws1
        pos := st.pos + 1
        r := moveToNextInt data (moveToEol data r4)
        maxRow := if decide (st.maxRow < x) then x else st.maxRow
        maxCol := if decide (st.maxCol < y) then y else st.maxCol } := by
  unfold nfSetBody
  rw [if_neg (by rw [hg]; simp)]

end Pigo

namespace Pigo

theorem renderInput_pos (wgt : Bool) (l : List RecTxt) (h : l ≠ []) :
    0 < (renderInput wgt l).length := by
  cases l with
  | nil => exact absurd rfl h
  | cons t rest =>
    rw [renderInput_cons, List.length_append]
    have := renderRec_len_pos wgt t
    omega

theorem idealMaxR_append (sym ut sl : Bool) :
    ∀ (l1 l2 : List RecTxt) (a : Nat),
    idealMaxR sym ut sl a (l1 ++ l2) =
      idealMaxR sym ut sl (idealMaxR sym ut sl a l1) l2 := by
  intro l1
  induction l1 with
  | nil =>
    intro l2 a
    rw [List.nil_append, idealMaxR_nil]
  | cons t l1 ih =>
    intro l2 a
    by_cases hd : recDrop sym ut sl (digVal t.xd) (digVal t.yd) = true
    · rw [List.cons_append, idealMaxR_drop sym ut sl a t (l1 ++ l2) hd,
        idealMaxR_drop sym ut sl a t l1 hd]
      exact ih l2 a
    · simp only [Bool.not_eq_true] at hd
      rw [List.cons_append, idealMaxR_keep sym ut sl a t (l1 ++ l2) hd,
        idealMaxR_keep sym ut sl a t l1 hd]
      exact ih l2 _

theorem idealMaxC_append (sym ut sl : Bool) :
    ∀ (l1 l2 : List RecTxt) (a : Nat),
    idealMaxC sym ut sl a (l1 ++ l2) =
      idealMaxC sym ut sl (idealMaxC sym ut sl a l1) l2 := by
  intro l1
  induction l1 with
  | nil =>
    intro l2 a
    rw [List.nil_append, idealMaxC_nil]
  | cons t l1 ih =>
    intro l2 a
    by_cases hd : recDrop sym ut sl (digVal t.xd) (digVal t.yd) = true
    · rw [List.cons_append, idealMaxC_drop sym ut sl a t (l1 ++ l2) hd,
        idealMaxC_drop sym ut sl a t l1 hd]
      exact ih l2 a
    · simp only [Bool.not_eq_true] at hd
      rw [List.cons_append, idealMaxC_keep sym ut sl a t (l1 ++ l2) hd,
        idealMaxC_keep sym ut sl a t l1 hd]
      exact ih l2 _

theorem lastDropped_glue (sym ut sl : Bool) (ds : List RecTxt) (t2 : RecTxt)
    (rest2 : List RecTxt)
    (hk : recDrop sym ut sl (digVal t2.xd) (digVal t2.yd) = false) :
    lastDropped sym ut sl ((ds ++ [t2]) ++ rest2) =
      lastDropped sym ut sl rest2 := by
  cases rest2 with
  | nil =>
    rw [List.append_nil, lastDropped_append_cons sym ut sl t2 ds [],
      lastDropped_single, hk, lastDropped_nil]
  | cons r0 r0s =>
    rw [lastDropped_append_cons sym ut sl r0 (ds ++ [t2]) r0s]

theorem idealTrail_glue (sym ut sl wgt : Bool) (ds : List RecTxt) (t2 : RecTxt)
    (rest2 : List RecTxt)
    (hk : recDrop sym ut sl (digVal t2.xd) (digVal t2.yd) = false) (p : Nat) :
    idealTrail sym ut sl wgt ((ds ++ [t2]) ++ rest2) p =
      idealTrail sym ut sl wgt rest2 p := by
  unfold idealTrail
  rw [lastDropped_glue sym ut sl ds t2 rest2 hk]

theorem scanLoopF_succ (step : ScanSt → ScanSt) (fuel : Nat) (st : ScanSt) :
    scanLoopF step (fuel + 1) st =
      if st.r.good then scanLoopF step fuel (step st) else st := rfl

theorem scanSet_render (data : List Char) (k : WKind) (sym ut sl wgt : Bool)
    (e : Nat) (hbE : isDig (chAt data e) = true ∨ chAt data e = Char.ofNat 0) :
    ∀ (n : Nat) (l : List RecTxt), l.length ≤ n →
    ∀ (st : ScanSt) (d0 fuel : Nat),
    st.r = ⟨d0, e⟩ →
    (∀ t ∈ l, recWF wgt t = true) →
    BlockAt data d0 (renderInput wgt l) →
    d0 + (renderInput wgt l).length = e →
    e - d0 < fuel →
    scanLoopF (stepSet data k sym ut sl wgt) fuel st =
      { st with
        xs := st.xs ++ (idealLogs sym ut sl wgt st.pos l).1
        ys := st.ys ++ (idealLogs sym ut sl wgt st.pos l).2.1
        ws := st.ws ++ (idealLogs sym ut sl wgt st.pos l).2.2 ++
          idealTrail sym ut sl wgt l (st.pos + emitsSum sym ut sl l)
        pos := st.pos + emitsSum sym ut sl l
        r := ⟨e, e⟩
        maxRow := idealMaxR sym ut sl st.maxRow l
        maxCol := idealMaxC sym ut sl st.maxCol l } := by
  intro n
  induction n with
  | zero =>
    intro l hln st d0 fuel hr hwf hb hlen hfuel
    have hl0 : l = [] := List.length_eq_zero.mp (Nat.le_zero.mp hln)
    subst hl0
    have hd0 : d0 = e := by
      rw [renderInput_nil] at hlen
      simpa using hlen
    subst hd0
    rw [scanLoopF_stuck (stepSet data k sym ut sl wgt) fuel st
      (by rw [hr, good_false])]
    rw [← hr]
    simp [idealLogs_nil, emitsSum_nil, idealTrail, lastDropped_nil,
      idealMaxR_nil, idealMaxC_nil]
  | succ n ihn =>
    intro l hln st d0 fuel hr hwf hb hlen hfuel
    cases l with
    | nil =>
      have hd0 : d0 = e := by
        rw [renderInput_nil] at hlen
        simpa using hlen
      subst hd0
      rw [scanLoopF_stuck (stepSet data k sym ut sl wgt) fuel st
        (by rw [hr, good_false])]
      rw [← hr]
      simp [idealLogs_nil, emitsSum_nil, idealTrail, lastDropped_nil,
        idealMaxR_nil, idealMaxC_nil]
    | cons t rest =>
      obtain ⟨hwx, hwy, hww⟩ := recWF_parts wgt t (hwf t (by simp))
      have hbC : BlockAt data d0 (renderRec wgt t ++ renderInput wgt rest) := by
        rw [← renderInput_cons]
        exact hb
      have hsp := (blockAt_append data (renderRec wgt t) (renderInput wgt rest)
        d0).mp hbC
      have hlenC : d0 + ((renderRec wgt t).length +
          (renderInput wgt rest).length) = e := by
        rw [← List.length_append, ← renderInput_cons]
        exact hlen
      have hrp := renderRec_len_pos wgt t
      have hgood : st.r.good = true := by
        rw [hr, good_iff]
        show d0 < e
        omega
      cases fuel with
      | zero => exact absurd hfuel (by omega)
      | succ f =>
        rw [scanLoopF_succ, if_pos hgood]
        rcases hsk : splitKept sym ut sl (t :: rest) with ⟨ds, o⟩
        cases o with
        | none =>
          obtain ⟨hds, hall⟩ := splitKept_none_eq sym ut sl (t :: rest) ds hsk
          subst hds
          have hstep : stepSet data k sym ut sl wgt st =
              { st with
                ws := st.ws ++ (idealLogs sym ut sl wgt st.pos (t :: rest)).2.2 ++
                  (if wgt then [(st.pos, 0)] else [])
                r := ⟨e, e⟩ } := by
            by_cases hnf : (sym == false && ut == false && sl == false) = true
            · exfalso
              simp only [Bool.and_eq_true, beq_iff_eq] at hnf
              obtain ⟨⟨hsym, hut⟩, hsl⟩ := hnf
              subst hsym
              subst hut
              subst hsl
              have hdt : recDrop false false false (digVal t.xd) (digVal t.yd) =
                  false := by
                simp [recDrop]
              rw [splitKept_keep false false false t rest hdt] at hsk
              simp at hsk
            · have hg := genSetF_render data k sym ut sl wgt e hbE (t :: rest)
                st d0 (st.r.e - st.r.d + 1) hr hwf hb hlen
                (by rw [hr]; show e - d0 < e - d0 + 1; omega)
              rw [hsk] at hg
              unfold stepSet
              rw [if_neg hnf]
              exact hg
          rw [hstep]
          refine Eq.trans
            (scanLoopF_stuck (stepSet data k sym ut sl wgt) f _ ?_) ?_
          · exact (good_false _).mpr (le_refl e)
          · have he0 := dropped_emits sym ut sl (t :: rest) hall
            have hlg := dropped_logs sym ut sl wgt (t :: rest) st.pos hall
            have hmr := dropped_maxR sym ut sl (t :: rest) st.maxRow hall
            have hmc := dropped_maxC sym ut sl (t :: rest) st.maxCol hall
            have hld := lastDropped_of_dropped sym ut sl (t :: rest)
              (by simp) hall
            simp [he0, hlg.1, hlg.2, hmr, hmc, hld, idealTrail]
        | some tp =>
          rcases tp with ⟨t2, rest2⟩
          obtain ⟨hleq, hallds, hkt2⟩ :=
            splitKept_some sym ut sl (t :: rest) ds t2 rest2 hsk
          have hleq2 : t :: rest = (ds ++ [t2]) ++ rest2 := by
            rw [hleq]
            simp
          have hlen2 : rest2.length ≤ n := by
            have hc := congrArg List.length hleq
            simp only [List.length_cons, List.length_append] at hc
            simp only [List.length_cons] at hln
            omega
          have hdne : ds ++ [t2] ≠ [] := by simp
          have hdecomp : renderInput wgt (t :: rest) =
              renderInput wgt (ds ++ [t2]) ++ renderInput wgt rest2 := by
            rw [← renderInput_append, ← hleq2]
          have hsp2 := (blockAt_append data (renderInput wgt (ds ++ [t2]))
            (renderInput wgt rest2) d0).mp (by rw [← hdecomp]; exact hb)
          have hlen3 : d0 + (renderInput wgt (ds ++ [t2])).length +
              (renderInput wgt rest2).length = e := by
            have hc := congrArg List.length hdecomp
            rw [List.length_append] at hc
            have hc2 : (renderInput wgt (t :: rest)).length =
                (renderInput wgt (ds ++ [t2])).length +
                  (renderInput wgt rest2).length := hc
            omega
          have hd1pos := renderInput_pos wgt (ds ++ [t2]) hdne
          have hemits : emitsSum sym ut sl (ds ++ [t2]) =
              recEmits sym ut sl (digVal t2.xd) (digVal t2.yd) := by
            rw [emitsSum_append, dropped_emits sym ut sl ds hallds,
              emitsSum_cons, emitsSum_nil]
            omega
          have hstep : stepSet data k sym ut sl wgt st =
              ScanSt.mk
                (st.xs ++ (idealLogs sym ut sl wgt st.pos (ds ++ [t2])).1)
                (st.ys ++ (idealLogs sym ut sl wgt st.pos (ds ++ [t2])).2.1)
                (st.ws ++ (idealLogs sym ut sl wgt st.pos (ds ++ [t2])).2.2)
                (st.pos + recEmits sym ut sl (digVal t2.xd) (digVal t2.yd))
                ⟨d0 + (renderInput wgt (ds ++ [t2])).length, e⟩
                (idealMaxR sym ut sl st.maxRow (ds ++ [t2]))
                (idealMaxC sym ut sl st.maxCol (ds ++ [t2])) := by
            by_cases hnf : (sym == false && ut == false && sl == false) = true
            · simp only [Bool.and_eq_true, beq_iff_eq] at hnf
              obtain ⟨⟨hsym, hut⟩, hsl⟩ := hnf
              subst hsym
              subst hut
              subst hsl
              have hdt : recDrop false false false (digVal t.xd) (digVal t.yd) =
                  false := by
                simp [recDrop]
              rw [splitKept_keep false false false t rest hdt] at hsk
              simp only [Prod.mk.injEq, Option.some.injEq] at hsk
              obtain ⟨hds0, hts, hrs⟩ := hsk
              subst hds0
              subst hts
              subst hrs
              unfold stepSet
              rw [if_pos (by decide)]
              rw [nfSet_step data k wgt t st d0 e hr hwx hwy hww hsp.1
                (by omega)]
              obtain ⟨_, _, _, _, _, hnl, hNL1⟩ :=
                parse_triple data k wgt st.pos st.ws t d0 e hwx hwy hww hsp.1
                  (by omega)
              set NL := (if wgt then
                  d0 + t.xd.length + 1 + t.yd.length + 1 + t.wd.length
                else d0 + t.xd.length + 1 + t.yd.length) with hNLdef
              have hNLlt : NL < e := by omega
              have hnext : NL + 1 = e ∨ isDig (chAt data (NL + 1)) = true := by
                cases hre : rest with
                | nil =>
                  left
                  rw [hre, renderInput_nil] at hlenC
                  simp at hlenC
                  omega
                | cons t3 r3 =>
                  right
                  rw [hNL1]
                  exact renderInput_first_digit data wgt rest
                    (d0 + (renderRec wgt t).length)
                    (by rw [hre]; simp) (fun u hu => hwf u (by simp [hu])) hsp.2
              rw [nfSetBody_keep data (digVal t.xd) (digVal t.yd)
                (st.ws ++ (if wgt then [(st.pos, ((digVal t.wd : Nat) : ℚ))]
                  else [])) ⟨NL, e⟩ st (by rw [good_iff]; exact hNLlt)]
              rw [afterRec_move data NL e hnl hNLlt hnext, hNL1]
              have hmf : recMirror false false (digVal t.xd) (digVal t.yd) =
                  false := by
                simp [recMirror]
              rw [List.nil_append,
                idealLogs_plain false false false wgt st.pos t [] hdt hmf,
                recEmits_plain false false false (digVal t.xd) (digVal t.yd)
                  hdt hmf,
                idealMaxR_keep false false false st.maxRow t [] hdt,
                idealMaxC_keep false false false st.maxCol t [] hdt]
              simp [swapXY, idealLogs_nil, idealMaxR_nil, idealMaxC_nil,
                renderInput_cons, renderInput_nil]
            · have hg := genSetF_render data k sym ut sl wgt e hbE (t :: rest)
                st d0 (st.r.e - st.r.d + 1) hr hwf hb hlen
                (by rw [hr]; show e - d0 < e - d0 + 1; omega)
              rw [hsk] at hg
              unfold stepSet
              rw [if_neg hnf]
              exact hg
          rw [hstep]
          refine Eq.trans (ihn rest2 hlen2 _
            (d0 + (renderInput wgt (ds ++ [t2])).length) f ?_ ?_ ?_ ?_ ?_) ?_
          · exact rfl
          · exact fun u hu => hwf u (by rw [hleq2]; simp [hu])
          · exact hsp2.2
          · omega
          · omega
          · rw [hleq2,
              idealLogs_append sym ut sl wgt (ds ++ [t2]) rest2 st.pos,
              emitsSum_append sym ut sl (ds ++ [t2]) rest2,
              idealMaxR_append sym ut sl (ds ++ [t2]) rest2 st.maxRow,
              idealMaxC_append sym ut sl (ds ++ [t2]) rest2 st.maxCol,
              idealTrail_glue sym ut sl wgt ds t2 rest2 hkt2,
              hemits]
            simp [List.append_assoc, Nat.add_assoc]

theorem scanCount_render (data : List Char) (k : WKind) (sym ut sl wgt : Bool)
    (e : Nat) (hbE : isDig (chAt data e) = true ∨ chAt data e = Char.ofNat 0) :
    ∀ (n : Nat) (l : List RecTxt), l.length ≤ n →
    ∀ (st : ScanSt) (d0 fuel : Nat),
    st.r = ⟨d0, e⟩ →
    (∀ t ∈ l, recWF wgt t = true) →
    BlockAt data d0 (renderInput wgt l) →
    d0 + (renderInput wgt l).length = e →
    e - d0 < fuel →
    scanLoopF (stepCount data k sym ut sl wgt) fuel st =
      { st with
        pos := st.pos + emitsSum sym ut sl l
        r := ⟨e, e⟩ } := by
  intro n
  induction n with
  | zero =>
    intro l hln st d0 fuel hr hwf hb hlen hfuel
    have hl0 : l = [] := List.length_eq_zero.mp (Nat.le_zero.mp hln)
    subst hl0
    have hd0 : d0 = e := by
      rw [renderInput_nil] at hlen
      simpa using hlen
    subst hd0
    rw [scanLoopF_stuck (stepCount data k sym ut sl wgt) fuel st
      (by rw [hr, good_false])]
    rw [← hr]
    simp [emitsSum_nil]
  | succ n ihn =>
    intro l hln st d0 fuel hr hwf hb hlen hfuel
    cases l with
    | nil =>
      have hd0 : d0 = e := by
        rw [renderInput_nil] at hlen
        simpa using hlen
      subst hd0
      rw [scanLoopF_stuck (stepCount data k sym ut sl wgt) fuel st
        (by rw [hr, good_false])]
      rw [← hr]
      simp [emitsSum_nil]
    | cons t rest =>
      obtain ⟨hwx, hwy, hww⟩ := recWF_parts wgt t (hwf t (by simp))
      have hbC : BlockAt data d0 (renderRec wgt t ++ renderInput wgt rest) := by
        rw [← renderInput_cons]
        exact hb
      have hsp := (blockAt_append data (renderRec wgt t) (renderInput wgt rest)
        d0).mp hbC
      have hlenC : d0 + ((renderRec wgt t).length +
          (renderInput wgt rest).length) = e := by
        rw [← List.length_append, ← renderInput_cons]
        exact hlen
      have hrp := renderRec_len_pos wgt t
      have hgood : st.r.good = true := by
        rw [hr, good_iff]
        show d0 < e
        omega
      cases fuel with
      | zero => exact absurd hfuel (by omega)
      | succ f =>
        rw [scanLoopF_succ, if_pos hgood]
        rcases hsk : splitKept sym ut sl (t :: rest) with ⟨ds, o⟩
        cases o with
        | none =>
          obtain ⟨hds, hall⟩ := splitKept_none_eq sym ut sl (t :: rest) ds hsk
          subst hds
          have hstep : stepCount data k sym ut sl wgt st =
              { st with r := ⟨e, e⟩ } := by
            by_cases hnf : (sym == false && ut == false && sl == false) = true
            · exfalso
              simp only [Bool.and_eq_true, beq_iff_eq] at hnf
              obtain ⟨⟨hsym, hut⟩, hsl⟩ := hnf
              subst hsym
              subst hut
              subst hsl
              have hdt : recDrop false false false (digVal t.xd) (digVal t.yd) =
                  false := by
                simp [recDrop]
              rw [splitKept_keep false false false t rest hdt] at hsk
              simp at hsk
            · have hg := genCountF_render data k sym ut sl wgt e hbE (t :: rest)
                st d0 (st.r.e - st.r.d + 1) hr hwf hb hlen
                (by rw [hr]; show e - d0 < e - d0 + 1; omega)
              rw [hsk] at hg
              unfold stepCount
              rw [if_neg hnf]
              exact hg
          rw [hstep]
          refine Eq.trans
            (scanLoopF_stuck (stepCount data k sym ut sl wgt) f _ ?_) ?_
          · exact (good_false _).mpr (le_refl e)
          · have he0 := dropped_emits sym ut sl (t :: rest) hall
            simp [he0]
        | some tp =>
          rcases tp with ⟨t2, rest2⟩
          obtain ⟨hleq, hallds, hkt2⟩ :=
            splitKept_some sym ut sl (t :: rest) ds t2 rest2 hsk
          have hleq2 : t :: rest = (ds ++ [t2]) ++ rest2 := by
            rw [hleq]
            simp
          have hlen2 : rest2.length ≤ n := by
            have hc := congrArg List.length hleq
            simp only [List.length_cons, List.length_append] at hc
            simp only [List.length_cons] at hln
            omega
          have hdne : ds ++ [t2] ≠ [] := by simp
          have hdecomp : renderInput wgt (t :: rest) =
              renderInput wgt (ds ++ [t2]) ++ renderInput wgt rest2 := by
            rw [← renderInput_append, ← hleq2]
          have hsp2 := (blockAt_append data (renderInput wgt (ds ++ [t2]))
            (renderInput wgt rest2) d0).mp (by rw [← hdecomp]; exact hb)
          have hlen3 : d0 + (renderInput wgt (ds ++ [t2])).length +
              (renderInput wgt rest2).length = e := by
            have hc := congrArg List.length hdecomp
            rw [List.length_append] at hc
            have hc2 : (renderInput wgt (t :: rest)).length =
                (renderInput wgt (ds ++ [t2])).length +
                  (renderInput wgt rest2).length := hc
            omega
          have hd1pos := renderInput_pos wgt (ds ++ [t2]) hdne
          have hemits : emitsSum sym ut sl (ds ++ [t2]) =
              recEmits sym ut sl (digVal t2.xd) (digVal t2.yd) := by
            rw [emitsSum_append, dropped_emits sym ut sl ds hallds,
              emitsSum_cons, emitsSum_nil]
            omega
          have hstep : stepCount data k sym ut sl wgt st =
              { st with
                pos := st.pos +
                  recEmits sym ut sl (digVal t2.xd) (digVal t2.yd)
                r := ⟨d0 + (renderInput wgt (ds ++ [t2])).length, e⟩ } := by
            by_cases hnf : (sym == false && ut == false && sl == false) = true
            · simp only [Bool.and_eq_true, beq_iff_eq] at hnf
              obtain ⟨⟨hsym, hut⟩, hsl⟩ := hnf
              subst hsym
              subst hut
              subst hsl
              have hdt : recDrop false false false (digVal t.xd) (digVal t.yd) =
                  false := by
                simp [recDrop]
              rw [splitKept_keep false false false t rest hdt] at hsk
              simp only [Prod.mk.injEq, Option.some.injEq] at hsk
              obtain ⟨hds0, hts, hrs⟩ := hsk
              subst hds0
              subst hts
              subst hrs
              unfold stepCount
              rw [if_pos (by decide)]
              have hnextR : d0 + (renderRec wgt t).length = e ∨
                  isDig (chAt data (d0 + (renderRec wgt t).length)) = true := by
                cases hre : rest with
                | nil =>
                  left
                  rw [hre, renderInput_nil] at hlenC
                  simp at hlenC
                  omega
                | cons t3 r3 =>
                  right
                  exact renderInput_first_digit data wgt rest
                    (d0 + (renderRec wgt t).length)
                    (by rw [hre]; simp) (fun u hu => hwf u (by simp [hu])) hsp.2
              rw [nfCount_step data wgt t st d0 e hr hwx hwy hww hsp.1
                (by omega) hnextR]
              have hmf : recMirror false false (digVal t.xd) (digVal t.yd) =
                  false := by
                simp [recMirror]
              rw [List.nil_append,
                recEmits_plain false false false (digVal t.xd) (digVal t.yd)
                  hdt hmf]
              simp [renderInput_cons, renderInput_nil]
            · have hg := genCountF_render data k sym ut sl wgt e hbE (t :: rest)
                st d0 (st.r.e - st.r.d + 1) hr hwf hb hlen
                (by rw [hr]; show e - d0 < e - d0 + 1; omega)
              rw [hsk] at hg
              unfold stepCount
              rw [if_neg hnf]
              exact hg
          rw [hstep]
          refine Eq.trans (ihn rest2 hlen2 _
            (d0 + (renderInput wgt (ds ++ [t2])).length) f ?_ ?_ ?_ ?_ ?_) ?_
          · exact rfl
          · exact fun u hu => hwf u (by rw [hleq2]; simp [hu])
          · exact hsp2.2
          · omega
          · omega
          · rw [hleq2, emitsSum_append sym ut sl (ds ++ [t2]) rest2, hemits]
            simp [Nat.add_assoc]

end Pigo

namespace Pigo

theorem chAt_end (data : List Char) : chAt data data.length = Char.ofNat 0 := by
  unfold chAt
  exact List.getD_eq_default _ _ (le_refl _)

theorem blockAt_self (data : List Char) : BlockAt data 0 data := by
  intro i hi
  simp [chAt]

theorem moveToEol_stuck (data : List Char) (d : Nat) :
    moveToEol data ⟨d, d⟩ = ⟨d, d⟩ := by
  have h := moveToEol_span data [] d d (blockAt_nil data d) (by simp) (by simp)
    (by simp)
  simpa using h

theorem moveToNextInt_stuck (data : List Char) (d : Nat) :
    moveToNextInt data ⟨d, d⟩ = ⟨d, d⟩ := by
  have h := moveToNextInt_span data [] [] d d (blockAt_nil data d) (by simp)
    (by simp) (by simp) (by simp) (by simp)
  simpa using h

theorem workerReader_one (data : List Char) (L : Nat) :
    workerReader data ⟨0, L⟩ 1 0 = moveToFirstInt data ⟨0, L⟩ := by
  unfold workerReader
  simp only [Reader.size, Nat.sub_zero, Nat.zero_mul, Nat.zero_div,
    Nat.add_zero, Nat.one_mul, Nat.div_one, Nat.zero_add, bne_self_eq_false,
    Bool.false_eq_true, if_false]
  rw [moveToEol_stuck data L, moveToNextInt_stuck data L]
  rcases hmm : moveToFirstInt data ⟨0, L⟩ with ⟨md, me⟩
  have he : me = L := by
    have h2 := moveToFirstInt_e data ⟨0, L⟩
    rw [hmm] at h2
    simpa using h2
  subst he
  simp

theorem readEl_one (data : List Char) (k : WKind) (sym ut sl wgt : Bool)
    (r : Reader) :
    readEl data k sym ut sl wgt 1 r =
      { xs := (scanLoop (stepSet data k sym ut sl wgt)
          (initSt (workerReader data r 1 0) 0)).xs,
        ys := (scanLoop (stepSet data k sym ut sl wgt)
          (initSt (workerReader data r 1 0) 0)).ys,
        ws := (scanLoop (stepSet data k sym ut sl wgt)
          (initSt (workerReader data r 1 0) 0)).ws,
        m := (scanLoop (stepCount data k sym ut sl wgt)
          (initSt (workerReader data r 1 0) 0)).pos,
        nrows := (scanLoop (stepSet data k sym ut sl wgt)
          (initSt (workerReader data r 1 0) 0)).maxRow + 1,
        ncols := (scanLoop (stepSet data k sym ut sl wgt)
          (initSt (workerReader data r 1 0) 0)).maxCol + 1,
        n := if (scanLoop (stepSet data k sym ut sl wgt)
            (initSt (workerReader data r 1 0) 0)).maxCol + 1 <
            (scanLoop (stepSet data k sym ut sl wgt)
              (initSt (workerReader data r 1 0) 0)).maxRow + 1 then
          (scanLoop (stepSet data k sym ut sl wgt)
            (initSt (workerReader data r 1 0) 0)).maxRow + 1
        else (scanLoop (stepSet data k sym ut sl wgt)
          (initSt (workerReader data r 1 0) 0)).maxCol + 1 } := by
  unfold readEl
  simp [List.range_succ, Nat.zero_max]

theorem moveToFirstInt_render (wgt : Bool) (l : List RecTxt)
    (hwf : ∀ t ∈ l, recWF wgt t = true) :
    moveToFirstInt (renderInput wgt l) ⟨0, (renderInput wgt l).length⟩ =
      ⟨0, (renderInput wgt l).length⟩ := by
  have h := moveToFirstInt_span (renderInput wgt l) [] 0
    (renderInput wgt l).length (blockAt_nil _ 0) (by simp) (by simp)
    (by
      cases l with
      | nil =>
        left
        simp [renderInput_nil]
      | cons t rest =>
        right
        have h2 := renderInput_first_digit (renderInput wgt (t :: rest)) wgt
          (t :: rest) 0 (by simp) hwf (blockAt_self _)
        simpa using h2)
  simpa using h

theorem scanSet_loop (k : WKind) (sym ut sl wgt : Bool) (l : List RecTxt)
    (hwf : ∀ t ∈ l, recWF wgt t = true) :
    scanLoop (stepSet (renderInput wgt l) k sym ut sl wgt)
        (initSt ⟨0, (renderInput wgt l).length⟩ 0) =
      { xs := (idealLogs sym ut sl wgt 0 l).1,
        ys := (idealLogs sym ut sl wgt 0 l).2.1,
        ws := (idealLogs sym ut sl wgt 0 l).2.2 ++
          idealTrail sym ut sl wgt l (emitsSum sym ut sl l),
        pos := emitsSum sym ut sl l,
        r := ⟨(renderInput wgt l).length, (renderInput wgt l).length⟩,
        maxRow := idealMaxR sym ut sl 0 l,
        maxCol := idealMaxC sym ut sl 0 l } := by
  have h := scanSet_render (renderInput wgt l) k sym ut sl wgt
    (renderInput wgt l).length (Or.inr (chAt_end _)) l.length l (le_refl _)
    (initSt ⟨0, (renderInput wgt l).length⟩ 0) 0
    ((initSt (⟨0, (renderInput wgt l).length⟩ : Reader) 0).r.e -
      (initSt (⟨0, (renderInput wgt l).length⟩ : Reader) 0).r.d + 1)
    rfl hwf (blockAt_self _) (Nat.zero_add _)
    (by
      show (renderInput wgt l).length - 0 < (renderInput wgt l).length - 0 + 1
      omega)
  refine Eq.trans h ?_
  simp [initSt]

theorem scanCount_loop (k : WKind) (sym ut sl wgt : Bool) (l : List RecTxt)
    (hwf : ∀ t ∈ l, recWF wgt t = true) :
    scanLoop (stepCount (renderInput wgt l) k sym ut sl wgt)
        (initSt ⟨0, (renderInput wgt l).length⟩ 0) =
      { xs := [],
        ys := [],
        ws := [],
        pos := emitsSum sym ut sl l,
        r := ⟨(renderInput wgt l).length, (renderInput wgt l).length⟩,
        maxRow := 0,
        maxCol := 0 } := by
  have h := scanCount_render (renderInput wgt l) k sym ut sl wgt
    (renderInput wgt l).length (Or.inr (chAt_end _)) l.length l (le_refl _)
    (initSt ⟨0, (renderInput wgt l).length⟩ 0) 0
    ((initSt (⟨0, (renderInput wgt l).length⟩ : Reader) 0).r.e -
      (initSt (⟨0, (renderInput wgt l).length⟩ : Reader) 0).r.d + 1)
    rfl hwf (blockAt_self _) (Nat.zero_add _)
    (by
      show (renderInput wgt l).length - 0 < (renderInput wgt l).length - 0 + 1
      omega)
  refine Eq.trans h ?_
  simp [initSt]

theorem readEl_render (k : WKind) (sym ut sl wgt : Bool) (l : List RecTxt)
    (hwf : ∀ t ∈ l, recWF wgt t = true) :
    readEl (renderInput wgt l) k sym ut sl wgt 1
        ⟨0, (renderInput wgt l).length⟩ =
      { xs := (idealLogs sym ut sl wgt 0 l).1,
        ys := (idealLogs sym ut sl wgt 0 l).2.1,
        ws := (idealLogs sym ut sl wgt 0 l).2.2 ++
          idealTrail sym ut sl wgt l (emitsSum sym ut sl l),
        m := emitsSum sym ut sl l,
        nrows := idealMaxR sym ut sl 0 l + 1,
        ncols := idealMaxC sym ut sl 0 l + 1,
        n := if idealMaxC sym ut sl 0 l + 1 < idealMaxR sym ut sl 0 l + 1 then
          idealMaxR sym ut sl 0 l + 1
        else idealMaxC sym ut sl 0 l + 1 } := by
  rw [readEl_one, workerReader_one, moveToFirstInt_render wgt l hwf,
    scanSet_loop k sym ut sl wgt l hwf, scanCount_loop k sym ut sl wgt l hwf]

theorem lastDropped_kept (sym ut sl : Bool) :
    ∀ (l : List RecTxt),
    (∀ u ∈ l, recDrop sym ut sl (digVal u.xd) (digVal u.yd) = false) →
    lastDropped sym ut sl l = false := by
  intro l
  induction l with
  | nil => intro _; rfl
  | cons t rest ih =>
    intro h
    cases rest with
    | nil =>
      rw [lastDropped_single]
      exact h t (by simp)
    | cons t2 r2 =>
      rw [lastDropped_cons2]
      exact ih (fun u hu => h u (by simp [hu]))

theorem idealLogs_fst_x (sym ut sl wgt : Bool) :
    ∀ (l : List RecTxt) (p : Nat),
    (idealLogs sym ut sl wgt p l).1.map Prod.fst =
      List.range' p (emitsSum sym ut sl l) := by
  intro l
  induction l with
  | nil =>
    intro p
    simp [idealLogs_nil, emitsSum_nil]
  | cons t rest ih =>
    intro p
    by_cases hd : recDrop sym ut sl (digVal t.xd) (digVal t.yd) = true
    · rw [idealLogs_drop sym ut sl wgt p t rest hd, emitsSum_cons,
        recEmits_drop sym ut sl _ _ hd]
      simpa using ih p
    · simp only [Bool.not_eq_true] at hd
      by_cases hm : recMirror sym ut (digVal t.xd) (digVal t.yd) = true
      · rw [idealLogs_mirror sym ut sl wgt p t rest hd hm, emitsSum_cons,
          recEmits_mirror sym ut sl _ _ hd hm]
        have h2 : 2 + emitsSum sym ut sl rest =
            emitsSum sym ut sl rest + 1 + 1 := by omega
        rw [h2, List.range'_succ, List.range'_succ]
        simp [ih (p + 2), Nat.add_assoc]
      · simp only [Bool.not_eq_true] at hm
        rw [idealLogs_plain sym ut sl wgt p t rest hd hm, emitsSum_cons,
          recEmits_plain sym ut sl _ _ hd hm]
        have h1 : 1 + emitsSum sym ut sl rest =
            emitsSum sym ut sl rest + 1 := by omega
        rw [h1, List.range'_succ]
        simp [ih (p + 1)]

theorem idealLogs_fst_y (sym ut sl wgt : Bool) :
    ∀ (l : List RecTxt) (p : Nat),
    (idealLogs sym ut sl wgt p l).2.1.map Prod.fst =
      List.range' p (emitsSum sym ut sl l) := by
  intro l
  induction l with
  | nil =>
    intro p
    simp [idealLogs_nil, emitsSum_nil]
  | cons t rest ih =>
    intro p
    by_cases hd : recDrop sym ut sl (digVal t.xd) (digVal t.yd) = true
    · rw [idealLogs_drop sym ut sl wgt p t rest hd, emitsSum_cons,
        recEmits_drop sym ut sl _ _ hd]
      simpa using ih p
    · simp only [Bool.not_eq_true] at hd
      by_cases hm : recMirror sym ut (digVal t.xd) (digVal t.yd) = true
      · rw [idealLogs_mirror sym ut sl wgt p t rest hd hm, emitsSum_cons,
          recEmits_mirror sym ut sl _ _ hd hm]
        have h2 : 2 + emitsSum sym ut sl rest =
            emitsSum sym ut sl rest + 1 + 1 := by omega
        rw [h2, List.range'_succ, List.range'_succ]
        simp [ih (p + 2), Nat.add_assoc]
      · simp only [Bool.not_eq_true] at hm
        rw [idealLogs_plain sym ut sl wgt p t rest hd hm, emitsSum_cons,
          recEmits_plain sym ut sl _ _ hd hm]
        have h1 : 1 + emitsSum sym ut sl rest =
            emitsSum sym ut sl rest + 1 := by omega
        rw [h1, List.range'_succ]
        simp [ih (p + 1)]

theorem idealLogs_fst_w (sym ut sl wgt : Bool) :
    ∀ (l : List RecTxt) (p : Nat),
    (∀ u ∈ l, recDrop sym ut sl (digVal u.xd) (digVal u.yd) = false) →
    (idealLogs sym ut sl wgt p l).2.2.map Prod.fst =
      (if wgt then List.range' p (emitsSum sym ut sl l) else []) := by
  intro l
  induction l with
  | nil =>
    intro p _
    simp [idealLogs_nil, emitsSum_nil]
  | cons t rest ih =>
    intro p h
    have hd := h t (by simp)
    have ihr := fun q => ih q (fun u hu => h u (by simp [hu]))
    by_cases hm : recMirror sym ut (digVal t.xd) (digVal t.yd) = true
    · rw [idealLogs_mirror sym ut sl wgt p t rest hd hm, emitsSum_cons,
        recEmits_mirror sym ut sl _ _ hd hm]
      have h2 : 2 + emitsSum sym ut sl rest =
          emitsSum sym ut sl rest + 1 + 1 := by omega
      rw [h2, List.range'_succ, List.range'_succ]
      cases wgt with
      | true => simp [ihr (p + 2), Nat.add_assoc]
      | false => simpa using ihr (p + 2)
    · simp only [Bool.not_eq_true] at hm
      rw [idealLogs_plain sym ut sl wgt p t rest hd hm, emitsSum_cons,
        recEmits_plain sym ut sl _ _ hd hm]
      have h1 : 1 + emitsSum sym ut sl rest =
          emitsSum sym ut sl rest + 1 := by omega
      rw [h1, List.range'_succ]
      cases wgt with
      | true => simp [ihr (p + 1)]
      | false => simpa using ihr (p + 1)

end Pigo

namespace Pigo

/-- C1 (amended): on a rendered well-formed newline-terminated edge list
scanned by one worker, the two passes use the same grammar and agree: `m`
equals the total emit count of the records, and the X and Y stores of
pass 2 hit exactly the indices `0..m-1`, in ascending order.  The weight
store log hits exactly those indices as well when no record is dropped by
the SL/UT filter (dropped records still store their weight at the current
cursor and a final dropped record leaves one junk store, cf. C9). -/
theorem claim_C1_theorem (k : WKind) (sym ut sl wgt : Bool) (l : List RecTxt)
    (hwf : ∀ t ∈ l, recWF wgt t = true) :
    (readEl (renderInput wgt l) k sym ut sl wgt 1
        ⟨0, (renderInput wgt l).length⟩).m = emitsSum sym ut sl l ∧
    ((readEl (renderInput wgt l) k sym ut sl wgt 1
        ⟨0, (renderInput wgt l).length⟩).xs.map Prod.fst) =
      List.range (emitsSum sym ut sl l) ∧
    ((readEl (renderInput wgt l) k sym ut sl wgt 1
        ⟨0, (renderInput wgt l).length⟩).ys.map Prod.fst) =
      List.range (emitsSum sym ut sl l) ∧
    ((∀ u ∈ l, recDrop sym ut sl (digVal u.xd) (digVal u.yd) = false) →
      ((readEl (renderInput wgt l) k sym ut sl wgt 1
          ⟨0, (renderInput wgt l).length⟩).ws.map Prod.fst) =
        (if wgt then List.range (emitsSum sym ut sl l) else [])) := by
  rw [readEl_render k sym ut sl wgt l hwf]
  refine ⟨rfl, ?_, ?_, ?_⟩
  · show (idealLogs sym ut sl wgt 0 l).1.map Prod.fst = _
    rw [idealLogs_fst_x, List.range_eq_range']
  · show (idealLogs sym ut sl wgt 0 l).2.1.map Prod.fst = _
    rw [idealLogs_fst_y, List.range_eq_range']
  · intro hnd
    show ((idealLogs sym ut sl wgt 0 l).2.2 ++
        idealTrail sym ut sl wgt l (emitsSum sym ut sl l)).map Prod.fst = _
    rw [List.map_append, idealLogs_fst_w sym ut sl wgt l 0 hnd]
    simp [idealTrail, lastDropped_kept sym ut sl l hnd, List.range_eq_range']

theorem claim_C1_witness :
    (∀ t ∈ [(⟨['1'], ['2'], ['3']⟩ : RecTxt)], recWF true t = true) ∧
    ((readEl (renderInput true [(⟨['1'], ['2'], ['3']⟩ : RecTxt)])
        WKind.iUnsigned true false false true 1
        ⟨0, (renderInput true [(⟨['1'], ['2'], ['3']⟩ : RecTxt)]).length⟩).m =
      emitsSum true false false [(⟨['1'], ['2'], ['3']⟩ : RecTxt)] ∧
    ((readEl (renderInput true [(⟨['1'], ['2'], ['3']⟩ : RecTxt)])
        WKind.iUnsigned true false false true 1
        ⟨0, (renderInput true
          [(⟨['1'], ['2'], ['3']⟩ : RecTxt)]).length⟩).xs.map Prod.fst) =
      List.range (emitsSum true false false [(⟨['1'], ['2'], ['3']⟩ : RecTxt)]) ∧
    ((readEl (renderInput true [(⟨['1'], ['2'], ['3']⟩ : RecTxt)])
        WKind.iUnsigned true false false true 1
        ⟨0, (renderInput true
          [(⟨['1'], ['2'], ['3']⟩ : RecTxt)]).length⟩).ys.map Prod.fst) =
      List.range (emitsSum true false false [(⟨['1'], ['2'], ['3']⟩ : RecTxt)]) ∧
    ((∀ u ∈ [(⟨['1'], ['2'], ['3']⟩ : RecTxt)],
        recDrop true false false (digVal u.xd) (digVal u.yd) = false) →
      ((readEl (renderInput true [(⟨['1'], ['2'], ['3']⟩ : RecTxt)])
          WKind.iUnsigned true false false true 1
          ⟨0, (renderInput true
            [(⟨['1'], ['2'], ['3']⟩ : RecTxt)]).length⟩).ws.map Prod.fst) =
        (if true then
          List.range (emitsSum true false false [(⟨['1'], ['2'], ['3']⟩ : RecTxt)])
        else []))) :=
  ⟨by decide, claim_C1_theorem WKind.iUnsigned true false false true
    [(⟨['1'], ['2'], ['3']⟩ : RecTxt)] (by decide)⟩

end Pigo

namespace Pigo

theorem renderRecNoNl_len (t : RecTxt) :
    (renderRecNoNl false t).length = t.xd.length + 1 + t.yd.length := by
  simp only [renderRecNoNl, Bool.false_eq_true, if_false, List.append_nil,
    List.length_append, List.length_singleton]
  try omega

theorem renderRecNoNl_first_digit (data : List Char) (wgt : Bool) (t : RecTxt)
    (q : Nat) (hwx : digStrB t.xd = true)
    (hb : BlockAt data q (renderRecNoNl wgt t)) :
    isDig (chAt data q) = true := by
  have hbx : BlockAt data q (t.xd ++ ([' '] ++ t.yd ++
      (if wgt then ' ' :: t.wd else []))) := by
    simpa [renderRecNoNl, List.append_assoc] using hb
  have h1 := (blockAt_append data t.xd _ q).mp hbx
  cases hx2 : t.xd with
  | nil => exact absurd hx2 (digStrB_ne_nil _ hwx)
  | cons c u =>
    have h2 := h1.1
    rw [hx2] at h2
    rw [((blockAt_cons data q c u).mp h2).1]
    exact digStrB_all _ hwx c (by rw [hx2]; simp)

theorem parse_partial (data : List Char) (t : RecTxt) (d0 e : Nat)
    (hwx : digStrB t.xd = true) (hwy : digStrB t.yd = true)
    (hb : BlockAt data d0 (renderRecNoNl false t))
    (hlen : d0 + (renderRecNoNl false t).length = e) :
    readInt data ⟨d0, e⟩ = (digVal t.xd, ⟨d0 + t.xd.length, e⟩) ∧
    moveToNextInt data ⟨d0 + t.xd.length, e⟩ = ⟨d0 + t.xd.length + 1, e⟩ ∧
    readInt data ⟨d0 + t.xd.length + 1, e⟩ = (digVal t.yd, ⟨e, e⟩) ∧
    moveToNextInt data ⟨d0, e⟩ = ⟨d0 + t.xd.length + 1, e⟩ ∧
    moveToEol data ⟨d0 + t.xd.length + 1, e⟩ = ⟨e, e⟩ := by
  have hax := digStrB_all t.xd hwx
  have hay := digStrB_all t.yd hwy
  have hb2 : BlockAt data d0 (t.xd ++ [' '] ++ t.yd) := by
    simpa [renderRecNoNl, List.append_assoc] using hb
  have hlen2 : d0 + t.xd.length + 1 + t.yd.length = e := by
    rw [renderRecNoNl_len] at hlen
    omega
  have s4 := (blockAt_append data (t.xd ++ [' ']) t.yd d0).mp hb2
  have s5 := (blockAt_append data t.xd [' '] d0).mp s4.1
  have hbx : BlockAt data d0 t.xd := s5.1
  have hsp1 : chAt data (d0 + t.xd.length) = ' ' := by
    simpa using s5.2 0 (by simp)
  have hby : BlockAt data (d0 + t.xd.length + 1) t.yd := by
    have h := s4.2
    have hq : d0 + (t.xd ++ [' ']).length = d0 + t.xd.length + 1 := by
      simp only [List.length_append, List.length_singleton]
      omega
    rw [hq] at h
    exact h
  have hyd1 : isDig (chAt data (d0 + t.xd.length + 1)) = true := by
    cases hy2 : t.yd with
    | nil => exact absurd hy2 (digStrB_ne_nil _ hwy)
    | cons c u =>
      rw [hy2] at hby
      rw [((blockAt_cons data (d0 + t.xd.length + 1) c u).mp hby).1]
      exact hay c (by rw [hy2]; simp)
  have hx1 : readInt data ⟨d0, e⟩ = (digVal t.xd, ⟨d0 + t.xd.length, e⟩) :=
    readInt_span data t.xd d0 e hbx hax
      (fun h => absurd h (digStrB_ne_nil _ hwx)) (by omega)
      (Or.inr (by rw [hsp1]; decide))
  have hx2 : moveToNextInt data ⟨d0 + t.xd.length, e⟩ =
      ⟨d0 + t.xd.length + 1, e⟩ := by
    have h := moveToNextInt_span data [] [' '] (d0 + t.xd.length) e
      (blockAt_singleton data _ ' ' hsp1)
      (by simp)
      (by
        intro c hc
        rw [List.mem_singleton] at hc
        subst hc
        exact ⟨by decide, by decide⟩)
      (by simp only [List.length_nil, List.length_singleton, Nat.add_zero]; omega)
      (by
        simp only [List.length_nil, List.length_singleton, Nat.add_zero]
        right
        exact hyd1)
      (by
        simp only [List.length_nil, Nat.add_zero]
        right
        rw [hsp1]
        decide)
    simpa using h
  have hx3 : readInt data ⟨d0 + t.xd.length + 1, e⟩ =
      (digVal t.yd, ⟨e, e⟩) := by
    have h := readInt_span data t.yd (d0 + t.xd.length + 1) e hby hay
      (fun h => absurd h (digStrB_ne_nil _ hwy)) (by omega) (Or.inl hlen2)
    rw [hlen2] at h
    exact h
  have hx4 : moveToNextInt data ⟨d0, e⟩ = ⟨d0 + t.xd.length + 1, e⟩ := by
    have h := moveToNextInt_span data t.xd [' '] d0 e
      (by
        have := (blockAt_append data (t.xd ++ [' ']) t.yd d0).mp hb2
        simpa [List.append_assoc] using this.1)
      hax
      (by
        intro c hc
        rw [List.mem_singleton] at hc
        subst hc
        exact ⟨by decide, by decide⟩)
      (by simp only [List.length_singleton]; omega)
      (by
        simp only [List.length_singleton]
        right
        exact hyd1)
      (by
        right
        rw [hsp1]
        decide)
    simpa using h
  have hx5 : moveToEol data ⟨d0 + t.xd.length + 1, e⟩ = ⟨e, e⟩ := by
    have h := moveToEol_span data t.yd (d0 + t.xd.length + 1) e hby
      (by
        intro c hc
        have hcd := hay c hc
        exact isDig_ne c '\n' hcd (by decide))
      (by omega) (Or.inl hlen2)
    rw [hlen2] at h
    exact h
  exact ⟨hx1, hx2, hx3, hx4, hx5⟩

theorem genSetBody_stop (data : List Char) (sym ut sl wgt : Bool)
    (rec : ScanSt → ScanSt) (x y : Nat) (ws1 : List (Nat × ℚ)) (r4 : Reader)
    (st : ScanSt) (hg : r4.good = false) :
    genSetBody data sym ut sl wgt rec x y ws1 r4 st =
      { st with ws := ws1, r := r4 } := by
  unfold genSetBody
  rw [if_pos (by rw [hg]; decide)]

theorem genCountBody_stop (data : List Char) (sym ut sl : Bool)
    (rec : ScanSt → ScanSt) (x y : Nat) (r4 : Reader)
    (st : ScanSt) (hg : r4.good = false) :
    genCountBody data sym ut sl rec x y r4 st = { st with r := r4 } := by
  unfold genCountBody
  rw [if_pos (by rw [hg]; decide)]

theorem nfSet_partial (data : List Char) (k : WKind) (t : RecTxt) (st : ScanSt)
    (d0 e : Nat) (hr : st.r = ⟨d0, e⟩)
    (hwx : digStrB t.xd = true) (hwy : digStrB t.yd = true)
    (hb : BlockAt data d0 (renderRecNoNl false t))
    (hlen : d0 + (renderRecNoNl false t).length = e) :
    nfSet data k false st = { st with r := ⟨e, e⟩ } := by
  obtain ⟨e1, e2, e3, _, _⟩ := parse_partial data t d0 e hwx hwy hb hlen
  show nfSetBody data
      (readInt data st.r).1
      (readInt data (moveToNextInt data (readInt data st.r).2)).1
      (readWgtSet data false k st.pos st.ws
        (readInt data (moveToNextInt data (readInt data st.r).2)).2).1
      (readWgtSet data false k st.pos st.ws
        (readInt data (moveToNextInt data (readInt data st.r).2)).2).2
      st = _
  rw [hr]
  simp only [e1, e2, e3, readWgtSet_false]
  unfold nfSetBody
  rw [if_pos (by rw [(good_false (⟨e, e⟩ : Reader)).mpr (le_refl e)]; decide)]

theorem nfCount_partial (data : List Char) (t : RecTxt) (st : ScanSt)
    (d0 e : Nat) (hr : st.r = ⟨d0, e⟩)
    (hwx : digStrB t.xd = true) (hwy : digStrB t.yd = true)
    (hb : BlockAt data d0 (renderRecNoNl false t))
    (hlen : d0 + (renderRecNoNl false t).length = e) :
    nfCount data st = { st with pos := st.pos + 1, r := ⟨e, e⟩ } := by
  obtain ⟨_, _, _, e4, e5⟩ := parse_partial data t d0 e hwx hwy hb hlen
  have hylen : 0 < t.yd.length :=
    List.length_pos.mpr (digStrB_ne_nil _ hwy)
  have hlen2 : d0 + t.xd.length + 1 + t.yd.length = e := by
    rw [renderRecNoNl_len] at hlen
    omega
  have hg : (⟨d0 + t.xd.length + 1, e⟩ : Reader).good = true := by
    rw [good_iff]
    show d0 + t.xd.length + 1 < e
    omega
  unfold nfCount
  rw [hr, e4]
  rw [if_neg (by rw [hg]; decide)]
  rw [e5, moveToNextInt_stuck data e]

theorem genSetF_partial (data : List Char) (k : WKind) (sym ut sl : Bool)
    (fuel : Nat) (t : RecTxt) (st : ScanSt) (d0 e : Nat)
    (hr : st.r = ⟨d0, e⟩)
    (hwx : digStrB t.xd = true) (hwy : digStrB t.yd = true)
    (hb : BlockAt data d0 (renderRecNoNl false t))
    (hlen : d0 + (renderRecNoNl false t).length = e) :
    genSetF data k sym ut sl false (fuel + 1) st = { st with r := ⟨e, e⟩ } := by
  obtain ⟨e1, e2, e3, _, _⟩ := parse_partial data t d0 e hwx hwy hb hlen
  show genSetBody data sym ut sl false (genSetF data k sym ut sl false fuel)
      (readInt data st.r).1
      (readInt data (moveToNextInt data (readInt data st.r).2)).1
      (readWgtSet data false k st.pos st.ws
        (readInt data (moveToNextInt data (readInt data st.r).2)).2).1
      (readWgtSet data false k st.pos st.ws
        (readInt data (moveToNextInt data (readInt data st.r).2)).2).2
      st = _
  rw [hr]
  simp only [e1, e2, e3, readWgtSet_false]
  rw [genSetBody_stop data sym ut sl false
    (genSetF data k sym ut sl false fuel) (digVal t.xd) (digVal t.yd)
    st.ws ⟨e, e⟩ st ((good_false _).mpr (le_refl e))]

theorem genCountF_partial (data : List Char) (k : WKind) (sym ut sl : Bool)
    (fuel : Nat) (t : RecTxt) (st : ScanSt) (d0 e : Nat)
    (hr : st.r = ⟨d0, e⟩)
    (hwx : digStrB t.xd = true) (hwy : digStrB t.yd = true)
    (hb : BlockAt data d0 (renderRecNoNl false t))
    (hlen : d0 + (renderRecNoNl false t).length = e) :
    genCountF data k sym ut sl false (fuel + 1) st =
      { st with r := ⟨e, e⟩ } := by
  obtain ⟨e1, e2, e3, _, _⟩ := parse_partial data t d0 e hwx hwy hb hlen
  show genCountBody data sym ut sl (genCountF data k sym ut sl false fuel)
      (readInt data st.r).1
      (readInt data (moveToNextInt data (readInt data st.r).2)).1
      (readWgtCount data false k
        (readInt data (moveToNextInt data (readInt data st.r).2)).2) st = _
  rw [hr]
  simp only [e1, e2, e3, readWgtCount_false]
  rw [genCountBody_stop data sym ut sl
    (genCountF data k sym ut sl false fuel) (digVal t.xd) (digVal t.yd)
    ⟨e, e⟩ st ((good_false _).mpr (le_refl e))]

end Pigo

namespace Pigo

theorem nfSetLoop_tail (data : List Char) (k : WKind) (t : RecTxt) (e : Nat)
    (hwx : digStrB t.xd = true) (hwy : digStrB t.yd = true) :
    ∀ (n : Nat) (l : List RecTxt), l.length ≤ n →
    ∀ (st : ScanSt) (d0 fuel : Nat),
    st.r = ⟨d0, e⟩ →
    (∀ u ∈ l, recWF false u = true) →
    BlockAt data d0 (renderInput false l ++ renderRecNoNl false t) →
    d0 + (renderInput false l).length + (renderRecNoNl false t).length = e →
    e - d0 < fuel →
    scanLoopF (stepSet data k false false false false) fuel st =
      { st with
        xs := st.xs ++ (idealLogs false false false false st.pos l).1
        ys := st.ys ++ (idealLogs false false false false st.pos l).2.1
        pos := st.pos + l.length
        r := ⟨e, e⟩
        maxRow := idealMaxR false false false st.maxRow l
        maxCol := idealMaxC false false false st.maxCol l } := by
  have hlp : 0 < (renderRecNoNl false t).length := by
    rw [renderRecNoNl_len]
    omega
  intro n
  induction n with
  | zero =>
    intro l hln st d0 fuel hr hwf hb hlen hfuel
    have hl0 : l = [] := List.length_eq_zero.mp (Nat.le_zero.mp hln)
    subst hl0
    simp only [renderInput_nil, List.nil_append, List.length_nil,
      Nat.add_zero] at hb hlen
    have hgood : st.r.good = true := by
      rw [hr, good_iff]
      show d0 < e
      omega
    cases fuel with
    | zero => exact absurd hfuel (by omega)
    | succ f =>
      rw [scanLoopF_succ, if_pos hgood]
      have hstep : stepSet data k false false false false st =
          { st with r := ⟨e, e⟩ } := by
        unfold stepSet
        rw [if_pos (by decide)]
        exact nfSet_partial data k t st d0 e hr hwx hwy hb hlen
      rw [hstep]
      rw [scanLoopF_stuck (stepSet data k false false false false) f
        { st with r := ⟨e, e⟩ } ((good_false _).mpr (le_refl e))]
      simp [idealLogs_nil, idealMaxR_nil, idealMaxC_nil]
  | succ n ihn =>
    intro l hln st d0 fuel hr hwf hb hlen hfuel
    cases l with
    | nil =>
      simp only [renderInput_nil, List.nil_append, List.length_nil,
        Nat.add_zero] at hb hlen
      have hgood : st.r.good = true := by
        rw [hr, good_iff]
        show d0 < e
        omega
      cases fuel with
      | zero => exact absurd hfuel (by omega)
      | succ f =>
        rw [scanLoopF_succ, if_pos hgood]
        have hstep : stepSet data k false false false false st =
            { st with r := ⟨e, e⟩ } := by
          unfold stepSet
          rw [if_pos (by decide)]
          exact nfSet_partial data k t st d0 e hr hwx hwy hb hlen
        rw [hstep]
        rw [scanLoopF_stuck (stepSet data k false false false false) f
          { st with r := ⟨e, e⟩ } ((good_false _).mpr (le_refl e))]
        simp [idealLogs_nil, idealMaxR_nil, idealMaxC_nil]
    | cons t1 rest =>
      obtain ⟨hwx1, hwy1, hww1⟩ := recWF_parts false t1 (hwf t1 (by simp))
      have hbC : BlockAt data d0 (renderRec false t1 ++
          (renderInput false rest ++ renderRecNoNl false t)) := by
        have h2 : renderInput false (t1 :: rest) ++ renderRecNoNl false t =
            renderRec false t1 ++
              (renderInput false rest ++ renderRecNoNl false t) := by
          rw [renderInput_cons, List.append_assoc]
        rw [← h2]
        exact hb
      have hsp := (blockAt_append data (renderRec false t1)
        (renderInput false rest ++ renderRecNoNl false t) d0).mp hbC
      have hlenC : d0 + ((renderRec false t1).length +
          ((renderInput false rest).length +
            (renderRecNoNl false t).length)) = e := by
        rw [renderInput_cons, List.length_append] at hlen
        omega
      have hrp := renderRec_len_pos false t1
      have hgood : st.r.good = true := by
        rw [hr, good_iff]
        show d0 < e
        omega
      have hdt : recDrop false false false (digVal t1.xd) (digVal t1.yd) =
          false := by
        simp [recDrop]
      have hmf : recMirror false false (digVal t1.xd) (digVal t1.yd) =
          false := by
        simp [recMirror]
      cases fuel with
      | zero => exact absurd hfuel (by omega)
      | succ f =>
        rw [scanLoopF_succ, if_pos hgood]
        have hnext2 : isDig (chAt data (d0 + (renderRec false t1).length)) =
            true := by
          cases hre : rest with
          | nil =>
            have hbp : BlockAt data (d0 + (renderRec false t1).length)
                (renderRecNoNl false t) := by
              have h2 := hsp.2
              rw [hre, renderInput_nil, List.nil_append] at h2
              exact h2
            exact renderRecNoNl_first_digit data false t
              (d0 + (renderRec false t1).length) hwx hbp
          | cons t3 r3 =>
            have h2 := (blockAt_append data (renderInput false rest)
              (renderRecNoNl false t) (d0 + (renderRec false t1).length)).mp
              hsp.2
            exact renderInput_first_digit data false rest
              (d0 + (renderRec false t1).length) (by rw [hre]; simp)
              (fun u hu => hwf u (by simp [hu])) h2.1
        have hstep : stepSet data k false false false false st =
            ScanSt.mk
              (st.xs ++ [(st.pos, digVal t1.xd)])
              (st.ys ++ [(st.pos, digVal t1.yd)])
              st.ws
              (st.pos + 1)
              ⟨d0 + (renderRec false t1).length, e⟩
              (if decide (st.maxRow < digVal t1.xd) then digVal t1.xd
                else st.maxRow)
              (if decide (st.maxCol < digVal t1.yd) then digVal t1.yd
                else st.maxCol) := by
          unfold stepSet
          rw [if_pos (by decide)]
          rw [nfSet_step data k false t1 st d0 e hr hwx1 hwy1 hww1 hsp.1
            (by omega)]
          obtain ⟨_, _, _, _, _, hnl, hNL1⟩ :=
            parse_triple data k false st.pos st.ws t1 d0 e hwx1 hwy1 hww1
              hsp.1 (by omega)
          simp only [Bool.false_eq_true, if_false] at hnl hNL1 ⊢
          have hNLlt : d0 + t1.xd.length + 1 + t1.yd.length < e := by omega
          have hnext : isDig
              (chAt data (d0 + t1.xd.length + 1 + t1.yd.length + 1)) =
              true := by
            rw [hNL1]
            exact hnext2
          rw [nfSetBody_keep data (digVal t1.xd) (digVal t1.yd) (st.ws ++ [])
            ⟨d0 + t1.xd.length + 1 + t1.yd.length, e⟩ st
            (by rw [good_iff]; exact hNLlt)]
          rw [afterRec_move data (d0 + t1.xd.length + 1 + t1.yd.length) e hnl
            hNLlt (Or.inr hnext), hNL1]
          simp
        rw [hstep]
        refine Eq.trans (ihn rest
          (by simp only [List.length_cons] at hln; omega) _
          (d0 + (renderRec false t1).length) f ?_ ?_ ?_ ?_ ?_) ?_
        · exact rfl
        · exact fun u hu => hwf u (by simp [hu])
        · exact hsp.2
        · omega
        · omega
        · rw [idealLogs_plain false false false false st.pos t1 rest hdt hmf,
            idealMaxR_keep false false false st.maxRow t1 rest hdt,
            idealMaxC_keep false false false st.maxCol t1 rest hdt]
          simp [swapXY, List.append_assoc, List.length_cons, Nat.add_assoc,
            Nat.add_comm 1 rest.length]

theorem nfCountLoop_tail (data : List Char) (k : WKind) (t : RecTxt) (e : Nat)
    (hwx : digStrB t.xd = true) (hwy : digStrB t.yd = true) :
    ∀ (n : Nat) (l : List RecTxt), l.length ≤ n →
    ∀ (st : ScanSt) (d0 fuel : Nat),
    st.r = ⟨d0, e⟩ →
    (∀ u ∈ l, recWF false u = true) →
    BlockAt data d0 (renderInput false l ++ renderRecNoNl false t) →
    d0 + (renderInput false l).length + (renderRecNoNl false t).length = e →
    e - d0 < fuel →
    scanLoopF (stepCount data k false false false false) fuel st =
      { st with
        pos := st.pos + l.length + 1
        r := ⟨e, e⟩ } := by
  have hlp : 0 < (renderRecNoNl false t).length := by
    rw [renderRecNoNl_len]
    omega
  intro n
  induction n with
  | zero =>
    intro l hln st d0 fuel hr hwf hb hlen hfuel
    have hl0 : l = [] := List.length_eq_zero.mp (Nat.le_zero.mp hln)
    subst hl0
    simp only [renderInput_nil, List.nil_append, List.length_nil,
      Nat.add_zero] at hb hlen
    have hgood : st.r.good = true := by
      rw [hr, good_iff]
      show d0 < e
      omega
    cases fuel with
    | zero => exact absurd hfuel (by omega)
    | succ f =>
      rw [scanLoopF_succ, if_pos hgood]
      have hstep : stepCount data k false false false false st =
          { st with pos := st.pos + 1, r := ⟨e, e⟩ } := by
        unfold stepCount
        rw [if_pos (by decide)]
        exact nfCount_partial data t st d0 e hr hwx hwy hb hlen
      rw [hstep]
      rw [scanLoopF_stuck (stepCount data k false false false false) f
        { st with pos := st.pos + 1, r := ⟨e, e⟩ }
        ((good_false _).mpr (le_refl e))]
      simp
  | succ n ihn =>
    intro l hln st d0 fuel hr hwf hb hlen hfuel
    cases l with
    | nil =>
      simp only [renderInput_nil, List.nil_append, List.length_nil,
        Nat.add_zero] at hb hlen
      have hgood : st.r.good = true := by
        rw [hr, good_iff]
        show d0 < e
        omega
      cases fuel with
      | zero => exact absurd hfuel (by omega)
      | succ f =>
        rw [scanLoopF_succ, if_pos hgood]
        have hstep : stepCount data k false false false false st =
            { st with pos := st.pos + 1, r := ⟨e, e⟩ } := by
          unfold stepCount
          rw [if_pos (by decide)]
          exact nfCount_partial data t st d0 e hr hwx hwy hb hlen
        rw [hstep]
        rw [scanLoopF_stuck (stepCount data k false false false false) f
          { st with pos := st.pos + 1, r := ⟨e, e⟩ }
          ((good_false _).mpr (le_refl e))]
        simp
    | cons t1 rest =>
      obtain ⟨hwx1, hwy1, hww1⟩ := recWF_parts false t1 (hwf t1 (by simp))
      have hbC : BlockAt data d0 (renderRec false t1 ++
          (renderInput false rest ++ renderRecNoNl false t)) := by
        have h2 : renderInput false (t1 :: rest) ++ renderRecNoNl false t =
            renderRec false t1 ++
              (renderInput false rest ++ renderRecNoNl false t) := by
          rw [renderInput_cons, List.append_assoc]
        rw [← h2]
        exact hb
      have hsp := (blockAt_append data (renderRec false t1)
        (renderInput false rest ++ renderRecNoNl false t) d0).mp hbC
      have hlenC : d0 + ((renderRec false t1).length +
          ((renderInput false rest).length +
            (renderRecNoNl false t).length)) = e := by
        rw [renderInput_cons, List.length_append] at hlen
        omega
      have hrp := renderRec_len_pos false t1
      have hgood : st.r.good = true := by
        rw [hr, good_iff]
        show d0 < e
        omega
      cases fuel with
      | zero => exact absurd hfuel (by omega)
      | succ f =>
        rw [scanLoopF_succ, if_pos hgood]
        have hnext2 : isDig (chAt data (d0 + (renderRec false t1).length)) =
            true := by
          cases hre : rest with
          | nil =>
            have hbp : BlockAt data (d0 + (renderRec false t1).length)
                (renderRecNoNl false t) := by
              have h2 := hsp.2
              rw [hre, renderInput_nil, List.nil_append] at h2
              exact h2
            exact renderRecNoNl_first_digit data false t
              (d0 + (renderRec false t1).length) hwx hbp
          | cons t3 r3 =>
            have h2 := (blockAt_append data (renderInput false rest)
              (renderRecNoNl false t) (d0 + (renderRec false t1).length)).mp
              hsp.2
            exact renderInput_first_digit data false rest
              (d0 + (renderRec false t1).length) (by rw [hre]; simp)
              (fun u hu => hwf u (by simp [hu])) h2.1
        have hstep : stepCount data k false false false false st =
            { st with
              pos := st.pos + 1
              r := ⟨d0 + (renderRec false t1).length, e⟩ } := by
          unfold stepCount
          rw [if_pos (by decide)]
          rw [nfCount_step data false t1 st d0 e hr hwx1 hwy1 hww1 hsp.1
            (by omega) (Or.inr hnext2)]
        rw [hstep]
        refine Eq.trans (ihn rest
          (by simp only [List.length_cons] at hln; omega) _
          (d0 + (renderRec false t1).length) f ?_ ?_ ?_ ?_ ?_) ?_
        · exact rfl
        · exact fun u hu => hwf u (by simp [hu])
        · exact hsp.2
        · omega
        · omega
        · simp [List.length_cons, Nat.add_assoc, Nat.add_comm 1 rest.length]

end Pigo

namespace Pigo

theorem nfSetLoop_run (k : WKind) (l : List RecTxt) (t : RecTxt)
    (hwf : ∀ u ∈ l, recWF false u = true)
    (hwx : digStrB t.xd = true) (hwy : digStrB t.yd = true) :
    scanLoop (stepSet (renderInput false l ++ renderRecNoNl false t) k
        false false false false)
      (initSt ⟨0, (renderInput false l ++ renderRecNoNl false t).length⟩ 0) =
      { xs := (idealLogs false false false false 0 l).1,
        ys := (idealLogs false false false false 0 l).2.1,
        ws := [],
        pos := l.length,
        r := ⟨(renderInput false l ++ renderRecNoNl false t).length,
          (renderInput false l ++ renderRecNoNl false t).length⟩,
        maxRow := idealMaxR false false false 0 l,
        maxCol := idealMaxC false false false 0 l } := by
  have h := nfSetLoop_tail (renderInput false l ++ renderRecNoNl false t) k t
    (renderInput false l ++ renderRecNoNl false t).length hwx hwy l.length l
    (le_refl _)
    (initSt ⟨0, (renderInput false l ++ renderRecNoNl false t).length⟩ 0) 0
    ((initSt (⟨0,
        (renderInput false l ++ renderRecNoNl false t).length⟩ : Reader)
        0).r.e -
      (initSt (⟨0,
        (renderInput false l ++ renderRecNoNl false t).length⟩ : Reader)
        0).r.d + 1)
    rfl hwf (blockAt_self _)
    (by rw [List.length_append]; omega)
    (by
      show (renderInput false l ++ renderRecNoNl false t).length - 0 <
        (renderInput false l ++ renderRecNoNl false t).length - 0 + 1
      omega)
  refine Eq.trans h ?_
  simp [initSt]

theorem nfCountLoop_run (k : WKind) (l : List RecTxt) (t : RecTxt)
    (hwf : ∀ u ∈ l, recWF false u = true)
    (hwx : digStrB t.xd = true) (hwy : digStrB t.yd = true) :
    scanLoop (stepCount (renderInput false l ++ renderRecNoNl false t) k
        false false false false)
      (initSt ⟨0, (renderInput false l ++ renderRecNoNl false t).length⟩ 0) =
      { xs := [],
        ys := [],
        ws := [],
        pos := l.length + 1,
        r := ⟨(renderInput false l ++ renderRecNoNl false t).length,
          (renderInput false l ++ renderRecNoNl false t).length⟩,
        maxRow := 0,
        maxCol := 0 } := by
  have h := nfCountLoop_tail (renderInput false l ++ renderRecNoNl false t) k t
    (renderInput false l ++ renderRecNoNl false t).length hwx hwy l.length l
    (le_refl _)
    (initSt ⟨0, (renderInput false l ++ renderRecNoNl false t).length⟩ 0) 0
    ((initSt (⟨0,
        (renderInput false l ++ renderRecNoNl false t).length⟩ : Reader)
        0).r.e -
      (initSt (⟨0,
        (renderInput false l ++ renderRecNoNl false t).length⟩ : Reader)
        0).r.d + 1)
    rfl hwf (blockAt_self _)
    (by rw [List.length_append]; omega)
    (by
      show (renderInput false l ++ renderRecNoNl false t).length - 0 <
        (renderInput false l ++ renderRecNoNl false t).length - 0 + 1
      omega)
  refine Eq.trans h ?_
  simp [initSt]

theorem readEl_tail (k : WKind) (l : List RecTxt) (t : RecTxt)
    (hwf : ∀ u ∈ l, recWF false u = true)
    (hwx : digStrB t.xd = true) (hwy : digStrB t.yd = true) :
    readEl (renderInput false l ++ renderRecNoNl false t) k
        false false false false 1
        ⟨0, (renderInput false l ++ renderRecNoNl false t).length⟩ =
      { xs := (idealLogs false false false false 0 l).1,
        ys := (idealLogs false false false false 0 l).2.1,
        ws := [],
        m := l.length + 1,
        nrows := idealMaxR false false false 0 l + 1,
        ncols := idealMaxC false false false 0 l + 1,
        n := if idealMaxC false false false 0 l + 1 <
            idealMaxR false false false 0 l + 1 then
          idealMaxR false false false 0 l + 1
        else idealMaxC false false false 0 l + 1 } := by
  have hfd : isDig (chAt (renderInput false l ++ renderRecNoNl false t) 0) =
      true := by
    cases l with
    | nil =>
      rw [show renderInput false ([] : List RecTxt) ++ renderRecNoNl false t =
        renderRecNoNl false t from by simp [renderInput_nil]]
      exact renderRecNoNl_first_digit _ false t 0 hwx (blockAt_self _)
    | cons t1 rest =>
      have hb0 := (blockAt_append
        (renderInput false (t1 :: rest) ++ renderRecNoNl false t)
        (renderInput false (t1 :: rest)) (renderRecNoNl false t) 0).mp
        (blockAt_self _)
      exact renderInput_first_digit _ false (t1 :: rest) 0 (by simp) hwf hb0.1
  have hmv : moveToFirstInt (renderInput false l ++ renderRecNoNl false t)
      ⟨0, (renderInput false l ++ renderRecNoNl false t).length⟩ =
      ⟨0, (renderInput false l ++ renderRecNoNl false t).length⟩ := by
    have h := moveToFirstInt_span
      (renderInput false l ++ renderRecNoNl false t) [] 0
      (renderInput false l ++ renderRecNoNl false t).length
      (blockAt_nil _ 0) (by simp) (by simp)
      (Or.inr (by simpa using hfd))
    simpa using h
  rw [readEl_one, workerReader_one, hmv, nfSetLoop_run k l t hwf hwx hwy,
    nfCountLoop_run k l t hwf hwx hwy]

theorem readEl_tail_flagged (k : WKind) (sym ut sl : Bool)
    (hnf : (sym == false && ut == false && sl == false) = false) (t : RecTxt)
    (hwx : digStrB t.xd = true) (hwy : digStrB t.yd = true) :
    readEl (renderRecNoNl false t) k sym ut sl false 1
        ⟨0, (renderRecNoNl false t).length⟩ =
      { xs := [], ys := [], ws := [], m := 0, nrows := 1, ncols := 1,
        n := 1 } := by
  have hfd : isDig (chAt (renderRecNoNl false t) 0) = true :=
    renderRecNoNl_first_digit _ false t 0 hwx (blockAt_self _)
  have hmv : moveToFirstInt (renderRecNoNl false t)
      ⟨0, (renderRecNoNl false t).length⟩ =
      ⟨0, (renderRecNoNl false t).length⟩ := by
    have h := moveToFirstInt_span (renderRecNoNl false t) [] 0
      (renderRecNoNl false t).length (blockAt_nil _ 0) (by simp) (by simp)
      (Or.inr (by simpa using hfd))
    simpa using h
  have hlp : 0 < (renderRecNoNl false t).length := by
    rw [renderRecNoNl_len]
    omega
  have hgood : (initSt (⟨0, (renderRecNoNl false t).length⟩ : Reader)
      0).r.good = true := by
    rw [good_iff]
    show 0 < (renderRecNoNl false t).length
    exact hlp
  have hsetLoop : scanLoop (stepSet (renderRecNoNl false t) k sym ut sl false)
      (initSt ⟨0, (renderRecNoNl false t).length⟩ 0) =
      { initSt (⟨0, (renderRecNoNl false t).length⟩ : Reader) 0 with
        r := ⟨(renderRecNoNl false t).length,
          (renderRecNoNl false t).length⟩ } := by
    show scanLoopF (stepSet (renderRecNoNl false t) k sym ut sl false)
        ((initSt (⟨0, (renderRecNoNl false t).length⟩ : Reader) 0).r.e -
          (initSt (⟨0, (renderRecNoNl false t).length⟩ : Reader) 0).r.d + 1)
        (initSt ⟨0, (renderRecNoNl false t).length⟩ 0) = _
    rw [scanLoopF_succ, if_pos hgood]
    have hstep : stepSet (renderRecNoNl false t) k sym ut sl false
        (initSt ⟨0, (renderRecNoNl false t).length⟩ 0) =
        { initSt (⟨0, (renderRecNoNl false t).length⟩ : Reader) 0 with
          r := ⟨(renderRecNoNl false t).length,
            (renderRecNoNl false t).length⟩ } := by
      unfold stepSet
      rw [if_neg (by rw [hnf]; exact Bool.false_ne_true)]
      exact genSetF_partial (renderRecNoNl false t) k sym ut sl
        ((initSt (⟨0, (renderRecNoNl false t).length⟩ : Reader) 0).r.e -
          (initSt (⟨0, (renderRecNoNl false t).length⟩ : Reader) 0).r.d) t
        (initSt ⟨0, (renderRecNoNl false t).length⟩ 0) 0
        (renderRecNoNl false t).length rfl hwx hwy (blockAt_self _)
        (Nat.zero_add _)
    rw [hstep]
    rw [scanLoopF_stuck (stepSet (renderRecNoNl false t) k sym ut sl false)
      ((initSt (⟨0, (renderRecNoNl false t).length⟩ : Reader) 0).r.e -
        (initSt (⟨0, (renderRecNoNl false t).length⟩ : Reader) 0).r.d)
      { initSt (⟨0, (renderRecNoNl false t).length⟩ : Reader) 0 with
        r := ⟨(renderRecNoNl false t).length,
          (renderRecNoNl false t).length⟩ }
      ((good_false _).mpr (le_refl _))]
  have hcntLoop : scanLoop
      (stepCount (renderRecNoNl false t) k sym ut sl false)
      (initSt ⟨0, (renderRecNoNl false t).length⟩ 0) =
      { initSt (⟨0, (renderRecNoNl false t).length⟩ : Reader) 0 with
        r := ⟨(renderRecNoNl false t).length,
          (renderRecNoNl false t).length⟩ } := by
    show scanLoopF (stepCount (renderRecNoNl false t) k sym ut sl false)
        ((initSt (⟨0, (renderRecNoNl false t).length⟩ : Reader) 0).r.e -
          (initSt (⟨0, (renderRecNoNl false t).length⟩ : Reader) 0).r.d + 1)
        (initSt ⟨0, (renderRecNoNl false t).length⟩ 0) = _
    rw [scanLoopF_succ, if_pos hgood]
    have hstep : stepCount (renderRecNoNl false t) k sym ut sl false
        (initSt ⟨0, (renderRecNoNl false t).length⟩ 0) =
        { initSt (⟨0, (renderRecNoNl false t).length⟩ : Reader) 0 with
          r := ⟨(renderRecNoNl false t).length,
            (renderRecNoNl false t).length⟩ } := by
      unfold stepCount
      rw [if_neg (by rw [hnf]; exact Bool.false_ne_true)]
      exact genCountF_partial (renderRecNoNl false t) k sym ut sl
        ((initSt (⟨0, (renderRecNoNl false t).length⟩ : Reader) 0).r.e -
          (initSt (⟨0, (renderRecNoNl false t).length⟩ : Reader) 0).r.d) t
        (initSt ⟨0, (renderRecNoNl false t).length⟩ 0) 0
        (renderRecNoNl false t).length rfl hwx hwy (blockAt_self _)
        (Nat.zero_add _)
    rw [hstep]
    rw [scanLoopF_stuck (stepCount (renderRecNoNl false t) k sym ut sl false)
      ((initSt (⟨0, (renderRecNoNl false t).length⟩ : Reader) 0).r.e -
        (initSt (⟨0, (renderRecNoNl false t).length⟩ : Reader) 0).r.d)
      { initSt (⟨0, (renderRecNoNl false t).length⟩ : Reader) 0 with
        r := ⟨(renderRecNoNl false t).length,
          (renderRecNoNl false t).length⟩ }
      ((good_false _).mpr (le_refl _))]
  rw [readEl_one, workerReader_one, hmv, hsetLoop, hcntLoop]
  simp [initSt]

/-- C4 (corrected): a final line without a trailing newline is NOT parsed
like a newline-terminated one.  Pass 2 never stores the partial record's
values: with no flags set the scan stores exactly the preceding records
yet pass 1 still counts the partial record (`m = |l| + 1`, so the last
index is never written), while under any flag combination other than
all-false the (unweighted) flagged specializations neither store nor
count it. -/
theorem claim_C4_theorem (k : WKind) (sym ut sl : Bool) (l : List RecTxt)
    (t : RecTxt) (hwf : ∀ u ∈ l, recWF false u = true)
    (hwx : digStrB t.xd = true) (hwy : digStrB t.yd = true) :
    (readEl (renderInput false l ++ renderRecNoNl false t) k
        false false false false 1
        ⟨0, (renderInput false l ++ renderRecNoNl false t).length⟩).m =
      l.length + 1 ∧
    (readEl (renderInput false l ++ renderRecNoNl false t) k
        false false false false 1
        ⟨0, (renderInput false l ++ renderRecNoNl false t).length⟩).xs =
      (idealLogs false false false false 0 l).1 ∧
    (readEl (renderInput false l ++ renderRecNoNl false t) k
        false false false false 1
        ⟨0, (renderInput false l ++ renderRecNoNl false t).length⟩).ys =
      (idealLogs false false false false 0 l).2.1 ∧
    ((sym == false && ut == false && sl == false) = false →
      (readEl (renderRecNoNl false t) k sym ut sl false 1
          ⟨0, (renderRecNoNl false t).length⟩).m = 0 ∧
      (readEl (renderRecNoNl false t) k sym ut sl false 1
          ⟨0, (renderRecNoNl false t).length⟩).xs = []) := by
  rw [readEl_tail k l t hwf hwx hwy]
  refine ⟨rfl, rfl, rfl, fun hnf => ?_⟩
  rw [readEl_tail_flagged k sym ut sl hnf t hwx hwy]
  exact ⟨rfl, rfl⟩

theorem claim_C4_witness :
    (∀ u ∈ [(⟨['1'], ['2'], []⟩ : RecTxt)], recWF false u = true) ∧
    digStrB (⟨['3'], ['4'], []⟩ : RecTxt).xd = true ∧
    digStrB (⟨['3'], ['4'], []⟩ : RecTxt).yd = true ∧
    ((readEl (renderInput false [(⟨['1'], ['2'], []⟩ : RecTxt)] ++
        renderRecNoNl false (⟨['3'], ['4'], []⟩ : RecTxt)) WKind.iUnsigned
        false false false false 1
        ⟨0, (renderInput false [(⟨['1'], ['2'], []⟩ : RecTxt)] ++
          renderRecNoNl false (⟨['3'], ['4'], []⟩ : RecTxt)).length⟩).m =
      List.length [(⟨['1'], ['2'], []⟩ : RecTxt)] + 1 ∧
    (readEl (renderInput false [(⟨['1'], ['2'], []⟩ : RecTxt)] ++
        renderRecNoNl false (⟨['3'], ['4'], []⟩ : RecTxt)) WKind.iUnsigned
        false false false false 1
        ⟨0, (renderInput false [(⟨['1'], ['2'], []⟩ : RecTxt)] ++
          renderRecNoNl false (⟨['3'], ['4'], []⟩ : RecTxt)).length⟩).xs =
      (idealLogs false false false false 0
        [(⟨['1'], ['2'], []⟩ : RecTxt)]).1 ∧
    (readEl (renderInput false [(⟨['1'], ['2'], []⟩ : RecTxt)] ++
        renderRecNoNl false (⟨['3'], ['4'], []⟩ : RecTxt)) WKind.iUnsigned
        false false false false 1
        ⟨0, (renderInput false [(⟨['1'], ['2'], []⟩ : RecTxt)] ++
          renderRecNoNl false (⟨['3'], ['4'], []⟩ : RecTxt)).length⟩).ys =
      (idealLogs false false false false 0
        [(⟨['1'], ['2'], []⟩ : RecTxt)]).2.1 ∧
    ((true == false && false == false && false == false) = false →
      (readEl (renderRecNoNl false (⟨['3'], ['4'], []⟩ : RecTxt))
          WKind.iUnsigned true false false false 1
          ⟨0, (renderRecNoNl false (⟨['3'], ['4'], []⟩ : RecTxt)).length⟩).m =
        0 ∧
      (readEl (renderRecNoNl false (⟨['3'], ['4'], []⟩ : RecTxt))
          WKind.iUnsigned true false false false 1
          ⟨0, (renderRecNoNl false
            (⟨['3'], ['4'], []⟩ : RecTxt)).length⟩).xs = [])) :=
  ⟨by decide, by decide, by decide,
    claim_C4_theorem WKind.iUnsigned true false false
      [(⟨['1'], ['2'], []⟩ : RecTxt)] (⟨['3'], ['4'], []⟩ : RecTxt)
      (by decide) (by decide) (by decide)⟩

end Pigo

namespace Pigo

theorem renderRec_noNl (wgt : Bool) (t : RecTxt) :
    renderRec wgt t = renderRecNoNl wgt t ++ ['\n'] := by
  simp [renderRec, renderRecNoNl, List.append_assoc]

theorem renderRecNoNl_no_nl (wgt : Bool) (t : RecTxt)
    (hwt : recWF wgt t = true) :
    ∀ c ∈ renderRecNoNl wgt t, (c == '\n') = false := by
  obtain ⟨hwx, hwy, hww⟩ := recWF_parts wgt t hwt
  intro c hc
  unfold renderRecNoNl at hc
  simp only [List.mem_append, List.mem_singleton] at hc
  rcases hc with ((h | h) | h) | h
  · exact isDig_ne c '\n' (digStrB_all _ hwx c h) (by decide)
  · subst h
    decide
  · exact isDig_ne c '\n' (digStrB_all _ hwy c h) (by decide)
  · cases wgt with
    | false => simp at h
    | true =>
      simp only [if_true] at h
      rcases List.mem_cons.mp h with h2 | h2
      · subst h2
        decide
      · exact isDig_ne c '\n' (digStrB_all _ (hww rfl) c h2) (by decide)

theorem blockAt_drop (data : List Char) (d : Nat) (u : List Char)
    (hb : BlockAt data d u) (q : Nat) : BlockAt data (d + q) (u.drop q) := by
  intro i hi
  rw [List.length_drop] at hi
  have h := hb (q + i) (by omega)
  rw [show d + q + i = d + (q + i) from by omega, h]
  simp [List.getD_eq_getElem?_getD, List.getElem?_drop]

theorem splitAfterF_nil (wgt : Bool) (q : Nat) :
    splitAfterF wgt q [] = ([], []) := rfl

theorem splitAfterF_lt (wgt : Bool) (q : Nat) (t : RecTxt) (rest : List RecTxt)
    (h : q < (renderRec wgt t).length) :
    splitAfterF wgt q (t :: rest) = ([t], rest) := by
  simp only [splitAfterF]
  rw [if_pos h]

theorem splitAfterF_ge (wgt : Bool) (q : Nat) (t : RecTxt) (rest : List RecTxt)
    (h : (renderRec wgt t).length ≤ q) :
    splitAfterF wgt q (t :: rest) =
      (t :: (splitAfterF wgt (q - (renderRec wgt t).length) rest).1,
       (splitAfterF wgt (q - (renderRec wgt t).length) rest).2) := by
  simp only [splitAfterF]
  rw [if_neg (by omega)]

theorem splitAfterF_flat (wgt : Bool) :
    ∀ (l : List RecTxt) (q : Nat),
    (splitAfterF wgt q l).1 ++ (splitAfterF wgt q l).2 = l := by
  intro l
  induction l with
  | nil => intro q; rfl
  | cons t rest ih =>
    intro q
    by_cases h : q < (renderRec wgt t).length
    · rw [splitAfterF_lt wgt q t rest h]
      rfl
    · rw [splitAfterF_ge wgt q t rest (by omega)]
      rw [List.cons_append, ih]

theorem splitAfterF_all (wgt : Bool) :
    ∀ (l : List RecTxt) (q : Nat), (renderInput wgt l).length ≤ q →
    splitAfterF wgt q l = (l, []) := by
  intro l
  induction l with
  | nil => intro q _; rfl
  | cons t rest ih =>
    intro q hq
    rw [renderInput_cons, List.length_append] at hq
    have hrp := renderRec_len_pos wgt t
    rw [splitAfterF_ge wgt q t rest (by omega),
      ih (q - (renderRec wgt t).length) (by omega)]

theorem splitAfterF_take (wgt : Bool) (q : Nat) (l : List RecTxt) :
    l.take ((splitAfterF wgt q l).1.length) = (splitAfterF wgt q l).1 := by
  rcases hs : splitAfterF wgt q l with ⟨s1, s2⟩
  have hf := splitAfterF_flat wgt l q
  rw [hs] at hf
  rw [← hf]
  show (s1 ++ s2).take s1.length = s1
  exact List.take_left s1 s2

theorem splitAfterF_mono (wgt : Bool) :
    ∀ (l : List RecTxt) (q1 q2 : Nat), q1 ≤ q2 →
    (splitAfterF wgt q1 l).1.length ≤ (splitAfterF wgt q2 l).1.length := by
  intro l
  induction l with
  | nil => intro q1 q2 _; exact le_refl _
  | cons t rest ih =>
    intro q1 q2 h
    by_cases h1 : q1 < (renderRec wgt t).length
    · rw [splitAfterF_lt wgt q1 t rest h1]
      by_cases h2 : q2 < (renderRec wgt t).length
      · rw [splitAfterF_lt wgt q2 t rest h2]
      · rw [splitAfterF_ge wgt q2 t rest (by omega)]
        simp
    · have h2 : (renderRec wgt t).length ≤ q2 := by omega
      rw [splitAfterF_ge wgt q1 t rest (by omega),
        splitAfterF_ge wgt q2 t rest h2]
      simp only [List.length_cons]
      have := ih (q1 - (renderRec wgt t).length)
        (q2 - (renderRec wgt t).length) (by omega)
      omega

theorem eol_next_split (data : List Char) (wgt : Bool) :
    ∀ (l : List RecTxt) (d0 e q : Nat),
    (∀ u ∈ l, recWF wgt u = true) →
    BlockAt data d0 (renderInput wgt l) →
    d0 + (renderInput wgt l).length = e →
    q ≤ (renderInput wgt l).length →
    moveToNextInt data (moveToEol data ⟨d0 + q, e⟩) =
      ⟨d0 + (renderInput wgt (splitAfterF wgt q l).1).length, e⟩ := by
  intro l
  induction l with
  | nil =>
    intro d0 e q hwf hb hlen hq
    have hq0 : q = 0 := by simpa [renderInput_nil] using hq
    subst hq0
    rw [renderInput_nil] at hlen
    simp only [List.length_nil, Nat.add_zero] at hlen
    subst hlen
    rw [Nat.add_zero, moveToEol_stuck, moveToNextInt_stuck, splitAfterF_nil]
    simp [renderInput_nil]
  | cons t rest ih =>
    intro d0 e q hwf hb hlen hq
    have hwt := hwf t (by simp)
    obtain ⟨hwx, hwy, hww⟩ := recWF_parts wgt t hwt
    have hbC : BlockAt data d0 (renderRec wgt t ++ renderInput wgt rest) := by
      rw [← renderInput_cons]
      exact hb
    have hsp := (blockAt_append data (renderRec wgt t) (renderInput wgt rest)
      d0).mp hbC
    have hlenC : d0 + ((renderRec wgt t).length +
        (renderInput wgt rest).length) = e := by
      rw [← List.length_append, ← renderInput_cons]
      exact hlen
    have hlen1 : (renderRec wgt t).length = (renderRecNoNl wgt t).length + 1 := by
      rw [renderRec_noNl]
      simp
    by_cases hcase : q < (renderRec wgt t).length
    · rw [splitAfterF_lt wgt q t rest hcase]
      have hbody : BlockAt data d0 (renderRecNoNl wgt t ++ ['\n']) := by
        rw [← renderRec_noNl]
        exact hsp.1
      have hsb := (blockAt_append data (renderRecNoNl wgt t) ['\n'] d0).mp hbody
      have hnl : chAt data (d0 + (renderRecNoNl wgt t).length) = '\n' := by
        simpa using hsb.2 0 (by simp)
      have hqb : q ≤ (renderRecNoNl wgt t).length := by omega
      have hdrop : BlockAt data (d0 + q) ((renderRecNoNl wgt t).drop q) :=
        blockAt_drop data d0 (renderRecNoNl wgt t) hsb.1 q
      have heol : moveToEol data ⟨d0 + q, e⟩ =
          ⟨d0 + (renderRecNoNl wgt t).length, e⟩ := by
        have h := moveToEol_span data ((renderRecNoNl wgt t).drop q) (d0 + q) e
          hdrop
          (fun c hc => renderRecNoNl_no_nl wgt t hwt c (List.mem_of_mem_drop hc))
          (by rw [List.length_drop]; omega)
          (by
            right
            rw [List.length_drop]
            rw [show d0 + q + ((renderRecNoNl wgt t).length - q) =
              d0 + (renderRecNoNl wgt t).length from by omega]
            exact hnl)
        rw [List.length_drop] at h
        rw [show d0 + q + ((renderRecNoNl wgt t).length - q) =
          d0 + (renderRecNoNl wgt t).length from by omega] at h
        exact h
      rw [heol]
      have hlt : d0 + (renderRecNoNl wgt t).length < e := by omega
      have hnext : d0 + (renderRecNoNl wgt t).length + 1 = e ∨
          isDig (chAt data (d0 + (renderRecNoNl wgt t).length + 1)) = true := by
        cases hre : rest with
        | nil =>
          left
          rw [hre, renderInput_nil] at hlenC
          simp at hlenC
          omega
        | cons t2 r2 =>
          right
          rw [show d0 + (renderRecNoNl wgt t).length + 1 =
            d0 + (renderRec wgt t).length from by omega]
          exact renderInput_first_digit data wgt rest
            (d0 + (renderRec wgt t).length) (by rw [hre]; simp)
            (fun u hu => hwf u (by simp [hu])) hsp.2
      rw [afterNl_move data (d0 + (renderRecNoNl wgt t).length) e hnl hlt hnext]
      exact congrArg (fun z => (⟨z, e⟩ : Reader)) (by
        rw [renderInput_cons, renderInput_nil, List.append_nil]
        omega)
    · rw [splitAfterF_ge wgt q t rest (by omega)]
      have hq2 : q - (renderRec wgt t).length ≤ (renderInput wgt rest).length := by
        rw [renderInput_cons, List.length_append] at hq
        omega
      rw [show d0 + q =
        (d0 + (renderRec wgt t).length) + (q - (renderRec wgt t).length) from
        by omega]
      rw [ih (d0 + (renderRec wgt t).length) e (q - (renderRec wgt t).length)
        (fun u hu => hwf u (by simp [hu])) hsp.2 (by omega) hq2]
      exact congrArg (fun z => (⟨z, e⟩ : Reader)) (by
        rw [renderInput_cons, List.length_append]
        omega)

end Pigo

namespace Pigo

theorem prefix_render_le (wgt : Bool) (l : List RecTxt) (q : Nat) :
    (renderInput wgt (splitAfterF wgt q l).1).length ≤
      (renderInput wgt l).length := by
  conv_rhs => rw [← splitAfterF_flat wgt l q]
  rw [renderInput_append, List.length_append]
  omega

theorem workerPrefix_zero (wgt : Bool) (l : List RecTxt) (P : Nat) :
    workerPrefix wgt l P 0 = [] := by
  unfold workerPrefix
  rw [if_pos rfl]

theorem workerPrefix_succ_eq (wgt : Bool) (l : List RecTxt) (P b : Nat) :
    workerPrefix wgt l P (b + 1) =
      (splitAfterF wgt (((b + 1) * (renderInput wgt l).length) / P) l).1 := by
  unfold workerPrefix
  rw [if_neg (by omega)]

theorem workerPrefix_take (wgt : Bool) (l : List RecTxt) (P a : Nat) :
    l.take (workerPrefix wgt l P a).length = workerPrefix wgt l P a := by
  cases a with
  | zero => simp [workerPrefix_zero]
  | succ b =>
    rw [workerPrefix_succ_eq]
    exact splitAfterF_take wgt _ l

theorem workerPrefix_mono_len (wgt : Bool) (l : List RecTxt) (P a : Nat) :
    (workerPrefix wgt l P a).length ≤ (workerPrefix wgt l P (a + 1)).length := by
  cases a with
  | zero => simp [workerPrefix_zero]
  | succ b =>
    rw [workerPrefix_succ_eq wgt l P b, workerPrefix_succ_eq wgt l P (b + 1)]
    refine splitAfterF_mono wgt l _ _ ?_
    refine Nat.div_le_div_right ?_
    exact Nat.mul_le_mul_right _ (by omega)

theorem workerPrefix_glue (wgt : Bool) (l : List RecTxt) (P a : Nat) :
    workerPrefix wgt l P (a + 1) =
      workerPrefix wgt l P a ++
        ((workerPrefix wgt l P (a + 1)).drop
          (workerPrefix wgt l P a).length) := by
  have hm := workerPrefix_mono_len wgt l P a
  have h1 := workerPrefix_take wgt l P a
  have h2 := workerPrefix_take wgt l P (a + 1)
  calc workerPrefix wgt l P (a + 1)
      = l.take (workerPrefix wgt l P (a + 1)).length := h2.symm
    _ = (l.take (workerPrefix wgt l P (a + 1)).length).take
          (workerPrefix wgt l P a).length ++
        ((l.take (workerPrefix wgt l P (a + 1)).length).drop
          (workerPrefix wgt l P a).length) :=
        (List.take_append_drop _ _).symm
    _ = workerPrefix wgt l P a ++
        ((workerPrefix wgt l P (a + 1)).drop
          (workerPrefix wgt l P a).length) := by
        rw [List.take_take, Nat.min_eq_left hm, h1, h2]

theorem workerReader_render (wgt : Bool) (l : List RecTxt)
    (hwf : ∀ u ∈ l, recWF wgt u = true) (P : Nat) (hP : 0 < P) (a : Nat)
    (ha : a < P) :
    workerReader (renderInput wgt l) ⟨0, (renderInput wgt l).length⟩ P a =
      ⟨(renderInput wgt (workerPrefix wgt l P a)).length,
       (renderInput wgt (workerPrefix wgt l P (a + 1))).length⟩ := by
  have hbnd : ∀ b : Nat, b ≠ 0 → b ≤ P →
      moveToNextInt (renderInput wgt l)
        (moveToEol (renderInput wgt l)
          ⟨(b * (renderInput wgt l).length) / P,
            (renderInput wgt l).length⟩) =
      ⟨(renderInput wgt (workerPrefix wgt l P b)).length,
        (renderInput wgt l).length⟩ := by
    intro b hb0 hbP
    have hq : (b * (renderInput wgt l).length) / P ≤
        (renderInput wgt l).length := by
      have h1 : b * (renderInput wgt l).length ≤
          P * (renderInput wgt l).length :=
        Nat.mul_le_mul_right _ hbP
      have h2 : b * (renderInput wgt l).length / P ≤
          P * (renderInput wgt l).length / P := Nat.div_le_div_right h1
      have h3 : P * (renderInput wgt l).length / P =
          (renderInput wgt l).length := by
        rw [Nat.mul_div_cancel_left _ hP]
      omega
    have h := eol_next_split (renderInput wgt l) wgt l 0
      (renderInput wgt l).length ((b * (renderInput wgt l).length) / P) hwf
      (blockAt_self _) (Nat.zero_add _) hq
    simp only [Nat.zero_add] at h
    cases b with
    | zero => exact absurd rfl hb0
    | succ b2 =>
      rw [workerPrefix_succ_eq wgt l P b2]
      exact h
  unfold workerReader
  simp only [Reader.size, Nat.sub_zero, Nat.zero_add]
  cases a with
  | zero =>
    simp only [Nat.zero_mul, Nat.zero_div, bne_self_eq_false,
      Bool.false_eq_true, if_false]
    rw [moveToFirstInt_render wgt l hwf]
    rw [hbnd (0 + 1) (by omega) (by omega)]
    rw [show (renderInput wgt (workerPrefix wgt l P 0)).length = 0 from by
      rw [workerPrefix_zero, renderInput_nil]
      rfl]
    have hle1 : (renderInput wgt (workerPrefix wgt l P (0 + 1))).length ≤
        (renderInput wgt l).length := by
      rw [workerPrefix_succ_eq wgt l P 0]
      exact prefix_render_le wgt l _
    by_cases hlt : (renderInput wgt (workerPrefix wgt l P (0 + 1))).length <
        (renderInput wgt l).length
    · rw [if_pos hlt]
    · rw [if_neg hlt]
      have heq : (renderInput wgt (workerPrefix wgt l P (0 + 1))).length =
          (renderInput wgt l).length := by omega
      rw [heq]
  | succ b =>
    rw [if_pos (by simp)]
    rw [hbnd (b + 1) (by omega) (by omega),
      hbnd (b + 1 + 1) (by omega) (by omega)]
    have hle1 : (renderInput wgt (workerPrefix wgt l P (b + 1 + 1))).length ≤
        (renderInput wgt l).length := by
      rw [workerPrefix_succ_eq wgt l P (b + 1)]
      exact prefix_render_le wgt l _
    by_cases hlt : (renderInput wgt (workerPrefix wgt l P (b + 1 + 1))).length <
        (renderInput wgt l).length
    · rw [if_pos hlt]
    · rw [if_neg hlt]
      have heq : (renderInput wgt (workerPrefix wgt l P (b + 1 + 1))).length =
          (renderInput wgt l).length := by omega
      rw [heq]

end Pigo

namespace Pigo

theorem iteMax (v : Nat) :
    ∀ x : Nat, (if decide (x < v) then v else x) = max x v := by
  intro x
  by_cases h : x < v
  · rw [if_pos (by simpa using h), Nat.max_eq_right (le_of_lt h)]
  · rw [if_neg (by simpa using h), Nat.max_eq_left (by omega)]

theorem idealMaxR_factor (sym ut sl : Bool) :
    ∀ (l : List RecTxt) (a : Nat),
    idealMaxR sym ut sl a l = max a (idealMaxR sym ut sl 0 l) := by
  intro l
  induction l with
  | nil =>
    intro a
    simp [idealMaxR_nil]
  | cons t rest ih =>
    intro a
    by_cases hd : recDrop sym ut sl (digVal t.xd) (digVal t.yd) = true
    · rw [idealMaxR_drop sym ut sl a t rest hd,
        idealMaxR_drop sym ut sl 0 t rest hd]
      exact ih a
    · simp only [Bool.not_eq_true] at hd
      rw [idealMaxR_keep sym ut sl a t rest hd,
        idealMaxR_keep sym ut sl 0 t rest hd,
        iteMax ((swapXY sym ut (digVal t.xd) (digVal t.yd)).1) a,
        iteMax ((swapXY sym ut (digVal t.xd) (digVal t.yd)).1) 0,
        ih (max a ((swapXY sym ut (digVal t.xd) (digVal t.yd)).1)),
        ih (max 0 ((swapXY sym ut (digVal t.xd) (digVal t.yd)).1)),
        Nat.zero_max, Nat.max_assoc]

theorem idealMaxC_factor (sym ut sl : Bool) :
    ∀ (l : List RecTxt) (a : Nat),
    idealMaxC sym ut sl a l = max a (idealMaxC sym ut sl 0 l) := by
  intro l
  induction l with
  | nil =>
    intro a
    simp [idealMaxC_nil]
  | cons t rest ih =>
    intro a
    by_cases hd : recDrop sym ut sl (digVal t.xd) (digVal t.yd) = true
    · rw [idealMaxC_drop sym ut sl a t rest hd,
        idealMaxC_drop sym ut sl 0 t rest hd]
      exact ih a
    · simp only [Bool.not_eq_true] at hd
      rw [idealMaxC_keep sym ut sl a t rest hd,
        idealMaxC_keep sym ut sl 0 t rest hd,
        iteMax ((swapXY sym ut (digVal t.xd) (digVal t.yd)).2) a,
        iteMax ((swapXY sym ut (digVal t.xd) (digVal t.yd)).2) 0,
        ih (max a ((swapXY sym ut (digVal t.xd) (digVal t.yd)).2)),
        ih (max 0 ((swapXY sym ut (digVal t.xd) (digVal t.yd)).2)),
        Nat.zero_max, Nat.max_assoc]

theorem hbE_prefix (wgt : Bool) (l : List RecTxt)
    (hwf : ∀ u ∈ l, recWF wgt u = true) (j : Nat) :
    isDig (chAt (renderInput wgt l) (renderInput wgt (l.take j)).length) =
      true ∨
    chAt (renderInput wgt l) (renderInput wgt (l.take j)).length =
      Char.ofNat 0 := by
  cases hd : l.drop j with
  | nil =>
    right
    have htj : l.take j = l := by
      have h2 := List.take_append_drop j l
      rw [hd, List.append_nil] at h2
      exact h2
    rw [htj]
    exact chAt_end _
  | cons t2 r2 =>
    left
    have hsplit := List.take_append_drop j l
    have hrender : renderInput wgt l =
        renderInput wgt (l.take j) ++ renderInput wgt (l.drop j) := by
      rw [← renderInput_append, hsplit]
    have hb1 := (blockAt_append (renderInput wgt l) (renderInput wgt (l.take j))
      (renderInput wgt (l.drop j)) 0).mp
      (by rw [← hrender]; exact blockAt_self _)
    have hb2 := hb1.2
    simp only [Nat.zero_add] at hb2
    rw [hd] at hb2
    exact renderInput_first_digit _ wgt (t2 :: r2) _ (by simp)
      (fun u hu => hwf u
        (List.mem_of_mem_drop (by rw [hd]; exact hu))) hb2

theorem worker_set_char (k : WKind) (sym ut sl wgt : Bool) (l : List RecTxt)
    (hwf : ∀ u ∈ l, recWF wgt u = true) (P : Nat) (hP : 0 < P) (a : Nat)
    (ha : a < P) (p0 : Nat) :
    scanLoop (stepSet (renderInput wgt l) k sym ut sl wgt)
        (initSt (workerReader (renderInput wgt l)
          ⟨0, (renderInput wgt l).length⟩ P a) p0) =
      { xs := (idealLogs sym ut sl wgt p0
          ((workerPrefix wgt l P (a + 1)).drop
            (workerPrefix wgt l P a).length)).1,
        ys := (idealLogs sym ut sl wgt p0
          ((workerPrefix wgt l P (a + 1)).drop
            (workerPrefix wgt l P a).length)).2.1,
        ws := (idealLogs sym ut sl wgt p0
          ((workerPrefix wgt l P (a + 1)).drop
            (workerPrefix wgt l P a).length)).2.2 ++
          idealTrail sym ut sl wgt
            ((workerPrefix wgt l P (a + 1)).drop
              (workerPrefix wgt l P a).length)
            (p0 + emitsSum sym ut sl
              ((workerPrefix wgt l P (a + 1)).drop
                (workerPrefix wgt l P a).length)),
        pos := p0 + emitsSum sym ut sl
          ((workerPrefix wgt l P (a + 1)).drop
            (workerPrefix wgt l P a).length),
        r := ⟨(renderInput wgt (workerPrefix wgt l P (a + 1))).length,
          (renderInput wgt (workerPrefix wgt l P (a + 1))).length⟩,
        maxRow := idealMaxR sym ut sl 0
          ((workerPrefix wgt l P (a + 1)).drop
            (workerPrefix wgt l P a).length),
        maxCol := idealMaxC sym ut sl 0
          ((workerPrefix wgt l P (a + 1)).drop
            (workerPrefix wgt l P a).length) } := by
  rw [workerReader_render wgt l hwf P hP a ha]
  set A := workerPrefix wgt l P a with hA
  set B := workerPrefix wgt l P (a + 1) with hB
  set S := B.drop A.length with hS
  set R := l.drop B.length with hR
  have hpre : B = A ++ S := workerPrefix_glue wgt l P a
  have htake : l.take B.length = B := workerPrefix_take wgt l P (a + 1)
  have hlsplit : l = B ++ R := by
    conv_lhs => rw [← List.take_append_drop B.length l]
    rw [htake]
  have hrender : renderInput wgt l =
      renderInput wgt A ++ (renderInput wgt S ++ renderInput wgt R) := by
    conv_lhs => rw [hlsplit]
    rw [renderInput_append]
    conv_lhs => rw [hpre]
    rw [renderInput_append, List.append_assoc]
  have hwfS : ∀ u ∈ S, recWF wgt u = true := fun u hu => hwf u (by
    rw [hlsplit, hpre]
    simp [hu])
  have hbS : BlockAt (renderInput wgt l) (renderInput wgt A).length
      (renderInput wgt S) := by
    have h1 : BlockAt (renderInput wgt l) 0
        (renderInput wgt A ++ (renderInput wgt S ++ renderInput wgt R)) := by
      rw [← hrender]
      exact blockAt_self _
    have h2 := (blockAt_append _ _ _ 0).mp h1
    have h3 := (blockAt_append _ _ _ _).mp h2.2
    simpa using h3.1
  have hlen : (renderInput wgt A).length + (renderInput wgt S).length =
      (renderInput wgt B).length := by
    conv_rhs => rw [hpre]
    rw [renderInput_append, List.length_append]
  have hbE : isDig (chAt (renderInput wgt l) (renderInput wgt B).length) =
      true ∨
      chAt (renderInput wgt l) (renderInput wgt B).length = Char.ofNat 0 := by
    have h := hbE_prefix wgt l hwf B.length
    rw [htake] at h
    exact h
  have h := scanSet_render (renderInput wgt l) k sym ut sl wgt
    (renderInput wgt B).length hbE S.length S (le_refl _)
    (initSt ⟨(renderInput wgt A).length, (renderInput wgt B).length⟩ p0)
    (renderInput wgt A).length
    ((initSt (⟨(renderInput wgt A).length,
        (renderInput wgt B).length⟩ : Reader) p0).r.e -
      (initSt (⟨(renderInput wgt A).length,
        (renderInput wgt B).length⟩ : Reader) p0).r.d + 1)
    rfl hwfS hbS (by omega)
    (by
      show (renderInput wgt B).length - (renderInput wgt A).length <
        (renderInput wgt B).length - (renderInput wgt A).length + 1
      omega)
  refine Eq.trans h ?_
  simp [initSt]

theorem worker_count_char (k : WKind) (sym ut sl wgt : Bool) (l : List RecTxt)
    (hwf : ∀ u ∈ l, recWF wgt u = true) (P : Nat) (hP : 0 < P) (a : Nat)
    (ha : a < P) (p0 : Nat) :
    scanLoop (stepCount (renderInput wgt l) k sym ut sl wgt)
        (initSt (workerReader (renderInput wgt l)
          ⟨0, (renderInput wgt l).length⟩ P a) p0) =
      { xs := [],
        ys := [],
        ws := [],
        pos := p0 + emitsSum sym ut sl
          ((workerPrefix wgt l P (a + 1)).drop
            (workerPrefix wgt l P a).length),
        r := ⟨(renderInput wgt (workerPrefix wgt l P (a + 1))).length,
          (renderInput wgt (workerPrefix wgt l P (a + 1))).length⟩,
        maxRow := 0,
        maxCol := 0 } := by
  rw [workerReader_render wgt l hwf P hP a ha]
  set A := workerPrefix wgt l P a with hA
  set B := workerPrefix wgt l P (a + 1) with hB
  set S := B.drop A.length with hS
  set R := l.drop B.length with hR
  have hpre : B = A ++ S := workerPrefix_glue wgt l P a
  have htake : l.take B.length = B := workerPrefix_take wgt l P (a + 1)
  have hlsplit : l = B ++ R := by
    conv_lhs => rw [← List.take_append_drop B.length l]
    rw [htake]
  have hrender : renderInput wgt l =
      renderInput wgt A ++ (renderInput wgt S ++ renderInput wgt R) := by
    conv_lhs => rw [hlsplit]
    rw [renderInput_append]
    conv_lhs => rw [hpre]
    rw [renderInput_append, List.append_assoc]
  have hwfS : ∀ u ∈ S, recWF wgt u = true := fun u hu => hwf u (by
    rw [hlsplit, hpre]
    simp [hu])
  have hbS : BlockAt (renderInput wgt l) (renderInput wgt A).length
      (renderInput wgt S) := by
    have h1 : BlockAt (renderInput wgt l) 0
        (renderInput wgt A ++ (renderInput wgt S ++ renderInput wgt R)) := by
      rw [← hrender]
      exact blockAt_self _
    have h2 := (blockAt_append _ _ _ 0).mp h1
    have h3 := (blockAt_append _ _ _ _).mp h2.2
    simpa using h3.1
  have hlen : (renderInput wgt A).length + (renderInput wgt S).length =
      (renderInput wgt B).length := by
    conv_rhs => rw [hpre]
    rw [renderInput_append, List.length_append]
  have hbE : isDig (chAt (renderInput wgt l) (renderInput wgt B).length) =
      true ∨
      chAt (renderInput wgt l) (renderInput wgt B).length = Char.ofNat 0 := by
    have h := hbE_prefix wgt l hwf B.length
    rw [htake] at h
    exact h
  have h := scanCount_render (renderInput wgt l) k sym ut sl wgt
    (renderInput wgt B).length hbE S.length S (le_refl _)
    (initSt ⟨(renderInput wgt A).length, (renderInput wgt B).length⟩ p0)
    (renderInput wgt A).length
    ((initSt (⟨(renderInput wgt A).length,
        (renderInput wgt B).length⟩ : Reader) p0).r.e -
      (initSt (⟨(renderInput wgt A).length,
        (renderInput wgt B).length⟩ : Reader) p0).r.d + 1)
    rfl hwfS hbS (by omega)
    (by
      show (renderInput wgt B).length - (renderInput wgt A).length <
        (renderInput wgt B).length - (renderInput wgt A).length + 1
      omega)
  refine Eq.trans h ?_
  simp [initSt]

end Pigo

namespace Pigo

theorem drop_split {α : Type} :
    ∀ (l : List α) (m n : Nat), m ≤ n →
    l.drop m = (l.take n).drop m ++ l.drop n := by
  intro l
  induction l with
  | nil =>
    intro m n h
    simp
  | cons x xs ih =>
    intro m n h
    cases m with
    | zero => simp [List.take_append_drop]
    | succ m2 =>
      cases n with
      | zero => omega
      | succ n2 =>
        simp only [List.drop_succ_cons, List.take_succ_cons]
        exact ih m2 n2 (by omega)

theorem drop_prefix_split (wgt : Bool) (l : List RecTxt) (P a : Nat) :
    l.drop (workerPrefix wgt l P a).length =
      ((workerPrefix wgt l P (a + 1)).drop
        (workerPrefix wgt l P a).length) ++
        l.drop (workerPrefix wgt l P (a + 1)).length := by
  rw [drop_split l (workerPrefix wgt l P a).length
    (workerPrefix wgt l P (a + 1)).length (workerPrefix_mono_len wgt l P a)]
  rw [workerPrefix_take wgt l P (a + 1)]

theorem workerPrefix_full (wgt : Bool) (l : List RecTxt) (P : Nat)
    (hP : 0 < P) : workerPrefix wgt l P P = l := by
  unfold workerPrefix
  rw [if_neg (by omega), Nat.mul_div_cancel_left _ hP,
    splitAfterF_all wgt l _ (le_refl _)]

theorem pre_emits_step (sym ut sl wgt : Bool) (l : List RecTxt) (P a : Nat) :
    emitsSum sym ut sl (workerPrefix wgt l P a) +
      emitsSum sym ut sl ((workerPrefix wgt l P (a + 1)).drop
        (workerPrefix wgt l P a).length) =
      emitsSum sym ut sl (workerPrefix wgt l P (a + 1)) := by
  conv_rhs => rw [workerPrefix_glue wgt l P a]
  rw [emitsSum_append]

theorem slice_sub (wgt : Bool) (l : List RecTxt) (P a : Nat) :
    ∀ u ∈ (workerPrefix wgt l P (a + 1)).drop
      (workerPrefix wgt l P a).length, u ∈ l := by
  intro u hu
  have h1 : u ∈ workerPrefix wgt l P (a + 1) := List.mem_of_mem_drop hu
  rw [← workerPrefix_take wgt l P (a + 1)] at h1
  exact List.mem_of_mem_take h1

theorem trail_nil_of_cond (sym ut sl wgt : Bool) (l S : List RecTxt)
    (hsub : ∀ u ∈ S, u ∈ l)
    (hcond : wgt = false ∨
      ∀ u ∈ l, recDrop sym ut sl (digVal u.xd) (digVal u.yd) = false)
    (p : Nat) :
    idealTrail sym ut sl wgt S p = [] := by
  unfold idealTrail
  rcases hcond with h | h
  · rw [h]
    simp
  · rw [lastDropped_kept sym ut sl S (fun u hu => h u (hsub u hu))]
    simp

theorem counts_suffix (k : WKind) (sym ut sl wgt : Bool) (l : List RecTxt)
    (hwf : ∀ u ∈ l, recWF wgt u = true) (P : Nat) (hP : 0 < P) :
    ∀ b a, a + b = P →
    (((List.range' a b).map (fun t =>
        (scanLoop (stepCount (renderInput wgt l) k sym ut sl wgt)
          (initSt (workerReader (renderInput wgt l)
            ⟨0, (renderInput wgt l).length⟩ P t) 0)).pos)).sum) =
      emitsSum sym ut sl (l.drop (workerPrefix wgt l P a).length) := by
  intro b
  induction b with
  | zero =>
    intro a hab
    have haP : a = P := by omega
    rw [haP, workerPrefix_full wgt l P hP]
    simp [emitsSum_nil]
  | succ b ih =>
    intro a hab
    rw [List.range'_succ, List.map_cons, List.sum_cons,
      worker_count_char k sym ut sl wgt l hwf P hP a (by omega) 0,
      ih (a + 1) (by omega)]
    try dsimp only
    rw [drop_prefix_split wgt l P a, emitsSum_append]
    omega

theorem counts_prefix (k : WKind) (sym ut sl wgt : Bool) (l : List RecTxt)
    (hwf : ∀ u ∈ l, recWF wgt u = true) (P : Nat) (hP : 0 < P) :
    ∀ a, a ≤ P →
    ((((List.range P).map (fun t =>
        (scanLoop (stepCount (renderInput wgt l) k sym ut sl wgt)
          (initSt (workerReader (renderInput wgt l)
            ⟨0, (renderInput wgt l).length⟩ P t) 0)).pos)).take a).sum) =
      emitsSum sym ut sl (workerPrefix wgt l P a) := by
  intro a
  induction a with
  | zero =>
    intro _
    simp [workerPrefix_zero, emitsSum_nil]
  | succ a ih =>
    intro ha
    rw [List.take_succ, List.sum_append, ih (by omega)]
    have hget : (((List.range P).map (fun t =>
        (scanLoop (stepCount (renderInput wgt l) k sym ut sl wgt)
          (initSt (workerReader (renderInput wgt l)
            ⟨0, (renderInput wgt l).length⟩ P t) 0)).pos))[a]?) =
        some ((scanLoop (stepCount (renderInput wgt l) k sym ut sl wgt)
          (initSt (workerReader (renderInput wgt l)
            ⟨0, (renderInput wgt l).length⟩ P a) 0)).pos) := by
      rw [List.getElem?_map, List.getElem?_range (by omega)]
      rfl
    rw [hget, worker_count_char k sym ut sl wgt l hwf P hP a (by omega) 0]
    simp only [Option.toList_some, List.sum_cons, List.sum_nil]
    try dsimp only
    have hstep := pre_emits_step sym ut sl wgt l P a
    omega

theorem sts_suffix (k : WKind) (sym ut sl wgt : Bool) (l : List RecTxt)
    (hwf : ∀ u ∈ l, recWF wgt u = true) (P : Nat) (hP : 0 < P) :
    ∀ b a, a + b = P →
    (((List.range' a b).map (fun t =>
        (scanLoop (stepSet (renderInput wgt l) k sym ut sl wgt)
          (initSt (workerReader (renderInput wgt l)
            ⟨0, (renderInput wgt l).length⟩ P t)
            (emitsSum sym ut sl (workerPrefix wgt l P t)))).xs)).flatten =
      (idealLogs sym ut sl wgt (emitsSum sym ut sl (workerPrefix wgt l P a))
        (l.drop (workerPrefix wgt l P a).length)).1) ∧
    (((List.range' a b).map (fun t =>
        (scanLoop (stepSet (renderInput wgt l) k sym ut sl wgt)
          (initSt (workerReader (renderInput wgt l)
            ⟨0, (renderInput wgt l).length⟩ P t)
            (emitsSum sym ut sl (workerPrefix wgt l P t)))).ys)).flatten =
      (idealLogs sym ut sl wgt (emitsSum sym ut sl (workerPrefix wgt l P a))
        (l.drop (workerPrefix wgt l P a).length)).2.1) ∧
    ((wgt = false ∨
      ∀ u ∈ l, recDrop sym ut sl (digVal u.xd) (digVal u.yd) = false) →
      (((List.range' a b).map (fun t =>
        (scanLoop (stepSet (renderInput wgt l) k sym ut sl wgt)
          (initSt (workerReader (renderInput wgt l)
            ⟨0, (renderInput wgt l).length⟩ P t)
            (emitsSum sym ut sl (workerPrefix wgt l P t)))).ws)).flatten =
      (idealLogs sym ut sl wgt (emitsSum sym ut sl (workerPrefix wgt l P a))
        (l.drop (workerPrefix wgt l P a).length)).2.2)) ∧
    (∀ acc : Nat,
      ((List.range' a b).map (fun t =>
        (scanLoop (stepSet (renderInput wgt l) k sym ut sl wgt)
          (initSt (workerReader (renderInput wgt l)
            ⟨0, (renderInput wgt l).length⟩ P t)
            (emitsSum sym ut sl (workerPrefix wgt l P t)))).maxRow)).foldl
          max acc =
      idealMaxR sym ut sl acc (l.drop (workerPrefix wgt l P a).length)) ∧
    (∀ acc : Nat,
      ((List.range' a b).map (fun t =>
        (scanLoop (stepSet (renderInput wgt l) k sym ut sl wgt)
          (initSt (workerReader (renderInput wgt l)
            ⟨0, (renderInput wgt l).length⟩ P t)
            (emitsSum sym ut sl (workerPrefix wgt l P t)))).maxCol)).foldl
          max acc =
      idealMaxC sym ut sl acc (l.drop (workerPrefix wgt l P a).length)) := by
  intro b
  induction b with
  | zero =>
    intro a hab
    have haP : a = P := by omega
    rw [haP, workerPrefix_full wgt l P hP]
    simp [idealLogs_nil, idealMaxR_nil, idealMaxC_nil]
  | succ b ih =>
    intro a hab
    obtain ⟨ih1, ih2, ih3, ih4, ih5⟩ := ih (a + 1) (by omega)
    rw [List.range'_succ]
    simp only [List.map_cons, List.flatten_cons, List.foldl_cons]
    rw [worker_set_char k sym ut sl wgt l hwf P hP a (by omega)
      (emitsSum sym ut sl (workerPrefix wgt l P a))]
    refine ⟨?_, ?_, ?_, ?_, ?_⟩
    · dsimp only
      rw [ih1, drop_prefix_split wgt l P a,
        idealLogs_append sym ut sl wgt
          ((workerPrefix wgt l P (a + 1)).drop
            (workerPrefix wgt l P a).length)
          (l.drop (workerPrefix wgt l P (a + 1)).length)
          (emitsSum sym ut sl (workerPrefix wgt l P a))]
      try dsimp only
      rw [pre_emits_step sym ut sl wgt l P a]
    · dsimp only
      rw [ih2, drop_prefix_split wgt l P a,
        idealLogs_append sym ut sl wgt
          ((workerPrefix wgt l P (a + 1)).drop
            (workerPrefix wgt l P a).length)
          (l.drop (workerPrefix wgt l P (a + 1)).length)
          (emitsSum sym ut sl (workerPrefix wgt l P a))]
      try dsimp only
      rw [pre_emits_step sym ut sl wgt l P a]
    · intro hcond
      dsimp only
      rw [trail_nil_of_cond sym ut sl wgt l
        ((workerPrefix wgt l P (a + 1)).drop
          (workerPrefix wgt l P a).length)
        (slice_sub wgt l P a) hcond
        (emitsSum sym ut sl (workerPrefix wgt l P a) +
          emitsSum sym ut sl ((workerPrefix wgt l P (a + 1)).drop
            (workerPrefix wgt l P a).length)),
        List.append_nil]
      rw [ih3 hcond, drop_prefix_split wgt l P a,
        idealLogs_append sym ut sl wgt
          ((workerPrefix wgt l P (a + 1)).drop
            (workerPrefix wgt l P a).length)
          (l.drop (workerPrefix wgt l P (a + 1)).length)
          (emitsSum sym ut sl (workerPrefix wgt l P a))]
      try dsimp only
      rw [pre_emits_step sym ut sl wgt l P a]
    · intro acc
      try dsimp only
      rw [← idealMaxR_factor sym ut sl
        ((workerPrefix wgt l P (a + 1)).drop
          (workerPrefix wgt l P a).length) acc]
      rw [ih4 (idealMaxR sym ut sl acc
        ((workerPrefix wgt l P (a + 1)).drop
          (workerPrefix wgt l P a).length))]
      rw [drop_prefix_split wgt l P a, idealMaxR_append]
    · intro acc
      try dsimp only
      rw [← idealMaxC_factor sym ut sl
        ((workerPrefix wgt l P (a + 1)).drop
          (workerPrefix wgt l P a).length) acc]
      rw [ih5 (idealMaxC sym ut sl acc
        ((workerPrefix wgt l P (a + 1)).drop
          (workerPrefix wgt l P a).length))]
      rw [drop_prefix_split wgt l P a, idealMaxC_append]

end Pigo

namespace Pigo

theorem readEl_renderP (k : WKind) (sym ut sl wgt : Bool) (l : List RecTxt)
    (hwf : ∀ u ∈ l, recWF wgt u = true) (P : Nat) (hP : 0 < P) :
    (readEl (renderInput wgt l) k sym ut sl wgt P
        ⟨0, (renderInput wgt l).length⟩).m = emitsSum sym ut sl l ∧
    (readEl (renderInput wgt l) k sym ut sl wgt P
        ⟨0, (renderInput wgt l).length⟩).xs =
      (idealLogs sym ut sl wgt 0 l).1 ∧
    (readEl (renderInput wgt l) k sym ut sl wgt P
        ⟨0, (renderInput wgt l).length⟩).ys =
      (idealLogs sym ut sl wgt 0 l).2.1 ∧
    (readEl (renderInput wgt l) k sym ut sl wgt P
        ⟨0, (renderInput wgt l).length⟩).nrows =
      idealMaxR sym ut sl 0 l + 1 ∧
    (readEl (renderInput wgt l) k sym ut sl wgt P
        ⟨0, (renderInput wgt l).length⟩).ncols =
      idealMaxC sym ut sl 0 l + 1 ∧
    (readEl (renderInput wgt l) k sym ut sl wgt P
        ⟨0, (renderInput wgt l).length⟩).n =
      (if idealMaxC sym ut sl 0 l + 1 < idealMaxR sym ut sl 0 l + 1 then
        idealMaxR sym ut sl 0 l + 1
      else idealMaxC sym ut sl 0 l + 1) ∧
    ((wgt = false ∨
      ∀ u ∈ l, recDrop sym ut sl (digVal u.xd) (digVal u.yd) = false) →
      (readEl (renderInput wgt l) k sym ut sl wgt P
          ⟨0, (renderInput wgt l).length⟩).ws =
        (idealLogs sym ut sl wgt 0 l).2.2) := by
  have hcomp : ((fun rr => (scanLoop (stepCount (renderInput wgt l) k sym ut
      sl wgt) (initSt rr 0)).pos) ∘ fun t =>
        workerReader (renderInput wgt l)
          ⟨0, (renderInput wgt l).length⟩ P t) =
      (fun t => (scanLoop (stepCount (renderInput wgt l) k sym ut sl wgt)
        (initSt (workerReader (renderInput wgt l)
          ⟨0, (renderInput wgt l).length⟩ P t) 0)).pos) := rfl
  have hsum : ((List.range P).map (fun t =>
      (scanLoop (stepCount (renderInput wgt l) k sym ut sl wgt)
        (initSt (workerReader (renderInput wgt l)
          ⟨0, (renderInput wgt l).length⟩ P t) 0)).pos)).sum =
      emitsSum sym ut sl l := by
    have h := counts_suffix k sym ut sl wgt l hwf P hP P 0 (by omega)
    rw [workerPrefix_zero] at h
    rw [← List.range_eq_range'] at h
    simpa using h
  obtain ⟨hx, hy, hwc, hmr, hmc⟩ := sts_suffix k sym ut sl wgt l hwf P hP P 0
    (by omega)
  rw [workerPrefix_zero, ← List.range_eq_range'] at hx hy hmr hmc
  simp only [List.length_nil, List.drop_zero, emitsSum_nil] at hx hy hmr hmc
  have hcg : ∀ {β : Type} (F : ScanSt → β),
      List.map
        (F ∘ fun t =>
          scanLoop (stepSet (renderInput wgt l) k sym ut sl wgt)
            (initSt
              (List.getD
                (List.map
                  (fun t2 =>
                    workerReader (renderInput wgt l)
                      ⟨0, (renderInput wgt l).length⟩ P t2)
                  (List.range P))
                t ⟨0, 0⟩)
              (List.sum
                (List.take t
                  (List.map
                    ((fun rr =>
                      (scanLoop (stepCount (renderInput wgt l) k sym ut
                        sl wgt) (initSt rr 0)).pos) ∘
                      fun t2 =>
                        workerReader (renderInput wgt l)
                          ⟨0, (renderInput wgt l).length⟩ P t2)
                    (List.range P))))))
        (List.range P) =
      List.map
        (fun t =>
          F (scanLoop (stepSet (renderInput wgt l) k sym ut sl wgt)
            (initSt
              (workerReader (renderInput wgt l)
                ⟨0, (renderInput wgt l).length⟩ P t)
              (emitsSum sym ut sl (workerPrefix wgt l P t)))))
        (List.range P) := by
    intro β F
    refine List.map_congr_left ?_
    intro t ht
    have htP : t < P := List.mem_range.mp ht
    have hgd : List.getD (List.map (fun t2 => workerReader (renderInput wgt l)
        ⟨0, (renderInput wgt l).length⟩ P t2) (List.range P)) t ⟨0, 0⟩ =
        workerReader (renderInput wgt l)
          ⟨0, (renderInput wgt l).length⟩ P t := by
      rw [List.getD_eq_getElem?_getD, List.getElem?_map,
        List.getElem?_range htP]
      rfl
    rw [Function.comp_apply, hgd, hcomp,
      counts_prefix k sym ut sl wgt l hwf P hP t (by omega)]
  unfold readEl
  simp only [List.map_map]
  refine ⟨?_, ?_, ?_, ?_, ?_, ?_, ?_⟩
  · rw [hcomp, hsum]
  · rw [hcg ScanSt.xs, hx]
  · rw [hcg ScanSt.ys, hy]
  · rw [hcg ScanSt.maxRow, hmr 0]
  · rw [hcg ScanSt.maxCol, hmc 0]
  · rw [hcg ScanSt.maxRow, hcg ScanSt.maxCol, hmr 0, hmc 0]
  · intro hcond
    have hw := hwc hcond
    rw [workerPrefix_zero, ← List.range_eq_range'] at hw
    simp only [List.length_nil, List.drop_zero, emitsSum_nil] at hw
    rw [hcg ScanSt.ws, hw]

end Pigo

namespace Pigo

/-- C6 (amended): on a rendered, newline-terminated input of well-formed
records, every worker count `P ≥ 1` produces the same `m`, `X`, `Y`,
`nrows`, `ncols` and `n` as the single sequential left-to-right scan
(`P = 1`); the `W` array also agrees whenever the parse is unweighted or
no record is dropped by the `sym`/`ut`/`sl` filter. -/
theorem claim_C6_theorem (k : WKind) (sym ut sl wgt : Bool) (l : List RecTxt)
    (hwf : ∀ u ∈ l, recWF wgt u = true) (P : Nat) (hP : 0 < P) :
    (readEl (renderInput wgt l) k sym ut sl wgt P
        ⟨0, (renderInput wgt l).length⟩).m =
      (readEl (renderInput wgt l) k sym ut sl wgt 1
        ⟨0, (renderInput wgt l).length⟩).m ∧
    (readEl (renderInput wgt l) k sym ut sl wgt P
        ⟨0, (renderInput wgt l).length⟩).xs =
      (readEl (renderInput wgt l) k sym ut sl wgt 1
        ⟨0, (renderInput wgt l).length⟩).xs ∧
    (readEl (renderInput wgt l) k sym ut sl wgt P
        ⟨0, (renderInput wgt l).length⟩).ys =
      (readEl (renderInput wgt l) k sym ut sl wgt 1
        ⟨0, (renderInput wgt l).length⟩).ys ∧
    (readEl (renderInput wgt l) k sym ut sl wgt P
        ⟨0, (renderInput wgt l).length⟩).nrows =
      (readEl (renderInput wgt l) k sym ut sl wgt 1
        ⟨0, (renderInput wgt l).length⟩).nrows ∧
    (readEl (renderInput wgt l) k sym ut sl wgt P
        ⟨0, (renderInput wgt l).length⟩).ncols =
      (readEl (renderInput wgt l) k sym ut sl wgt 1
        ⟨0, (renderInput wgt l).length⟩).ncols ∧
    (readEl (renderInput wgt l) k sym ut sl wgt P
        ⟨0, (renderInput wgt l).length⟩).n =
      (readEl (renderInput wgt l) k sym ut sl wgt 1
        ⟨0, (renderInput wgt l).length⟩).n ∧
    ((wgt = false ∨
      ∀ u ∈ l, recDrop sym ut sl (digVal u.xd) (digVal u.yd) = false) →
      (readEl (renderInput wgt l) k sym ut sl wgt P
          ⟨0, (renderInput wgt l).length⟩).ws =
        (readEl (renderInput wgt l) k sym ut sl wgt 1
          ⟨0, (renderInput wgt l).length⟩).ws) := by
  obtain ⟨hm, hx, hy, hnr, hnc, hn, hw⟩ :=
    readEl_renderP k sym ut sl wgt l hwf P hP
  rw [readEl_render k sym ut sl wgt l hwf]
  refine ⟨?_, ?_, ?_, ?_, ?_, ?_, ?_⟩
  · rw [hm]
  · rw [hx]
  · rw [hy]
  · rw [hnr]
  · rw [hnc]
  · rw [hn]
  · intro hcond
    rw [hw hcond]
    show (idealLogs sym ut sl wgt 0 l).2.2 =
      (idealLogs sym ut sl wgt 0 l).2.2 ++
        idealTrail sym ut sl wgt l (emitsSum sym ut sl l)
    rw [trail_nil_of_cond sym ut sl wgt l l (fun u hu => hu) hcond,
      List.append_nil]

theorem claim_C6_witness :
    (∀ u ∈ [(⟨['1'], ['2'], ['3']⟩ : RecTxt), ⟨['4'], ['5'], ['6']⟩],
      recWF true u = true) ∧ 0 < 3 ∧
    ((readEl (renderInput true
        [(⟨['1'], ['2'], ['3']⟩ : RecTxt), ⟨['4'], ['5'], ['6']⟩])
        WKind.iUnsigned true false false true 3
        ⟨0, (renderInput true
          [(⟨['1'], ['2'], ['3']⟩ : RecTxt), ⟨['4'], ['5'], ['6']⟩]).length⟩).m =
      (readEl (renderInput true
        [(⟨['1'], ['2'], ['3']⟩ : RecTxt), ⟨['4'], ['5'], ['6']⟩])
        WKind.iUnsigned true false false true 1
        ⟨0, (renderInput true
          [(⟨['1'], ['2'], ['3']⟩ : RecTxt), ⟨['4'], ['5'], ['6']⟩]).length⟩).m ∧
    (readEl (renderInput true
        [(⟨['1'], ['2'], ['3']⟩ : RecTxt), ⟨['4'], ['5'], ['6']⟩])
        WKind.iUnsigned true false false true 3
        ⟨0, (renderInput true
          [(⟨['1'], ['2'], ['3']⟩ : RecTxt), ⟨['4'], ['5'], ['6']⟩]).length⟩).xs =
      (readEl (renderInput true
        [(⟨['1'], ['2'], ['3']⟩ : RecTxt), ⟨['4'], ['5'], ['6']⟩])
        WKind.iUnsigned true false false true 1
        ⟨0, (renderInput true
          [(⟨['1'], ['2'], ['3']⟩ : RecTxt), ⟨['4'], ['5'], ['6']⟩]).length⟩).xs ∧
    (readEl (renderInput true
        [(⟨['1'], ['2'], ['3']⟩ : RecTxt), ⟨['4'], ['5'], ['6']⟩])
        WKind.iUnsigned true false false true 3
        ⟨0, (renderInput true
          [(⟨['1'], ['2'], ['3']⟩ : RecTxt), ⟨['4'], ['5'], ['6']⟩]).length⟩).ys =
      (readEl (renderInput true
        [(⟨['1'], ['2'], ['3']⟩ : RecTxt), ⟨['4'], ['5'], ['6']⟩])
        WKind.iUnsigned true false false true 1
        ⟨0, (renderInput true
          [(⟨['1'], ['2'], ['3']⟩ : RecTxt), ⟨['4'], ['5'], ['6']⟩]).length⟩).ys ∧
    (readEl (renderInput true
        [(⟨['1'], ['2'], ['3']⟩ : RecTxt), ⟨['4'], ['5'], ['6']⟩])
        WKind.iUnsigned true false false true 3
        ⟨0, (renderInput true
          [(⟨['1'], ['2'], ['3']⟩ : RecTxt), ⟨['4'], ['5'], ['6']⟩]).length⟩).nrows =
      (readEl (renderInput true
        [(⟨['1'], ['2'], ['3']⟩ : RecTxt), ⟨['4'], ['5'], ['6']⟩])
        WKind.iUnsigned true false false true 1
        ⟨0, (renderInput true
          [(⟨['1'], ['2'], ['3']⟩ : RecTxt), ⟨['4'], ['5'], ['6']⟩]).length⟩).nrows ∧
    (readEl (renderInput true
        [(⟨['1'], ['2'], ['3']⟩ : RecTxt), ⟨['4'], ['5'], ['6']⟩])
        WKind.iUnsigned true false false true 3
        ⟨0, (renderInput true
          [(⟨['1'], ['2'], ['3']⟩ : RecTxt), ⟨['4'], ['5'], ['6']⟩]).length⟩).ncols =
      (readEl (renderInput true
        [(⟨['1'], ['2'], ['3']⟩ : RecTxt), ⟨['4'], ['5'], ['6']⟩])
        WKind.iUnsigned true false false true 1
        ⟨0, (renderInput true
          [(⟨['1'], ['2'], ['3']⟩ : RecTxt), ⟨['4'], ['5'], ['6']⟩]).length⟩).ncols ∧
    (readEl (renderInput true
        [(⟨['1'], ['2'], ['3']⟩ : RecTxt), ⟨['4'], ['5'], ['6']⟩])
        WKind.iUnsigned true false false true 3
        ⟨0, (renderInput true
          [(⟨['1'], ['2'], ['3']⟩ : RecTxt), ⟨['4'], ['5'], ['6']⟩]).length⟩).n =
      (readEl (renderInput true
        [(⟨['1'], ['2'], ['3']⟩ : RecTxt), ⟨['4'], ['5'], ['6']⟩])
        WKind.iUnsigned true false false true 1
        ⟨0, (renderInput true
          [(⟨['1'], ['2'], ['3']⟩ : RecTxt), ⟨['4'], ['5'], ['6']⟩]).length⟩).n ∧
    ((true = false ∨
      ∀ u ∈ [(⟨['1'], ['2'], ['3']⟩ : RecTxt), ⟨['4'], ['5'], ['6']⟩],
        recDrop true false false (digVal u.xd) (digVal u.yd) = false) →
      (readEl (renderInput true
          [(⟨['1'], ['2'], ['3']⟩ : RecTxt), ⟨['4'], ['5'], ['6']⟩])
          WKind.iUnsigned true false false true 3
          ⟨0, (renderInput true
            [(⟨['1'], ['2'], ['3']⟩ : RecTxt),
              ⟨['4'], ['5'], ['6']⟩]).length⟩).ws =
        (readEl (renderInput true
          [(⟨['1'], ['2'], ['3']⟩ : RecTxt), ⟨['4'], ['5'], ['6']⟩])
          WKind.iUnsigned true false false true 1
          ⟨0, (renderInput true
            [(⟨['1'], ['2'], ['3']⟩ : RecTxt),
              ⟨['4'], ['5'], ['6']⟩]).length⟩).ws)) :=
  ⟨by decide, by decide, claim_C6_theorem WKind.iUnsigned true false false true
    [(⟨['1'], ['2'], ['3']⟩ : RecTxt), ⟨['4'], ['5'], ['6']⟩] (by decide)
    3 (by decide)⟩

end Pigo
